import Mathlib

/-!
A verification development for the `genutil/postprocess` tool of the
payjpv2-go repository (`genutil/postprocess/main.go`).

The tool is a one-shot batch text transformer over the generated client
source.  Its core operations are embedded here shallowly:

* `extractErrorFieldMappings` — scan for `ApplicationproblemJSON(\d+)`
  marker tokens and build a token-to-kind-name mapping;
* `replaceFieldName` — three regex-replacement passes (declaration site,
  member-access site, quoted json tag);
* `replaceIDParams` — the `\b([a-z][a-zA-Z]*)Id\b` casing normalization;
* `extractErrorMappings` / `generateErrorMappingsFile` — the sorted
  mapping list and the generated artifact text;
* `httpStatusName` — `http.StatusText` with spaces removed, falling back
  to the decimal digits of the code.

Texts are `List Char`; the regex passes are embedded as left-to-right
scanners implementing the leftmost-match/replace-all semantics of the
concrete patterns used by the source (each scanner is written with an
explicit fuel argument, always called with the text length, so that all
definitions compute by kernel reduction).  Go maps are embedded as
association lists in discovery order.  Machine integers (`int`) are
`Int` with the 64-bit range checks of `strconv.Atoi` made explicit.
-/

/-! ## Character classes of the Go regexp patterns -/

/-- Go regexp `\w`: `[0-9A-Za-z_]` (ASCII). -/
def isWordChar (c : Char) : Bool := c.isAlphanum || c = '_'

/-- Go regexp `\s`: `[\t\n\f\r ]`. -/
def isGoSpace (c : Char) : Bool :=
  c = ' ' || c = '\t' || c = '\n' || c = '\x0c' || c = '\r'

/-- Word-character status of the first character of a text (`false` at
end of text), used for `\b` word-boundary tests. -/
def wordAt : List Char → Bool
  | [] => false
  | c :: _ => isWordChar c

/-- Word-character status of the last character of a list, with a
default for the empty list. -/
def lastWord (l : List Char) (dflt : Bool) : Bool :=
  match l.getLast? with
  | none => dflt
  | some c => isWordChar c

/-! ## `strconv.Atoi` (64-bit platform) -/

/-- The numeric value of a run of decimal digit characters. -/
def digitsToNat (ds : List Char) : Nat :=
  ds.foldl (fun a c => 10 * a + (c.toNat - '0'.toNat)) 0

/-- Model of Go `strconv.Atoi` on a 64-bit platform: an optional sign
followed by a non-empty run of decimal digits, failing (`none`, i.e.
`err != nil`) on the empty string, on any non-digit character, and when
the value is outside the `int64` range. -/
def goAtoi (s : List Char) : Option Int :=
  match s with
  | [] => none
  | '+' :: rest =>
    if rest ≠ [] ∧ rest.all Char.isDigit ∧ digitsToNat rest ≤ 2 ^ 63 - 1 then
      some (digitsToNat rest) else none
  | '-' :: rest =>
    if rest ≠ [] ∧ rest.all Char.isDigit ∧ digitsToNat rest ≤ 2 ^ 63 then
      some (-(digitsToNat rest : Int)) else none
  | s =>
    if s.all Char.isDigit ∧ digitsToNat s ≤ 2 ^ 63 - 1 then
      some (digitsToNat s) else none

/-- Go `strings.TrimPrefix`. -/
def goTrimPrefixL (s p : List Char) : List Char :=
  if p.isPrefixOf s then s.drop p.length else s

/-! ## `http.StatusText` and `httpStatusName` -/

/-- The `net/http` status text table (`http.StatusText`): the standard
reason phrase of a status code, `""` when the code is unknown. -/
def statusText (code : Int) : String :=
  match code with
  | 100 => "Continue"
  | 101 => "Switching Protocols"
  | 102 => "Processing"
  | 103 => "Early Hints"
  | 200 => "OK"
  | 201 => "Created"
  | 202 => "Accepted"
  | 203 => "Non-Authoritative Information"
  | 204 => "No Content"
  | 205 => "Reset Content"
  | 206 => "Partial Content"
  | 207 => "Multi-Status"
  | 208 => "Already Reported"
  | 226 => "IM Used"
  | 300 => "Multiple Choices"
  | 301 => "Moved Permanently"
  | 302 => "Found"
  | 303 => "See Other"
  | 304 => "Not Modified"
  | 305 => "Use Proxy"
  | 307 => "Temporary Redirect"
  | 308 => "Permanent Redirect"
  | 400 => "Bad Request"
  | 401 => "Unauthorized"
  | 402 => "Payment Required"
  | 403 => "Forbidden"
  | 404 => "Not Found"
  | 405 => "Method Not Allowed"
  | 406 => "Not Acceptable"
  | 407 => "Proxy Authentication Required"
  | 408 => "Request Timeout"
  | 409 => "Conflict"
  | 410 => "Gone"
  | 411 => "Length Required"
  | 412 => "Precondition Failed"
  | 413 => "Request Entity Too Large"
  | 414 => "Request URI Too Long"
  | 415 => "Unsupported Media Type"
  | 416 => "Requested Range Not Satisfiable"
  | 417 => "Expectation Failed"
  | 418 => "I\x27m a teapot"
  | 421 => "Misdirected Request"
  | 422 => "Unprocessable Entity"
  | 423 => "Locked"
  | 424 => "Failed Dependency"
  | 425 => "Too Early"
  | 426 => "Upgrade Required"
  | 428 => "Precondition Required"
  | 429 => "Too Many Requests"
  | 431 => "Request Header Fields Too Large"
  | 451 => "Unavailable For Legal Reasons"
  | 500 => "Internal Server Error"
  | 501 => "Not Implemented"
  | 502 => "Bad Gateway"
  | 503 => "Service Unavailable"
  | 504 => "Gateway Timeout"
  | 505 => "HTTP Version Not Supported"
  | 506 => "Variant Also Negotiates"
  | 507 => "Insufficient Storage"
  | 508 => "Loop Detected"
  | 510 => "Not Extended"
  | 511 => "Network Authentication Required"
  | _ => ""

/-- `strings.ReplaceAll(text, " ", "")`: every space removed. -/
def removeSpaces (s : String) : String :=
  (s.data.filter fun c => c ≠ ' ').asString

/-- `fmt.Sprintf("%d", code)`. -/
def intDecimal (code : Int) : String := Int.repr code

/-- `httpStatusName` of the source: the `http.StatusText` phrase with
all spaces removed, or the decimal digits of the code when the phrase
is empty. -/
def httpStatusName (code : Int) : String :=
  let text := statusText code
  if text = "" then intDecimal code else removeSpaces text

/-- Claim C3: for every integer status code, `httpStatusName` returns
the standard reason phrase with all spaces removed when one is known
(400 → "BadRequest", 404 → "NotFound", 500 → "InternalServerError") and
the decimal digit string of the code otherwise (999 → "999"); it is a
total function, defined on every code. -/
theorem claim_C3 :
    httpStatusName 400 = "BadRequest" ∧
    httpStatusName 404 = "NotFound" ∧
    httpStatusName 500 = "InternalServerError" ∧
    httpStatusName 999 = "999" ∧
    (∀ code : Int, statusText code ≠ "" →
      httpStatusName code = removeSpaces (statusText code)) ∧
    (∀ code : Int, statusText code = "" →
      httpStatusName code = intDecimal code) := by
  refine ⟨by decide, by decide, by decide, by decide, ?_, ?_⟩
  · intro code h
    simp [httpStatusName, h]
  · intro code h
    simp [httpStatusName, h]

/-- Witness for claim C3 at a concrete known code and a concrete
unknown code. -/
theorem claim_C3_witness :
    (statusText 403 ≠ "" ∧ httpStatusName 403 = removeSpaces (statusText 403)) ∧
    (statusText 999 = "" ∧ httpStatusName 999 = intDecimal 999) := by
  refine ⟨⟨by decide, claim_C3.2.2.2.2.1 403 (by decide)⟩,
          ⟨by decide, claim_C3.2.2.2.2.2 999 (by decide)⟩⟩

/-! ## The marker-token scan (`ApplicationproblemJSON(\d+)`) -/

/-- The fixed marker prefix of error payload field names. -/
def markerPfx : List Char := "ApplicationproblemJSON".data

/-- The digit runs of the successive leftmost matches of
`ApplicationproblemJSON(\d+)` (the submatch `match[1]` of each element
of `FindAllStringSubmatch`): at each position, the pattern matches when
the literal prefix is followed by at least one decimal digit, the digit
run is maximal (greedy `\d+`), and the scan resumes after the match.
The fuel argument is the length of the unscanned text. -/
def findDigitRunsF : Nat → List Char → List (List Char)
  | 0, _ => []
  | _ + 1, [] => []
  | fuel + 1, s@(_ :: rest) =>
    if markerPfx.isPrefixOf s ∧ ((s.drop markerPfx.length).headD 'x').isDigit then
      let d := (s.drop markerPfx.length).takeWhile Char.isDigit
      d :: findDigitRunsF fuel (s.drop (markerPfx.length + d.length))
    else
      findDigitRunsF fuel rest

/-- All digit runs of marker-token matches in a text. -/
def findDigitRuns (s : List Char) : List (List Char) := findDigitRunsF s.length s

/-- The loop body of `extractErrorFieldMappings`: for each match, skip
the token when it is already a key, skip it when `strconv.Atoi` fails
on its digit run, and otherwise record token → `httpStatusName`. -/
def extractLoop : List (List Char) → List (List Char × String) → List (List Char × String)
  | [], acc => acc
  | d :: ds, acc =>
    let oldName := markerPfx ++ d
    if (acc.lookup oldName).isSome then extractLoop ds acc
    else
      match goAtoi d with
      | none => extractLoop ds acc
      | some code => extractLoop ds (acc ++ [(oldName, httpStatusName code)])

/-- `extractErrorFieldMappings` of the source: the discovered mapping
from full marker token to derived kind name, as an association list in
first-discovery order (the Go original stores it in a map). -/
def extractErrorFieldMappingsL (content : List Char) : List (List Char × String) :=
  extractLoop (findDigitRuns content) []

/-! ## `replaceFieldName`: the three replacement passes -/

/-- Parse `\s+\*?\w+` (the capture group of the declaration-site
pattern) from the front of a text: one or more whitespace characters,
an optional `*`, then one or more word characters, all greedy.  Returns
the consumed characters and the rest, or `none` when the group does not
match here. -/
def declTailSplit (t : List Char) : Option (List Char × List Char) :=
  if (t.takeWhile isGoSpace).isEmpty then none
  else
    match t.drop (t.takeWhile isGoSpace).length with
    | [] => none
    | c :: t2 =>
      if c = '*' then
        if (t2.takeWhile isWordChar).isEmpty then none
        else some (t.takeWhile isGoSpace ++ '*' :: t2.takeWhile isWordChar,
          t2.drop (t2.takeWhile isWordChar).length)
      else
        if ((c :: t2).takeWhile isWordChar).isEmpty then none
        else some (t.takeWhile isGoSpace ++ (c :: t2).takeWhile isWordChar,
          (c :: t2).drop ((c :: t2).takeWhile isWordChar).length)

/-- The declaration-site pass: `ReplaceAllString` of
`\b oldName (\s+\*?\w+)` with `newName$1`.  `prevW` is the word-ness of
the previously scanned character (`false` at the start of text), so the
leading `\b` holds exactly when `prevW` differs from the word-ness of
the character at the current position. -/
def declRepF (oldName newName : List Char) : Nat → Bool → List Char → List Char
  | 0, _, s => s
  | _ + 1, _, [] => []
  | fuel + 1, prevW, s@(c :: rest) =>
    if prevW ≠ wordAt s ∧ oldName.isPrefixOf s then
      match declTailSplit (s.drop oldName.length) with
      | some (tl, rest2) => newName ++ tl ++ declRepF oldName newName fuel true rest2
      | none => c :: declRepF oldName newName fuel (isWordChar c) rest
    else
      c :: declRepF oldName newName fuel (isWordChar c) rest

/-- The member-access pass: `ReplaceAllString` of `\.oldName\b` with
`.newName`.  The trailing `\b` compares the last character of the
consumed match (`oldName`, or the dot when `oldName` is empty) with the
following character. -/
def accRepF (oldName newName : List Char) : Nat → List Char → List Char
  | 0, s => s
  | _ + 1, [] => []
  | fuel + 1, c :: rest =>
    if c = '.' ∧ oldName.isPrefixOf rest ∧
        lastWord oldName false ≠ wordAt (rest.drop oldName.length) then
      '.' :: (newName ++ accRepF oldName newName fuel (rest.drop oldName.length))
    else
      c :: accRepF oldName newName fuel rest

/-- The literal text `json:"name"`. -/
def jsonTagLit (name : List Char) : List Char :=
  "json:\"".data ++ name ++ ['"']

/-- The json-tag pass: `ReplaceAllString` of the literal pattern
`json:"oldName"` with `json:"newName"`. -/
def tagRepF (oldName newName : List Char) : Nat → List Char → List Char
  | 0, s => s
  | _ + 1, [] => []
  | fuel + 1, s@(c :: rest) =>
    if (jsonTagLit oldName).isPrefixOf s then
      jsonTagLit newName ++ tagRepF oldName newName fuel (s.drop (jsonTagLit oldName).length)
    else
      c :: tagRepF oldName newName fuel rest

/-- `replaceFieldName` of the source: the declaration-site pass, then
the member-access pass, then the json-tag pass. -/
def replaceFieldNameL (content oldName newName : List Char) : List Char :=
  let s1 := declRepF oldName newName content.length false content
  let s2 := accRepF oldName newName s1.length s1
  tagRepF oldName newName s2.length s2

/-- `replaceFieldName` on `String`s. -/
def replaceFieldName (content oldName newName : String) : String :=
  (replaceFieldNameL content.data oldName.data newName.data).asString

/-! ## `replaceIDParams` -/

/-- The casing-normalization pass: `ReplaceAllString` of
`\b([a-z][a-zA-Z]*)Id\b` with `${1}ID`.  A match starts at a word
boundary on a lowercase letter; because the group and the literal `Id`
are all letters and the trailing `\b` requires a non-word character (or
the end of text) after `Id`, the pattern matches at a position exactly
when the maximal letter run there has length at least 3, ends in `Id`,
and is followed by a non-word character or the end of text; the
leftmost-first (greedy) semantics make the group the whole run minus
the final `Id`. -/
def idRepF : Nat → Bool → List Char → List Char
  | 0, _, s => s
  | _ + 1, _, [] => []
  | fuel + 1, prevW, s@(c :: rest) =>
    if prevW = false ∧ c.isLower then
      let run := s.takeWhile Char.isAlpha
      if 3 ≤ run.length ∧ run.drop (run.length - 2) = ['I', 'd'] ∧
          wordAt (s.drop run.length) = false then
        run.take (run.length - 2) ++ 'I' :: 'D' :: idRepF fuel true (s.drop run.length)
      else
        c :: idRepF fuel (isWordChar c) rest
    else
      c :: idRepF fuel (isWordChar c) rest

/-- `replaceIDParams` of the source. -/
def replaceIDParamsL (content : List Char) : List Char :=
  idRepF content.length false content

/-- `replaceIDParams` on `String`s. -/
def replaceIDParams (content : String) : String :=
  (replaceIDParamsL content.data).asString

/-! ## The in-memory pipeline of `main` -/

/-- The fixed success-response rename table of the source. -/
def fieldMappings : List (String × String) :=
  [("JSON200", "Result"), ("JSON201", "Result")]

/-- Apply a list of rename rules left to right with `replaceFieldName`
(the Go original iterates a map; the embedding fixes the discovery
order). -/
def applyRenames (content : List Char) (rules : List (List Char × String)) : List Char :=
  rules.foldl (fun acc r => replaceFieldNameL acc r.1 r.2.data) content

/-- The in-memory transformation of `main`: extract the error field
mappings from the input, apply the two fixed success-field renames,
apply every extracted error-field rename, then normalize identifier
casing. -/
def transformTextL (content : List Char) : List Char :=
  let efm := extractErrorFieldMappingsL content
  let m1 := applyRenames content (fieldMappings.map fun r => (r.1.data, r.2))
  let m2 := applyRenames m1 efm
  replaceIDParamsL m2

/-- The in-memory transformation on `String`s. -/
def transformText (content : String) : String :=
  (transformTextL content.data).asString

example : replaceFieldName "JSON200 *CustomerResponse" "JSON200" "Data" = "Data *CustomerResponse" := by decide
example : replaceFieldName "resp.JSON200.Name" "JSON200" "Data" = "resp.Data.Name" := by decide
example : replaceFieldName "json:\"JSON200\"" "JSON200" "Data" = "json:\"Data\"" := by decide
example : replaceFieldName "JSON2001" "JSON200" "Data" = "JSON2001" := by decide
example : replaceFieldName "if resp.JSON200 != nil" "JSON200" "Data" = "if resp.Data != nil" := by decide
example : replaceIDParams "customerId, paymentId" = "customerID, paymentID" := by decide
example : replaceIDParams "someIdentifier" = "someIdentifier" := by decide
example : replaceIDParams "GetCustomer(customerId)" = "GetCustomer(customerID)" := by decide
example : transformText "ApplicationproblemJSON400 *ErrorResponse" = "BadRequest *ErrorResponse" := by decide
example : transformText "JSON200 JSON200 x" = "Result JSON200 x" := by decide
example : transformText "Result JSON200 x" = "Result Result x" := by decide

/-! ## `extractErrorMappings` and the generated artifact -/

/-- `ErrorMapping` of the source: an error field name paired with its
HTTP status code. -/
structure ErrorMapping where
  FieldName : String
  StatusCode : Int
  deriving DecidableEq

/-- Insert an `ErrorMapping` into a list before the first entry with a
strictly larger status code. -/
def insertEM (x : ErrorMapping) : List ErrorMapping → List ErrorMapping
  | [] => [x]
  | y :: ys => if x.StatusCode ≤ y.StatusCode then x :: y :: ys else y :: insertEM x ys

/-- Sort a list of `ErrorMapping`s by ascending status code (insertion
sort; the Go original calls the unstable `sort.Slice`, whose contract
is only sortedness by the given comparison). -/
def sortEM : List ErrorMapping → List ErrorMapping
  | [] => []
  | x :: xs => insertEM x (sortEM xs)

/-- `extractErrorMappings` of the source: strip the marker prefix from
each key, parse the remaining digits with `strconv.Atoi` (skipping the
entry when parsing fails), and sort the resulting list by ascending
status code. -/
def extractErrorMappingsL (errorFieldMappings : List (List Char × String)) : List ErrorMapping :=
  sortEM (errorFieldMappings.filterMap fun p =>
    match goAtoi (goTrimPrefixL p.1 markerPfx) with
    | some code => some ⟨p.2, code⟩
    | none => none)

/-- Go `fmt` `%q` on a string value: the text wrapped in double quotes,
with quotes and backslashes escaped (no other escapes are needed for
any string this program quotes). -/
def goQuote (s : String) : String :=
  ("\"".data ++ (s.data.flatMap fun c =>
    if c = '"' ∨ c = '\\' then ['\\', c] else [c]) ++ "\"".data).asString

/-- The text of the generated `error_mappings.gen.go` artifact
(`generateErrorMappingsFile` of the source, minus the file write): a
header, the `ErrorFieldMapping` type, and one table entry per mapping
referencing the named `http.Status…` constant. -/
def generateErrorMappingsText (mappings : List ErrorMapping) : String :=
  "// Code generated by postprocess. DO NOT EDIT.\n\n" ++
  "package payjpv2\n\n" ++
  "import \"net/http\"\n\n" ++
  "// ErrorFieldMapping defines the mapping between error field name and HTTP status code\n" ++
  "type ErrorFieldMapping struct \x7b\n" ++
  "\tFieldName  string\n" ++
  "\tStatusCode int\n" ++
  "\x7d\n\n" ++
  "// ErrorFieldMappings is the list of error field mappings used by ParseAPIError\n" ++
  "var ErrorFieldMappings = []ErrorFieldMapping\x7b\n" ++
  String.join (mappings.map fun m =>
    "\t\x7b" ++ goQuote m.FieldName ++ ", http.Status" ++
      httpStatusName m.StatusCode ++ "\x7d,\n") ++
  "\x7d\n"

example :
    extractErrorMappingsL (extractErrorFieldMappingsL "ApplicationproblemJSON400 *E\nApplicationproblemJSON500 *E\nApplicationproblemJSON404 *E".data) =
      [⟨"BadRequest", 400⟩, ⟨"NotFound", 404⟩, ⟨"InternalServerError", 500⟩] := by decide
example :
    extractErrorMappingsL (extractErrorFieldMappingsL "ApplicationproblemJSON007 ApplicationproblemJSON7".data) =
      [⟨"7", 7⟩, ⟨"7", 7⟩] := by decide
example :
    extractErrorFieldMappingsL "ApplicationproblemJSON99999999999999999999".data = [] := by decide
example :
    goQuote "BadRequest" = "\"BadRequest\"" := by decide

/-! ## Facts about the character classes -/

/-- A word character is never one of the `\s` whitespace characters. -/
theorem word_not_space {c : Char} (h : isWordChar c = true) : isGoSpace c = false := by
  by_cases h' : isGoSpace c = true
  · have hc : c = ' ' ∨ c = '\t' ∨ c = '\n' ∨ c = '\x0c' ∨ c = '\r' := by
      have := h'
      simp only [isGoSpace, Bool.or_eq_true, decide_eq_true_eq] at this
      tauto
    rcases hc with rfl | rfl | rfl | rfl | rfl <;> exact absurd h (by decide)
  · simpa using h'

/-- ASCII letters are word characters. -/
theorem word_of_alpha {c : Char} (h : c.isAlpha = true) : isWordChar c = true := by
  have : c.isAlphanum = true := by
    simp [Char.isAlphanum, h]
  simp [isWordChar, this]

/-- `idRepF` on the empty text. -/
theorem idRepF_nil (fuel : Nat) (b : Bool) : idRepF fuel b [] = [] := by
  cases fuel <;> rfl

/-- The single-identifier behaviour of `replaceIDParams`: a whole text
that is one identifier of the shape `[a-z][a-zA-Z]*` followed by `Id`
is rewritten to end in `ID` with the prefix kept. -/
theorem idRep_whole (g : List Char) (hne : g ≠ []) (hal : ∀ c ∈ g, c.isAlpha = true)
    (hlo : (g.headD 'A').isLower = true) :
    replaceIDParamsL (g ++ ['I', 'd']) = g ++ ['I', 'D'] := by
  obtain ⟨c, t, rfl⟩ : ∃ c t, g = c :: t := by
    cases g with
    | nil => exact absurd rfl hne
    | cons c t => exact ⟨c, t, rfl⟩
  have hlo' : c.isLower = true := by simpa using hlo
  have hall : ∀ x ∈ c :: (t ++ ['I', 'd']), Char.isAlpha x = true := by
    intro x hx
    rcases List.mem_cons.1 hx with rfl | hx'
    · exact hal x (List.mem_cons_self ..)
    · rcases List.mem_append.1 hx' with hx'' | hx''
      · exact hal x (List.mem_cons_of_mem _ hx'')
      · have : x = 'I' ∨ x = 'd' := by simpa using hx''
        rcases this with rfl | rfl <;> decide
  have hrun : (c :: (t ++ ['I', 'd'])).takeWhile Char.isAlpha = c :: (t ++ ['I', 'd']) :=
    List.takeWhile_eq_self_iff.2 hall
  have hlen2 : (c :: (t ++ ['I', 'd'])).length - 2 = (c :: t).length := by
    simp
  have hdrop2 : (c :: (t ++ ['I', 'd'])).drop ((c :: (t ++ ['I', 'd'])).length - 2) = ['I', 'd'] := by
    rw [hlen2, show c :: (t ++ ['I', 'd']) = (c :: t) ++ ['I', 'd'] from rfl, List.drop_left]
  have htake2 : (c :: (t ++ ['I', 'd'])).take ((c :: (t ++ ['I', 'd'])).length - 2) = c :: t := by
    rw [hlen2, show c :: (t ++ ['I', 'd']) = (c :: t) ++ ['I', 'd'] from rfl, List.take_left]
  unfold replaceIDParamsL
  simp only [List.cons_append, List.length_cons]
  simp only [idRepF]
  rw [if_pos ⟨trivial, hlo'⟩]
  simp only [hrun]
  rw [if_pos ⟨by simp, hdrop2, by rw [List.drop_length]; rfl⟩]
  rw [htake2, List.drop_length, idRepF_nil]
  simp

/-- Claim C6: `replaceIDParams` rewrites every word-bounded identifier
that begins with a lowercase letter, continues with letters, and ends
in the literal suffix `Id` so that it ends in `ID` with the prefix kept
(stated for whole-identifier texts in the last conjunct), and on the
spec's examples: `customerId` → `customerID`, `paymentMethodId` →
`paymentMethodID`, `customerId, paymentId` → `customerID, paymentID`,
while `Invalid`, `id`, `ID` and `someIdentifier` are unchanged. -/
theorem claim_C6 :
    replaceIDParams "customerId" = "customerID" ∧
    replaceIDParams "paymentMethodId" = "paymentMethodID" ∧
    replaceIDParams "customerId, paymentId" = "customerID, paymentID" ∧
    replaceIDParams "Invalid" = "Invalid" ∧
    replaceIDParams "id" = "id" ∧
    replaceIDParams "ID" = "ID" ∧
    replaceIDParams "someIdentifier" = "someIdentifier" ∧
    (∀ g : List Char, g ≠ [] → (∀ c ∈ g, c.isAlpha = true) →
      (g.headD 'A').isLower = true →
      replaceIDParamsL (g ++ ['I', 'd']) = g ++ ['I', 'D']) :=
  ⟨by decide, by decide, by decide, by decide, by decide, by decide, by decide, idRep_whole⟩

/-- Witness for claim C6's universally quantified conjunct at the
concrete identifier prefix `customer`. -/
theorem claim_C6_witness :
    ("customer".data ≠ [] ∧ (∀ c ∈ "customer".data, c.isAlpha = true) ∧
      ("customer".data.headD 'A').isLower = true) ∧
    replaceIDParamsL ("customer".data ++ ['I', 'd']) = "customer".data ++ ['I', 'D'] :=
  ⟨⟨by decide, by decide, by decide⟩,
    claim_C6.2.2.2.2.2.2.2 "customer".data (by decide) (by decide) (by decide)⟩

/-! ## Claim C1: no partial match of a longer identifier -/

/-- The last character of a non-empty all-word-character list is a word
character. -/
theorem lastWord_word {old : List Char} (hne : old ≠ [])
    (hw : ∀ c ∈ old, isWordChar c = true) : lastWord old false = true := by
  unfold lastWord
  rw [List.getLast?_eq_getLast old hne]
  exact hw _ (List.getLast_mem hne)

/-- The declaration-site pass changes nothing when every occurrence of
`oldName` is immediately followed by a word character. -/
theorem declRepF_id (old nw : List Char)
    (hw : ∀ c ∈ old, isWordChar c = true) :
    ∀ (fuel : Nat) (s : List Char) (prevW : Bool),
      (∀ i < s.length, old <+: s.drop i → wordAt (s.drop (i + old.length)) = true) →
      declRepF old nw fuel prevW s = s := by
  intro fuel
  induction fuel with
  | zero => intro s prevW _; rfl
  | succ fuel ih =>
    intro s prevW H
    cases s with
    | nil => rfl
    | cons c rest =>
      have Hrest : ∀ i < rest.length, old <+: rest.drop i →
          wordAt (rest.drop (i + old.length)) = true := by
        intro i hi hp
        have h := H (i + 1) (by simpa using Nat.succ_lt_succ hi)
          (by simpa [List.drop_succ_cons] using hp)
        simpa [List.drop_succ_cons, Nat.succ_add] using h
      by_cases hm : (prevW ≠ wordAt (c :: rest) ∧ old.isPrefixOf (c :: rest) = true)
      · have hocc : old <+: (c :: rest) := List.isPrefixOf_iff_prefix.1 hm.2
        have hw0 : wordAt ((c :: rest).drop old.length) = true := by
          have h := H 0 (by simp) (by simpa using hocc)
          simpa using h
        have hsplit : declTailSplit ((c :: rest).drop old.length) = none := by
          cases hd : (c :: rest).drop old.length with
          | nil => rw [hd] at hw0; simp [wordAt] at hw0
          | cons d tl =>
            rw [hd] at hw0
            have hword : isWordChar d = true := by simpa [wordAt] using hw0
            have hsp : isGoSpace d = false := word_not_space hword
            unfold declTailSplit
            simp [List.takeWhile_cons, hsp]
        simp only [declRepF]
        rw [if_pos hm, hsplit]
        show c :: declRepF old nw fuel (isWordChar c) rest = c :: rest
        rw [ih rest (isWordChar c) Hrest]
      · simp only [declRepF]
        rw [if_neg hm]
        show c :: declRepF old nw fuel (isWordChar c) rest = c :: rest
        rw [ih rest (isWordChar c) Hrest]

/-- The member-access pass changes nothing when every occurrence of
`oldName` is immediately followed by a word character. -/
theorem accRepF_id (old nw : List Char) (hne : old ≠ [])
    (hw : ∀ c ∈ old, isWordChar c = true) :
    ∀ (fuel : Nat) (s : List Char),
      (∀ i < s.length, old <+: s.drop i → wordAt (s.drop (i + old.length)) = true) →
      accRepF old nw fuel s = s := by
  intro fuel
  induction fuel with
  | zero => intro s _; rfl
  | succ fuel ih =>
    intro s H
    cases s with
    | nil => rfl
    | cons c rest =>
      have Hrest : ∀ i < rest.length, old <+: rest.drop i →
          wordAt (rest.drop (i + old.length)) = true := by
        intro i hi hp
        have h := H (i + 1) (by simpa using Nat.succ_lt_succ hi)
          (by simpa [List.drop_succ_cons] using hp)
        simpa [List.drop_succ_cons, Nat.succ_add] using h
      have hm : ¬ (c = '.' ∧ old.isPrefixOf rest = true ∧
          lastWord old false ≠ wordAt (rest.drop old.length)) := by
        rintro ⟨-, hp, hb⟩
        rcases List.isPrefixOf_iff_prefix.1 hp with hocc
        rcases rest with _ | ⟨d, tl⟩
        · have : old = [] := List.prefix_nil.1 hocc
          exact hne this
        · have h := H 1 (by simp) (by simpa [List.drop_succ_cons] using hocc)
          rw [Nat.add_comm, List.drop_succ_cons] at h
          exact hb (by rw [lastWord_word hne hw, h])
      simp only [accRepF]
      rw [if_neg hm]
      show c :: accRepF old nw fuel rest = c :: rest
      rw [ih rest Hrest]

/-- The json-tag pass changes nothing when every occurrence of
`oldName` is immediately followed by a word character. -/
theorem tagRepF_id (old nw : List Char)
    (hw : ∀ c ∈ old, isWordChar c = true) :
    ∀ (fuel : Nat) (s : List Char),
      (∀ i < s.length, old <+: s.drop i → wordAt (s.drop (i + old.length)) = true) →
      tagRepF old nw fuel s = s := by
  intro fuel
  induction fuel with
  | zero => intro s _; rfl
  | succ fuel ih =>
    intro s H
    cases s with
    | nil => rfl
    | cons c rest =>
      have Hrest : ∀ i < rest.length, old <+: rest.drop i →
          wordAt (rest.drop (i + old.length)) = true := by
        intro i hi hp
        have h := H (i + 1) (by simpa using Nat.succ_lt_succ hi)
          (by simpa [List.drop_succ_cons] using hp)
        simpa [List.drop_succ_cons, Nat.succ_add] using h
      have hm : ¬ ((jsonTagLit old).isPrefixOf (c :: rest) = true) := by
        intro hp
        obtain ⟨u, hu⟩ := List.isPrefixOf_iff_prefix.1 hp
        have hs6 : (c :: rest) = "json:\"".data ++ (old ++ '"' :: u) := by
          rw [← hu]
          simp [jsonTagLit]
        have hocc : old <+: (c :: rest).drop 6 := by
          rw [hs6]
          rw [show (6 : Nat) = ("json:\"".data).length from rfl, List.drop_left]
          exact ⟨'"' :: u, rfl⟩
        have h := H 6 (by
          rw [hs6]
          simp) hocc
        have hs6' : (c :: rest) = ("json:\"".data ++ old) ++ '"' :: u := by
          rw [hs6, List.append_assoc]
        have hlen6 : 6 + old.length = ("json:\"".data ++ old).length := by
          rw [List.length_append]
          have h6 : ("json:\"".data).length = 6 := rfl
          omega
        rw [hs6', hlen6, List.drop_left] at h
        simp [wordAt, isWordChar] at h
      simp only [tagRepF]
      rw [if_neg hm]
      show c :: tagRepF old nw fuel rest = c :: rest
      rw [ih rest Hrest]

/-- `replaceFieldName` changes nothing when every occurrence of
`oldName` is immediately followed by a word character. -/
theorem replaceFieldNameL_id (s old nw : List Char) (hne : old ≠ [])
    (hw : ∀ c ∈ old, isWordChar c = true)
    (H : ∀ i < s.length, old <+: s.drop i → wordAt (s.drop (i + old.length)) = true) :
    replaceFieldNameL s old nw = s := by
  unfold replaceFieldNameL
  rw [declRepF_id old nw hw s.length s false H]
  show tagRepF old nw (accRepF old nw s.length s).length (accRepF old nw s.length s) = s
  rw [accRepF_id old nw hne hw s.length s H]
  exact tagRepF_id old nw hw s.length s H

/-- Claim C1: `replaceFieldName` never rewrites an occurrence of
`oldName` that is a proper prefix of a longer identifier: whenever
every occurrence of `oldName` in the text is immediately followed by a
word character, the text is returned unchanged; in particular the rule
(`JSON200`, `Data`) leaves a text consisting of (or containing) the
longer token `JSON2001` untouched. -/
theorem claim_C1 :
    (∀ (s old nw : List Char), old ≠ [] → (∀ c ∈ old, isWordChar c = true) →
      (∀ i < s.length, old <+: s.drop i → wordAt (s.drop (i + old.length)) = true) →
      replaceFieldNameL s old nw = s) ∧
    replaceFieldName "JSON2001" "JSON200" "Data" = "JSON2001" ∧
    replaceFieldName "x := resp.JSON2001 + JSON2001/2" "JSON200" "Data" =
      "x := resp.JSON2001 + JSON2001/2" :=
  ⟨fun s old nw hne hw H => replaceFieldNameL_id s old nw hne hw H, by decide, by decide⟩

/-- Witness for claim C1's universally quantified conjunct at the
concrete text `resp.JSON2001` and the rule (`JSON200`, `Data`). -/
theorem claim_C1_witness :
    ("JSON200".data ≠ [] ∧ (∀ c ∈ "JSON200".data, isWordChar c = true) ∧
      (∀ i < ("resp.JSON2001".data).length, "JSON200".data <+: ("resp.JSON2001".data).drop i →
        wordAt (("resp.JSON2001".data).drop (i + ("JSON200".data).length)) = true)) ∧
    replaceFieldNameL "resp.JSON2001".data "JSON200".data "Data".data = "resp.JSON2001".data :=
  ⟨⟨by decide, by decide, by decide⟩,
    claim_C1.1 "resp.JSON2001".data "JSON200".data "Data".data
      (by decide) (by decide) (by decide)⟩

/-! ## Claims C8 and C9: the whole pipeline -/

/-- A sample of generated client source exercising all rename families:
a success field with its json tag, two error fields, a member access
and an `Id`-suffixed parameter. -/
def sampleGenText : String :=
  "type R struct \x7b\n\tJSON200 *Cust `json:\"JSON200\"`\n\tApplicationproblemJSON400 *ErrorResponse\n\tApplicationproblemJSON404 *ErrorResponse\n\x7d\nfunc Get(customerId string) \x7b return r.JSON200 \x7d\n"

/-- Counterexample to claim C8 as stated: the in-memory transformation
is not idempotent on every text.  On `"JSON200 JSON200 x"` the first
declaration-site match consumes the second `JSON200` token as its
type-reference tail, so one application yields `"Result JSON200 x"`
and a second application rewrites the remaining token again. -/
theorem claim_C8_cex :
    transformText (transformText "JSON200 JSON200 x") ≠
      transformText "JSON200 JSON200 x" := by decide

set_option maxRecDepth 8000 in
/-- Claim C8 (amended): the in-memory transformation is deterministic
but idempotent only on texts where one application leaves no rename
target anchored for replacement — in particular on the end-to-end
scenario text and on a struct/function sample shaped like real
generated code; it is not idempotent on every text (see the
counterexample), because a declaration-site match swallows the
following token as its type-reference tail. -/
theorem claim_C8 :
    transformText (transformText "ApplicationproblemJSON400 *ErrorResponse") =
      transformText "ApplicationproblemJSON400 *ErrorResponse" ∧
    transformText (transformText sampleGenText) = transformText sampleGenText :=
  ⟨by decide, by decide⟩

set_option maxRecDepth 8000 in
/-- Claim C9: on the input `"ApplicationproblemJSON400 *ErrorResponse"`
the full pipeline rewrites the text to `"BadRequest *ErrorResponse"`,
extracts exactly one error mapping (`BadRequest`, 400), and the
generated artifact contains exactly one table entry referencing the
named constant `http.StatusBadRequest` rather than the bare numeral. -/
theorem claim_C9 :
    transformText "ApplicationproblemJSON400 *ErrorResponse" = "BadRequest *ErrorResponse" ∧
    extractErrorMappingsL
      (extractErrorFieldMappingsL "ApplicationproblemJSON400 *ErrorResponse".data) =
      [⟨"BadRequest", 400⟩] ∧
    generateErrorMappingsText [⟨"BadRequest", 400⟩] =
      "// Code generated by postprocess. DO NOT EDIT.\n\npackage payjpv2\n\nimport \"net/http\"\n\n// ErrorFieldMapping defines the mapping between error field name and HTTP status code\ntype ErrorFieldMapping struct \x7b\n\tFieldName  string\n\tStatusCode int\n\x7d\n\n// ErrorFieldMappings is the list of error field mappings used by ParseAPIError\nvar ErrorFieldMappings = []ErrorFieldMapping\x7b\n\t\x7b\"BadRequest\", http.StatusBadRequest\x7d,\n\x7d\n" :=
  ⟨by decide, by decide, by decide⟩

/-! ## Claims C2/C4/C5/C10: the extraction pipeline -/

/-- Dropping the matched `takeWhile` run leaves the `dropWhile` rest. -/
theorem drop_length_takeWhile (p : Char → Bool) (l : List Char) :
    l.drop (l.takeWhile p).length = l.dropWhile p := by
  induction l with
  | nil => rfl
  | cons a t ih =>
    by_cases hp : p a = true
    · simp [List.takeWhile_cons, List.dropWhile_cons, hp, ih]
    · simp [List.takeWhile_cons, List.dropWhile_cons, hp]

/-- The first character surviving `dropWhile` falsifies the predicate
(with a falsifying default for the empty case). -/
theorem dropWhile_headD_false (p : Char → Bool) (l : List Char) (c0 : Char)
    (hc0 : p c0 = false) : p ((l.dropWhile p).headD c0) = false := by
  induction l with
  | nil => simpa
  | cons a t ih =>
    by_cases hp : p a = true
    · simpa [List.dropWhile_cons, hp] using ih
    · simp only [List.dropWhile_cons]
      rw [if_neg (by simp [hp])]
      simpa using (by simpa using hp : p a = false)

/-- `takeWhile` is the unique maximal all-`p` prefix: a prefix made of
`p`-characters whose continuation starts with a non-`p` character (or
ends the list) is the `takeWhile`. -/
theorem takeWhile_eq_of_max_prefix {p : Char → Bool} :
    ∀ {d r : List Char}, d <+: r → (∀ c ∈ d, p c = true) →
    (∀ c, (r.drop d.length).head? = some c → p c = false) →
    r.takeWhile p = d := by
  intro d
  induction d with
  | nil =>
    intro r _ _ hmax
    cases r with
    | nil => rfl
    | cons a t =>
      have := hmax a (by simp)
      simp [List.takeWhile_cons, this]
  | cons x d' ih =>
    intro r hpre hall hmax
    obtain ⟨u, hu⟩ := hpre
    cases r with
    | nil => simp at hu
    | cons a t =>
      have hx : x = a := by
        have h := congrArg (List.headD · 'x') hu
        simpa using h
      have htl : d' ++ u = t := by
        have h := congrArg List.tail hu
        simpa using h
      have hpre' : d' <+: t := ⟨u, htl⟩
      have hall' : ∀ c ∈ d', p c = true := fun c hc => hall c (List.mem_cons_of_mem _ hc)
      have hmax' : ∀ c, (t.drop d'.length).head? = some c → p c = false := by
        intro c hc
        exact hmax c (by simpa using hc)
      have hpa : p a = true := hx ▸ hall x (List.mem_cons_self ..)
      rw [List.takeWhile_cons, if_pos (by simp [hpa]), ih hpre' hall' hmax', hx]

/-- A marker token with digit run `d` occurs at position `i` of `s`:
the literal prefix followed by the non-empty all-digit run `d` starts
at `i`, and the run is maximal (the next character, if any, is not a
digit). -/
def markerTokenAt (s d : List Char) (i : Nat) : Prop :=
  d ≠ [] ∧ (∀ c ∈ d, c.isDigit = true) ∧ (markerPfx ++ d) <+: s.drop i ∧
  ((s.drop (i + markerPfx.length + d.length)).headD 'x').isDigit = false

instance (s d : List Char) (i : Nat) : Decidable (markerTokenAt s d i) := by
  unfold markerTokenAt
  infer_instance

/-- Transport of token occurrences along a dropped prefix. -/
theorem markerTokenAt_drop (s d : List Char) (k i : Nat) :
    markerTokenAt (s.drop k) d i ↔ markerTokenAt s d (k + i) := by
  unfold markerTokenAt
  have h1 : (s.drop k).drop i = s.drop (k + i) := by rw [List.drop_drop]
  have h2 : (s.drop k).drop (i + markerPfx.length + d.length) =
      s.drop (k + i + markerPfx.length + d.length) := by
    rw [List.drop_drop]
    congr 1
    omega
  rw [h1, h2]

/-- Scanner step: a match at the current position. -/
theorem findDigitRunsF_cons_pos (fuel : Nat) (c : Char) (rest : List Char)
    (h : markerPfx.isPrefixOf (c :: rest) = true ∧
      (((c :: rest).drop markerPfx.length).headD 'x').isDigit = true) :
    findDigitRunsF (fuel + 1) (c :: rest) =
      ((c :: rest).drop markerPfx.length).takeWhile Char.isDigit ::
        findDigitRunsF fuel ((c :: rest).drop
          (markerPfx.length + (((c :: rest).drop markerPfx.length).takeWhile Char.isDigit).length)) := by
  simp only [findDigitRunsF]
  rw [if_pos h]

/-- Scanner step: no match at the current position. -/
theorem findDigitRunsF_cons_neg (fuel : Nat) (c : Char) (rest : List Char)
    (h : ¬ (markerPfx.isPrefixOf (c :: rest) = true ∧
      (((c :: rest).drop markerPfx.length).headD 'x').isDigit = true)) :
    findDigitRunsF (fuel + 1) (c :: rest) = findDigitRunsF fuel rest := by
  simp only [findDigitRunsF]
  rw [if_neg h]

/-- Soundness of the marker scan: every reported digit run is a
maximal marker-token digit run somewhere in the text. -/
theorem findDigitRunsF_sound :
    ∀ (fuel : Nat) (s : List Char), ∀ d ∈ findDigitRunsF fuel s, ∃ i, markerTokenAt s d i := by
  intro fuel
  induction fuel with
  | zero => intro s d hd; simp [findDigitRunsF] at hd
  | succ fuel ih =>
    intro s d hd
    cases s with
    | nil => simp [findDigitRunsF] at hd
    | cons c rest =>
      by_cases hc : (markerPfx.isPrefixOf (c :: rest) = true ∧
          (((c :: rest).drop markerPfx.length).headD 'x').isDigit = true)
      · rw [findDigitRunsF_cons_pos fuel c rest hc] at hd
        rcases List.mem_cons.1 hd with rfl | hd'
        · refine ⟨0, ?_, ?_, ?_, ?_⟩
          · -- the run is non-empty: its first character is the digit that fired the scan
            cases hr : (c :: rest).drop markerPfx.length with
            | nil => rw [hr] at hc; exact absurd hc.2 (by decide)
            | cons a t =>
              rw [hr] at hc
              have ha : a.isDigit = true := by simpa using hc.2
              simp [List.takeWhile_cons, ha]
          · exact fun c' hc' => List.mem_takeWhile_imp hc'
          · obtain ⟨u, hu⟩ := List.isPrefixOf_iff_prefix.1 hc.1
            have hru : (c :: rest).drop markerPfx.length = u := by
              rw [← hu, List.drop_left]
            obtain ⟨v, hv⟩ := (List.takeWhile_prefix Char.isDigit :
              List.takeWhile Char.isDigit u <+: u)
            refine ⟨v, ?_⟩
            rw [List.drop_zero, hru, ← hu, List.append_assoc, hv]
          · have harith : 0 + markerPfx.length +
                (((c :: rest).drop markerPfx.length).takeWhile Char.isDigit).length =
                markerPfx.length +
                (((c :: rest).drop markerPfx.length).takeWhile Char.isDigit).length := by
              omega
            rw [harith, ← List.drop_drop, drop_length_takeWhile]
            exact dropWhile_headD_false Char.isDigit _ 'x' (by decide)
        · obtain ⟨i, hi⟩ := ih _ d hd'
          exact ⟨markerPfx.length +
              (((c :: rest).drop markerPfx.length).takeWhile Char.isDigit).length + i,
            (markerTokenAt_drop (c :: rest) d _ i).1 hi⟩
      · rw [findDigitRunsF_cons_neg fuel c rest hc] at hd
        obtain ⟨i, hi⟩ := ih rest d hd
        refine ⟨1 + i, (markerTokenAt_drop (c :: rest) d 1 i).1 ?_⟩
        simpa using hi

/-- No marker token occurs in the empty text. -/
theorem markerTokenAt_nil (d : List Char) (i : Nat) : ¬ markerTokenAt [] d i := by
  rintro ⟨h1, -, h3, -⟩
  rw [List.drop_nil, List.prefix_nil, List.append_eq_nil] at h3
  exact absurd h3.1 (by decide)

/-- The marker prefix begins with `A`. -/
theorem markerPfx_eq_cons : markerPfx = 'A' :: "pplicationproblemJSON".data := by decide

/-- `A` occurs in the marker prefix only at its head, so the prefix
cannot overlap a shifted copy of itself. -/
theorem markerPfx_A_unique : ∀ i, ∀ h : i < markerPfx.length, markerPfx[i] = 'A' → i = 0 := by
  decide

/-- Completeness of the marker scan: every maximal marker-token digit
run occurring anywhere in the text is reported (when the fuel covers
the text length). -/
theorem findDigitRunsF_complete :
    ∀ (fuel : Nat) (s : List Char), s.length ≤ fuel →
      ∀ d i, markerTokenAt s d i → d ∈ findDigitRunsF fuel s := by
  intro fuel
  induction fuel with
  | zero =>
    intro s hlen d i h
    have hs : s = [] := List.length_eq_zero.1 (Nat.le_zero.1 hlen)
    subst hs
    exact absurd h (markerTokenAt_nil d i)
  | succ fuel ih =>
    intro s hlen d i h
    cases s with
    | nil => exact absurd h (markerTokenAt_nil d i)
    | cons c rest =>
      by_cases hc : (markerPfx.isPrefixOf (c :: rest) = true ∧
          (((c :: rest).drop markerPfx.length).headD 'x').isDigit = true)
      · rw [findDigitRunsF_cons_pos fuel c rest hc]
        set d0 := ((c :: rest).drop markerPfx.length).takeWhile Char.isDigit with hd0
        obtain ⟨u, hu⟩ := List.isPrefixOf_iff_prefix.1 hc.1
        have hru : (c :: rest).drop markerPfx.length = u := by rw [← hu, List.drop_left]
        rcases Nat.lt_or_ge i (markerPfx.length + d0.length) with hiK | hiK
        · rcases Nat.eq_zero_or_pos i with rfl | hipos
          · obtain ⟨h1, h2, h3, h4⟩ := h
            rw [List.drop_zero] at h3
            obtain ⟨w, hw⟩ := h3
            have hrd : (c :: rest).drop markerPfx.length = d ++ w := by
              rw [← hw, List.append_assoc, List.drop_left]
            have hdpre : d <+: (c :: rest).drop markerPfx.length := ⟨w, hrd.symm⟩
            have harith : (c :: rest).drop (0 + markerPfx.length + d.length) =
                ((c :: rest).drop markerPfx.length).drop d.length := by
              rw [List.drop_drop]
              congr 1
            rw [harith] at h4
            have hmax : ∀ ch, (((c :: rest).drop markerPfx.length).drop d.length).head? =
                some ch → ch.isDigit = false := by
              intro ch hch
              cases hl : ((c :: rest).drop markerPfx.length).drop d.length with
              | nil => rw [hl] at hch; simp at hch
              | cons e tl =>
                rw [hl] at hch h4
                simp only [List.head?_cons, Option.some.injEq] at hch
                subst hch
                simpa using h4
            have hdd : d0 = d := by
              rw [hd0]
              exact takeWhile_eq_of_max_prefix hdpre h2 hmax
            rw [hdd]
            exact List.mem_cons_self ..
          · exfalso
            obtain ⟨h1, h2, h3, h4⟩ := h
            have hA : ((c :: rest).drop i).head? = some 'A' := by
              obtain ⟨w, hw⟩ := h3
              rw [← hw, markerPfx_eq_cons]
              simp
            rcases Nat.lt_or_ge i markerPfx.length with hiP | hiP
            · have hsplit : (c :: rest).drop i = markerPfx.drop i ++ u := by
                rw [← hu, List.drop_append_of_le_length (Nat.le_of_lt hiP)]
              rw [hsplit, List.drop_eq_getElem_cons hiP] at hA
              simp only [List.cons_append, List.head?_cons, Option.some.injEq] at hA
              have h0 := markerPfx_A_unique i hiP hA
              omega
            · have hiu : i - markerPfx.length < d0.length := by omega
              have hsplit : (c :: rest).drop i = u.drop (i - markerPfx.length) := by
                conv_lhs => rw [← hu, show i = markerPfx.length + (i - markerPfx.length) by omega]
                rw [List.drop_append]
              have hu2 : u = d0 ++ u.dropWhile Char.isDigit := by
                rw [hd0, hru]
                exact (List.takeWhile_append_dropWhile _ _).symm
              have hd0u : u.drop (i - markerPfx.length) =
                  d0.drop (i - markerPfx.length) ++ u.dropWhile Char.isDigit := by
                conv_lhs => rw [hu2]
                rw [List.drop_append_of_le_length (Nat.le_of_lt hiu)]
              rw [hsplit, hd0u, List.drop_eq_getElem_cons hiu] at hA
              simp only [List.cons_append, List.head?_cons, Option.some.injEq] at hA
              have hmem : 'A' ∈ d0 := by
                rw [← hA]
                exact List.getElem_mem hiu
              rw [hd0] at hmem
              have hdig := List.mem_takeWhile_imp hmem
              exact absurd hdig (by decide)
        · have htr : markerTokenAt ((c :: rest).drop (markerPfx.length + d0.length)) d
              (i - (markerPfx.length + d0.length)) := by
            rw [markerTokenAt_drop]
            have harith : markerPfx.length + d0.length +
                (i - (markerPfx.length + d0.length)) = i := by omega
            rw [harith]
            exact h
          have hlen' : ((c :: rest).drop (markerPfx.length + d0.length)).length ≤ fuel := by
            rw [List.length_drop]
            have hp : 0 < markerPfx.length := by decide
            have hl1 : (c :: rest).length ≤ fuel + 1 := hlen
            omega
          exact List.mem_cons_of_mem _ (ih _ hlen' d _ htr)
      · rw [findDigitRunsF_cons_neg fuel c rest hc]
        rcases Nat.eq_zero_or_pos i with rfl | hipos
        · exfalso
          obtain ⟨h1, h2, h3, h4⟩ := h
          rw [List.drop_zero] at h3
          obtain ⟨w, hw⟩ := h3
          apply hc
          constructor
          · exact List.isPrefixOf_iff_prefix.2 ⟨d ++ w, by rw [← List.append_assoc, hw]⟩
          · have hrd : (c :: rest).drop markerPfx.length = d ++ w := by
              rw [← hw, List.append_assoc, List.drop_left]
            rw [hrd]
            cases hd : d with
            | nil => exact absurd hd h1
            | cons e tl =>
              have he : e.isDigit = true := h2 e (by rw [hd]; exact List.mem_cons_self ..)
              simpa using he
        · have h' : markerTokenAt ((c :: rest).drop 1) d (i - 1) := by
            rw [markerTokenAt_drop]
            have harith : 1 + (i - 1) = i := by omega
            rw [harith]
            exact h
          have htr : markerTokenAt rest d (i - 1) := by simpa using h'
          refine ih rest ?_ d (i - 1) htr
          simp only [List.length_cons] at hlen
          omega

/-- `List.lookup` succeeds exactly on present keys. -/
theorem lookup_isSome_iff (l : List (List Char × String)) (a : List Char) :
    (l.lookup a).isSome = true ↔ a ∈ l.map Prod.fst := by
  induction l with
  | nil =>
    have hnil : List.lookup a ([] : List (List Char × String)) = none := rfl
    rw [hnil]
    simp
  | cons p t ih =>
    cases p with
    | mk k v =>
      have hstep : List.lookup a ((k, v) :: t) =
          match a == k with
          | true => some v
          | false => List.lookup a t := rfl
      rw [hstep]
      cases hbeq : a == k with
      | true =>
        have hak : a = k := by simpa using hbeq
        subst hak
        refine ⟨fun _ => ?_, fun _ => rfl⟩
        simp
      | false =>
        have hk : ¬ a = k := by simpa using hbeq
        show (List.lookup a t).isSome = true ↔ a ∈ List.map Prod.fst ((k, v) :: t)
        rw [ih]
        simp [hk]

/-- Keys of the extraction loop: a token is recorded exactly when it
was already a key of the accumulator or it is a scanned marker token
whose digit run parses. -/
theorem extractLoop_mem (tok : List Char) :
    ∀ (ds : List (List Char)) (acc : List (List Char × String)),
      tok ∈ (extractLoop ds acc).map Prod.fst ↔
        tok ∈ acc.map Prod.fst ∨
          ∃ d ∈ ds, tok = markerPfx ++ d ∧ (goAtoi d).isSome = true := by
  intro ds
  induction ds with
  | nil => intro acc; simp [extractLoop]
  | cons d ds ih =>
    intro acc
    simp only [extractLoop]
    by_cases hl : ((acc.lookup (markerPfx ++ d)).isSome = true)
    · rw [if_pos hl, ih acc]
      have hmem : markerPfx ++ d ∈ acc.map Prod.fst := (lookup_isSome_iff acc _).1 hl
      constructor
      · rintro (h | ⟨d', hd', h1, h2⟩)
        · exact Or.inl h
        · exact Or.inr ⟨d', List.mem_cons_of_mem _ hd', h1, h2⟩
      · rintro (h | ⟨d', hd', h1, h2⟩)
        · exact Or.inl h
        · rcases List.mem_cons.1 hd' with rfl | hd''
          · exact Or.inl (h1 ▸ hmem)
          · exact Or.inr ⟨d', hd'', h1, h2⟩
    · rw [if_neg hl]
      cases hA : goAtoi d with
      | none =>
        rw [ih acc]
        constructor
        · rintro (h | ⟨d', hd', h1, h2⟩)
          · exact Or.inl h
          · exact Or.inr ⟨d', List.mem_cons_of_mem _ hd', h1, h2⟩
        · rintro (h | ⟨d', hd', h1, h2⟩)
          · exact Or.inl h
          · rcases List.mem_cons.1 hd' with rfl | hd''
            · rw [hA] at h2
              simp at h2
            · exact Or.inr ⟨d', hd'', h1, h2⟩
      | some code =>
        rw [ih _]
        constructor
        · rintro (h | ⟨d', hd', h1, h2⟩)
          · rw [List.map_append, List.mem_append] at h
            rcases h with h | h
            · exact Or.inl h
            · simp only [List.map_cons, List.map_nil, List.mem_singleton] at h
              exact Or.inr ⟨d, List.mem_cons_self .., h, by rw [hA]; rfl⟩
          · exact Or.inr ⟨d', List.mem_cons_of_mem _ hd', h1, h2⟩
        · rintro (h | ⟨d', hd', h1, h2⟩)
          · exact Or.inl (by rw [List.map_append, List.mem_append]; exact Or.inl h)
          · rcases List.mem_cons.1 hd' with rfl | hd''
            · refine Or.inl ?_
              rw [List.map_append, List.mem_append]
              exact Or.inr (by simp [h1])
            · exact Or.inr ⟨d', hd'', h1, h2⟩

/-- The extraction loop never records the same key twice. -/
theorem extractLoop_nodup :
    ∀ (ds : List (List Char)) (acc : List (List Char × String)),
      (acc.map Prod.fst).Nodup → ((extractLoop ds acc).map Prod.fst).Nodup := by
  intro ds
  induction ds with
  | nil => intro acc h; simpa [extractLoop] using h
  | cons d ds ih =>
    intro acc h
    simp only [extractLoop]
    by_cases hl : ((acc.lookup (markerPfx ++ d)).isSome = true)
    · rw [if_pos hl]
      exact ih acc h
    · rw [if_neg hl]
      cases hA : goAtoi d with
      | none => exact ih acc h
      | some code =>
        apply ih
        rw [List.map_append]
        refine List.Nodup.append h (by simp) ?_
        intro a ha hb
        simp only [List.map_cons, List.map_nil, List.mem_singleton] at hb
        subst hb
        exact hl ((lookup_isSome_iff acc _).2 ha)

/-- Every entry of the extraction loop is a marker token whose digit
run parses, mapped to the `httpStatusName` of the parsed code. -/
theorem extractLoop_entries :
    ∀ (ds : List (List Char)) (acc : List (List Char × String)),
      (∀ p ∈ acc, ∃ d code, p.1 = markerPfx ++ d ∧ goAtoi d = some code ∧
        p.2 = httpStatusName code) →
      ∀ p ∈ extractLoop ds acc,
        ∃ d code, p.1 = markerPfx ++ d ∧ goAtoi d = some code ∧
          p.2 = httpStatusName code := by
  intro ds
  induction ds with
  | nil => intro acc hacc; simpa [extractLoop] using hacc
  | cons d ds ih =>
    intro acc hacc
    simp only [extractLoop]
    by_cases hl : ((acc.lookup (markerPfx ++ d)).isSome = true)
    · rw [if_pos hl]
      exact ih acc hacc
    · rw [if_neg hl]
      cases hA : goAtoi d with
      | none => exact ih acc hacc
      | some code =>
        apply ih
        intro p hp
        rcases List.mem_append.1 hp with hp' | hp'
        · exact hacc p hp'
        · simp only [List.mem_singleton] at hp'
          rw [hp']
          exact ⟨d, code, rfl, hA, rfl⟩

/-- The keys of `extractErrorFieldMappings`: a token is a key exactly
when it is a marker token occurring in the text whose digit run
`strconv.Atoi` accepts. -/
theorem extract_mem (s tok : List Char) :
    tok ∈ (extractErrorFieldMappingsL s).map Prod.fst ↔
      ∃ d, tok = markerPfx ++ d ∧ (∃ i, markerTokenAt s d i) ∧ (goAtoi d).isSome = true := by
  unfold extractErrorFieldMappingsL
  rw [extractLoop_mem]
  constructor
  · rintro (h | ⟨d, hd, h1, h2⟩)
    · simp at h
    · exact ⟨d, h1, findDigitRunsF_sound _ _ d hd, h2⟩
  · rintro ⟨d, h1, ⟨i, hi⟩, h2⟩
    exact Or.inr ⟨d, findDigitRunsF_complete s.length s (le_refl _) d i hi, h1, h2⟩

/-- Claim C2 (amended): `extractErrorFieldMappings` produces exactly
one map entry per distinct marker token occurring in the text whose
digit run `strconv.Atoi` accepts — the key list has no duplicates, a
token is a key exactly when it occurs with a parseable digit run, and
a text with no marker tokens yields the empty map.  (The original
claim, without the parseable-digit-run qualification, is false: see
the counterexample.) -/
theorem claim_C2 : ∀ s : List Char,
    ((extractErrorFieldMappingsL s).map Prod.fst).Nodup ∧
    (∀ tok, tok ∈ (extractErrorFieldMappingsL s).map Prod.fst ↔
      ∃ d, tok = markerPfx ++ d ∧ (∃ i, markerTokenAt s d i) ∧ (goAtoi d).isSome = true) ∧
    ((∀ d i, ¬ markerTokenAt s d i) → extractErrorFieldMappingsL s = []) := by
  intro s
  refine ⟨extractLoop_nodup _ [] (by simp), fun tok => extract_mem s tok, ?_⟩
  intro hno
  cases hE : extractErrorFieldMappingsL s with
  | nil => rfl
  | cons p t =>
    exfalso
    have hmem : p.1 ∈ (extractErrorFieldMappingsL s).map Prod.fst := by
      rw [hE]
      simp
    rw [extract_mem s p.1] at hmem
    obtain ⟨d, -, ⟨i, hi⟩, -⟩ := hmem
    exact hno d i hi

/-- Counterexample to claim C2 as stated: a marker token whose digit
run overflows `int64` occurs in the text, yet `strconv.Atoi` fails on
it and the extractor records no entry at all for it. -/
theorem claim_C2_cex :
    (extractErrorFieldMappingsL "ApplicationproblemJSON99999999999999999999 *E".data = []) ∧
    markerTokenAt "ApplicationproblemJSON99999999999999999999 *E".data
      "99999999999999999999".data 0 := by
  constructor
  · decide
  · decide

/-- Witness for claim C2 at a text containing the same marker token
twice: the keys are duplicate-free and the token is recorded. -/
theorem claim_C2_witness :
    ((extractErrorFieldMappingsL
        "ApplicationproblemJSON400 *E ApplicationproblemJSON400 *E".data).map Prod.fst).Nodup ∧
    markerPfx ++ "400".data ∈
      (extractErrorFieldMappingsL
        "ApplicationproblemJSON400 *E ApplicationproblemJSON400 *E".data).map Prod.fst :=
  ⟨(claim_C2 _).1,
    ((claim_C2 _).2.1 (markerPfx ++ "400".data)).2
      ⟨"400".data, rfl, ⟨0, by decide⟩, by decide⟩⟩

/-- `strings.TrimPrefix` undoes prepending the marker prefix. -/
theorem goTrimPrefix_append (d : List Char) :
    goTrimPrefixL (markerPfx ++ d) markerPfx = d := by
  unfold goTrimPrefixL
  rw [if_pos (List.isPrefixOf_iff_prefix.2 (List.prefix_append _ _)), List.drop_left]

/-- `filterMap` with a never-failing function keeps every element. -/
theorem filterMap_length_of_all_some {α β : Type} (f : α → Option β) :
    ∀ l : List α, (∀ a ∈ l, (f a).isSome = true) → (l.filterMap f).length = l.length := by
  intro l
  induction l with
  | nil => intro _; rfl
  | cons a t ih =>
    intro h
    have ha := h a (List.mem_cons_self ..)
    cases hf : f a with
    | none => rw [hf] at ha; simp at ha
    | some b =>
      simp [List.filterMap_cons, hf, ih (fun x hx => h x (List.mem_cons_of_mem _ hx))]

/-- `insertEM` only inserts the new element. -/
theorem insertEM_perm (x : ErrorMapping) : ∀ l, (insertEM x l).Perm (x :: l) := by
  intro l
  induction l with
  | nil => exact List.Perm.refl _
  | cons y ys ih =>
    simp only [insertEM]
    by_cases h : x.StatusCode ≤ y.StatusCode
    · rw [if_pos h]
    · rw [if_neg h]
      exact (List.Perm.cons y ih).trans (List.Perm.swap x y ys)

/-- `sortEM` is a permutation. -/
theorem sortEM_perm : ∀ l, (sortEM l).Perm l := by
  intro l
  induction l with
  | nil => exact List.Perm.refl _
  | cons x xs ih => exact (insertEM_perm x (sortEM xs)).trans (List.Perm.cons x ih)

/-- `sortEM` preserves length. -/
theorem sortEM_length (l : List ErrorMapping) : (sortEM l).length = l.length :=
  (sortEM_perm l).length_eq

/-- Claim C10: for every map produced by `extractErrorFieldMappings`,
the `strconv.Atoi` skip branch of `extractErrorMappings` is
unreachable — every key is the marker prefix followed by a digit run
that `Atoi` accepts (the extractor itself already filtered on this),
so `extractErrorMappings` returns exactly one `ErrorMapping` per key
of its input. -/
theorem claim_C10 : ∀ s : List Char,
    (∀ p ∈ extractErrorFieldMappingsL s,
      (goAtoi (goTrimPrefixL p.1 markerPfx)).isSome = true) ∧
    (extractErrorMappingsL (extractErrorFieldMappingsL s)).length =
      (extractErrorFieldMappingsL s).length := by
  intro s
  have hent := extractLoop_entries (findDigitRuns s) [] (by simp)
  have hkey : ∀ p ∈ extractErrorFieldMappingsL s,
      (goAtoi (goTrimPrefixL p.1 markerPfx)).isSome = true := by
    intro p hp
    obtain ⟨d, code, h1, h2, h3⟩ := hent p hp
    rw [h1, goTrimPrefix_append, h2]
    rfl
  refine ⟨hkey, ?_⟩
  unfold extractErrorMappingsL
  rw [sortEM_length]
  apply filterMap_length_of_all_some
  intro p hp
  have h := hkey p hp
  cases hA : goAtoi (goTrimPrefixL p.1 markerPfx) with
  | none => rw [hA] at h; simp at h
  | some code => simp [hA]

/-- Witness for claim C10 at a concrete text and a concrete entry of
its extracted map. -/
theorem claim_C10_witness :
    (("ApplicationproblemJSON404".data, "NotFound") ∈
        extractErrorFieldMappingsL "x ApplicationproblemJSON404 *E".data ∧
      (goAtoi (goTrimPrefixL ("ApplicationproblemJSON404".data, "NotFound").1
        markerPfx)).isSome = true) ∧
    (extractErrorMappingsL
        (extractErrorFieldMappingsL "x ApplicationproblemJSON404 *E".data)).length =
      (extractErrorFieldMappingsL "x ApplicationproblemJSON404 *E".data).length :=
  ⟨⟨by decide,
      (claim_C10 "x ApplicationproblemJSON404 *E".data).1
        ("ApplicationproblemJSON404".data, "NotFound") (by decide)⟩,
    (claim_C10 "x ApplicationproblemJSON404 *E".data).2⟩

/-- Membership in `insertEM`. -/
theorem insertEM_mem (x z : ErrorMapping) (l : List ErrorMapping) :
    z ∈ insertEM x l ↔ z = x ∨ z ∈ l :=
  by rw [(insertEM_perm x l).mem_iff, List.mem_cons]

/-- `insertEM` preserves sortedness by status code. -/
theorem insertEM_sorted (x : ErrorMapping) :
    ∀ l, List.Sorted (fun a b : ErrorMapping => a.StatusCode ≤ b.StatusCode) l →
      List.Sorted (fun a b : ErrorMapping => a.StatusCode ≤ b.StatusCode) (insertEM x l) := by
  intro l
  induction l with
  | nil => intro _; simp [insertEM]
  | cons y ys ih =>
    intro hs
    rw [List.sorted_cons] at hs
    simp only [insertEM]
    by_cases h : x.StatusCode ≤ y.StatusCode
    · rw [if_pos h, List.sorted_cons]
      refine ⟨?_, List.sorted_cons.2 hs⟩
      intro b hb
      rcases List.mem_cons.1 hb with rfl | hb'
      · exact h
      · exact le_trans h (hs.1 b hb')
    · rw [if_neg h, List.sorted_cons]
      refine ⟨?_, ih hs.2⟩
      intro b hb
      rcases (insertEM_mem x b ys).1 hb with rfl | hb'
      · omega
      · exact hs.1 b hb'

/-- `sortEM` sorts by ascending status code. -/
theorem sortEM_sorted :
    ∀ l, List.Sorted (fun a b : ErrorMapping => a.StatusCode ≤ b.StatusCode) (sortEM l) := by
  intro l
  induction l with
  | nil => simp [sortEM]
  | cons x xs ih => exact insertEM_sorted x _ ih

/-- Claim C4: for every error-field map, the `ErrorMapping` list
returned by `extractErrorMappings` is sorted in ascending order of
`StatusCode`: for every index `i > 0`, the entry at `i - 1` has a
status code at most that of the entry at `i`. -/
theorem claim_C4 (m : List (List Char × String)) (i : Nat) (h0 : 0 < i)
    (hi : i < (extractErrorMappingsL m).length) :
    ((extractErrorMappingsL m).get ⟨i - 1, by omega⟩).StatusCode ≤
      ((extractErrorMappingsL m).get ⟨i, hi⟩).StatusCode := by
  have hs : List.Sorted (fun a b : ErrorMapping => a.StatusCode ≤ b.StatusCode)
      (extractErrorMappingsL m) := sortEM_sorted _
  exact hs.rel_get_of_lt (by simp [Fin.mk_lt_mk]; omega)

/-- Concrete input for the claim C4 witness: two unsorted entries. -/
def c4input : List (List Char × String) :=
  [("ApplicationproblemJSON500".data, "InternalServerError"),
   ("ApplicationproblemJSON400".data, "BadRequest")]

/-- Witness for claim C4 at a concrete two-entry map and index 1. -/
theorem claim_C4_witness :
    ∃ h1 : 1 < (extractErrorMappingsL c4input).length,
      0 < 1 ∧
        ((extractErrorMappingsL c4input).get ⟨0, by omega⟩).StatusCode ≤
          ((extractErrorMappingsL c4input).get ⟨1, h1⟩).StatusCode := by
  have h1 : 1 < (extractErrorMappingsL c4input).length := by decide
  exact ⟨h1, Nat.zero_lt_one, claim_C4 c4input 1 Nat.zero_lt_one h1⟩

/-- The status codes of the `extractErrorMappings` entries, before
sorting, are exactly the successfully parsed digit runs. -/
theorem raw_statuses (m : List (List Char × String)) :
    ((m.filterMap fun p =>
      match goAtoi (goTrimPrefixL p.1 markerPfx) with
      | some code => some (⟨p.2, code⟩ : ErrorMapping)
      | none => none).map ErrorMapping.StatusCode) =
    m.filterMap fun p => goAtoi (goTrimPrefixL p.1 markerPfx) := by
  induction m with
  | nil => rfl
  | cons p t ih =>
    cases hA : goAtoi (goTrimPrefixL p.1 markerPfx) with
    | none => simp [List.filterMap_cons, hA, ih]
    | some code => simp [List.filterMap_cons, hA, ih]

/-- When keys are duplicate-free and parse injectively, the parsed
status codes are duplicate-free. -/
theorem filterMap_codes_nodup :
    ∀ m : List (List Char × String),
      (m.map Prod.fst).Nodup →
      (∀ p ∈ m, ∀ q ∈ m,
        goAtoi (goTrimPrefixL p.1 markerPfx) = goAtoi (goTrimPrefixL q.1 markerPfx) →
        p.1 = q.1) →
      (m.filterMap fun p => goAtoi (goTrimPrefixL p.1 markerPfx)).Nodup := by
  intro m
  induction m with
  | nil => intro _ _; simp
  | cons p t ih =>
    intro hnd hinj
    rw [List.map_cons, List.nodup_cons] at hnd
    have hinj' : ∀ a ∈ t, ∀ b ∈ t,
        goAtoi (goTrimPrefixL a.1 markerPfx) = goAtoi (goTrimPrefixL b.1 markerPfx) →
        a.1 = b.1 :=
      fun a ha b hb h =>
        hinj a (List.mem_cons_of_mem _ ha) b (List.mem_cons_of_mem _ hb) h
    cases hA : goAtoi (goTrimPrefixL p.1 markerPfx) with
    | none =>
      simp only [List.filterMap_cons, hA]
      exact ih hnd.2 hinj'
    | some code =>
      simp only [List.filterMap_cons, hA]
      rw [List.nodup_cons]
      refine ⟨?_, ih hnd.2 hinj'⟩
      intro hmem
      obtain ⟨q, hq, hq2⟩ := List.mem_filterMap.1 hmem
      have heq : goAtoi (goTrimPrefixL p.1 markerPfx) =
          goAtoi (goTrimPrefixL q.1 markerPfx) := by rw [hA, hq2]
      have hpq := hinj p (List.mem_cons_self ..) q (List.mem_cons_of_mem _ hq) heq
      apply hnd.1
      rw [hpq]
      exact List.mem_map.2 ⟨q, hq, rfl⟩

/-- A list whose image under a projection is duplicate-free has at
most one element with any given projection value. -/
theorem countP_le_one_of_nodup_map :
    ∀ L : List ErrorMapping, (L.map ErrorMapping.StatusCode).Nodup →
      ∀ code : Int, (L.countP fun em => em.StatusCode == code) ≤ 1 := by
  intro L
  induction L with
  | nil => intro _ code; simp
  | cons x t ih =>
    intro hnd code
    rw [List.map_cons, List.nodup_cons] at hnd
    rw [List.countP_cons]
    by_cases hx : x.StatusCode = code
    · have hzero : (t.countP fun em => em.StatusCode == code) = 0 := by
        rw [List.countP_eq_zero]
        intro em hem
        simp only [beq_iff_eq]
        intro hemc
        exact hnd.1 (List.mem_map.2 ⟨em, hem, by rw [hemc, hx]⟩)
      simp [hx, hzero]
    · rw [if_neg (by simpa using hx)]
      simpa using ih hnd.2 code

/-- Claim C5 (amended): the pipeline's `ErrorMapping` list has at most
one entry per distinct marker token; it has at most one entry per
distinct `StatusCode` provided distinct extracted tokens parse to
distinct status codes.  (Unconditionally per status code the original
claim is false — two distinct tokens can denote the same integer via
leading zeros; see the counterexample.) -/
theorem claim_C5 : ∀ s : List Char,
    (∀ p ∈ extractErrorFieldMappingsL s, ∀ q ∈ extractErrorFieldMappingsL s,
      goAtoi (goTrimPrefixL p.1 markerPfx) = goAtoi (goTrimPrefixL q.1 markerPfx) →
      p.1 = q.1) →
    ∀ code : Int,
      ((extractErrorMappingsL (extractErrorFieldMappingsL s)).countP
        fun em => em.StatusCode == code) ≤ 1 := by
  intro s hinj code
  have hnd0 : ((extractErrorFieldMappingsL s).map Prod.fst).Nodup :=
    extractLoop_nodup _ [] (by simp)
  have hraw := filterMap_codes_nodup _ hnd0 hinj
  have hperm : ((extractErrorMappingsL (extractErrorFieldMappingsL s)).map
      ErrorMapping.StatusCode).Perm
      ((extractErrorFieldMappingsL s).filterMap fun p =>
        goAtoi (goTrimPrefixL p.1 markerPfx)) := by
    rw [← raw_statuses]
    exact (sortEM_perm _).map _
  exact countP_le_one_of_nodup_map _ (hperm.symm.nodup hraw) code

/-- Counterexample to claim C5 as stated: the digit runs `007` and `7`
are distinct marker tokens but parse to the same status code 7, so the
pipeline emits two entries with `StatusCode` 7. -/
theorem claim_C5_cex :
    ¬ (((extractErrorMappingsL (extractErrorFieldMappingsL
        "ApplicationproblemJSON007 ApplicationproblemJSON7".data)).countP
          fun em => em.StatusCode == 7) ≤ 1) := by decide

/-- Witness for claim C5 at a concrete two-token text with distinct
status codes. -/
theorem claim_C5_witness :
    (∀ p ∈ extractErrorFieldMappingsL
        "ApplicationproblemJSON400 *E ApplicationproblemJSON404 *E".data,
      ∀ q ∈ extractErrorFieldMappingsL
        "ApplicationproblemJSON400 *E ApplicationproblemJSON404 *E".data,
      goAtoi (goTrimPrefixL p.1 markerPfx) = goAtoi (goTrimPrefixL q.1 markerPfx) →
      p.1 = q.1) ∧
    ((extractErrorMappingsL (extractErrorFieldMappingsL
        "ApplicationproblemJSON400 *E ApplicationproblemJSON404 *E".data)).countP
      fun em => em.StatusCode == 400) ≤ 1 :=
  ⟨by decide,
    claim_C5 "ApplicationproblemJSON400 *E ApplicationproblemJSON404 *E".data
      (by decide) 400⟩

/-! ## Claim C7: order-independence of the error-rename pass

The proof factors texts into maximal word-character runs and single
non-word separators ("chunks").  Each of the three replacement passes
only ever rewrites complete runs equal to its `oldName` (the patterns
anchor on word boundaries or fixed punctuation), so at chunk level a
pass is a left-to-right selective run replacement; two passes for
rules with distinct, mutually safe names select disjoint runs and
commute. -/

/-- `declTailSplit` splits off a non-empty consumed part. -/
theorem declTailSplit_split {t tl r : List Char} (h : declTailSplit t = some (tl, r)) :
    t = tl ++ r ∧ tl ≠ [] := by
  unfold declTailSplit at h
  by_cases hw : (t.takeWhile isGoSpace).isEmpty
  · rw [if_pos hw] at h
    exact absurd h (by simp)
  · rw [if_neg hw] at h
    have hwne : t.takeWhile isGoSpace ≠ [] := fun hc => by simp [hc] at hw
    have hsplit : t.takeWhile isGoSpace ++ t.drop (t.takeWhile isGoSpace).length = t := by
      rw [drop_length_takeWhile]
      exact List.takeWhile_append_dropWhile _ _
    cases hd : t.drop (t.takeWhile isGoSpace).length with
    | nil =>
      rw [hd] at h
      exact absurd h (by simp)
    | cons c t2 =>
      rw [hd] at h
      simp only at h
      by_cases hc : c = '*'
      · subst hc
        rw [if_pos rfl] at h
        by_cases hu : (t2.takeWhile isWordChar).isEmpty
        · rw [if_pos hu] at h
          exact absurd h (by simp)
        · rw [if_neg hu] at h
          simp only [Option.some.injEq, Prod.mk.injEq] at h
          obtain ⟨h1, h2⟩ := h
          have ht2 : t2.takeWhile isWordChar ++
              t2.drop (t2.takeWhile isWordChar).length = t2 := by
            rw [drop_length_takeWhile]
            exact List.takeWhile_append_dropWhile _ _
          constructor
          · rw [← h1, ← h2]
            conv_lhs => rw [← hsplit, hd, ← ht2]
            simp
          · rw [← h1]
            simp [hwne]
      · rw [if_neg hc] at h
        by_cases hu : (((c :: t2).takeWhile isWordChar)).isEmpty
        · rw [if_pos hu] at h
          exact absurd h (by simp)
        · rw [if_neg hu] at h
          simp only [Option.some.injEq, Prod.mk.injEq] at h
          obtain ⟨h1, h2⟩ := h
          have hct2 : (c :: t2).takeWhile isWordChar ++
              (c :: t2).drop ((c :: t2).takeWhile isWordChar).length = c :: t2 := by
            rw [drop_length_takeWhile]
            exact List.takeWhile_append_dropWhile _ _
          constructor
          · rw [← h1, ← h2]
            conv_lhs => rw [← hsplit, hd, ← hct2]
            simp
          · rw [← h1]
            simp [hwne]

/-- `declRepF` is independent of the fuel once it covers the text. -/
theorem declRepF_fuel (old nw : List Char) :
    ∀ (f : Nat) (s : List Char) (pw : Bool), s.length ≤ f →
      declRepF old nw f pw s = declRepF old nw s.length pw s := by
  intro f
  induction f using Nat.strong_induction_on with
  | _ f ih =>
    intro s pw hf
    cases s with
    | nil => cases f <;> rfl
    | cons c rest =>
      obtain ⟨f', rfl⟩ : ∃ f', f = f' + 1 := ⟨f - 1, by simp at hf; omega⟩
      have hrest : rest.length ≤ f' := by simp at hf; omega
      simp only [declRepF, List.length_cons]
      by_cases hm : (pw ≠ wordAt (c :: rest) ∧ old.isPrefixOf (c :: rest) = true)
      · rw [if_pos hm, if_pos hm]
        cases hsp : declTailSplit ((c :: rest).drop old.length) with
        | none =>
          simp only
          rw [ih f' (by omega) rest (isWordChar c) hrest]
        | some pr =>
          obtain ⟨tl, r2⟩ := pr
          simp only
          have hsplit := declTailSplit_split hsp
          have hlen2 : r2.length ≤ rest.length := by
            have h1 := congrArg List.length hsplit.1
            have h2 : ((c :: rest).drop old.length).length ≤ rest.length + 1 := by
              rw [List.length_drop]
              simp
            have h3 : 1 ≤ tl.length := by
              cases htl : tl with
              | nil => exact absurd htl hsplit.2
              | cons a b => simp
            rw [List.length_append] at h1
            omega
          rw [ih f' (by omega) r2 true (by omega),
            ih rest.length (by omega) r2 true hlen2]
      · rw [if_neg hm, if_neg hm]
        rw [ih f' (by omega) rest (isWordChar c) hrest]

/-- `accRepF` is independent of the fuel once it covers the text. -/
theorem accRepF_fuel (old nw : List Char) :
    ∀ (f : Nat) (s : List Char), s.length ≤ f →
      accRepF old nw f s = accRepF old nw s.length s := by
  intro f
  induction f using Nat.strong_induction_on with
  | _ f ih =>
    intro s hf
    cases s with
    | nil => cases f <;> rfl
    | cons c rest =>
      obtain ⟨f', rfl⟩ : ∃ f', f = f' + 1 := ⟨f - 1, by simp at hf; omega⟩
      have hrest : rest.length ≤ f' := by simp at hf; omega
      simp only [accRepF, List.length_cons]
      by_cases hm : (c = '.' ∧ old.isPrefixOf rest = true ∧
          lastWord old false ≠ wordAt (rest.drop old.length))
      · rw [if_pos hm, if_pos hm]
        have hlen2 : (rest.drop old.length).length ≤ rest.length := by
          rw [List.length_drop]
          omega
        rw [ih f' (by omega) (rest.drop old.length) (by omega),
          ih rest.length (by omega) (rest.drop old.length) hlen2]
      · rw [if_neg hm, if_neg hm]
        rw [ih f' (by omega) rest hrest]

/-- `tagRepF` is independent of the fuel once it covers the text. -/
theorem tagRepF_fuel (old nw : List Char) :
    ∀ (f : Nat) (s : List Char), s.length ≤ f →
      tagRepF old nw f s = tagRepF old nw s.length s := by
  intro f
  induction f using Nat.strong_induction_on with
  | _ f ih =>
    intro s hf
    cases s with
    | nil => cases f <;> rfl
    | cons c rest =>
      obtain ⟨f', rfl⟩ : ∃ f', f = f' + 1 := ⟨f - 1, by simp at hf; omega⟩
      have hrest : rest.length ≤ f' := by simp at hf; omega
      simp only [tagRepF, List.length_cons]
      by_cases hm : ((jsonTagLit old).isPrefixOf (c :: rest) = true)
      · rw [if_pos hm, if_pos hm]
        have hlen2 : ((c :: rest).drop (jsonTagLit old).length).length ≤ rest.length + 1 := by
          rw [List.length_drop]
          simp
        have hlit : 1 ≤ (jsonTagLit old).length := by
          simp [jsonTagLit]
        rw [ih f' (by omega) ((c :: rest).drop (jsonTagLit old).length) (by
            rw [List.length_drop] at *
            simp at hlen2 ⊢
            omega),
          ih rest.length (by omega) ((c :: rest).drop (jsonTagLit old).length) (by
            rw [List.length_drop]
            simp
            omega)]
      · rw [if_neg hm, if_neg hm]
        rw [ih f' (by omega) rest hrest]

/-! ## A chunk view of texts

A text splits canonically into maximal runs of word characters and
single non-word separator characters.  All three replacement passes of
`replaceFieldName` respect this decomposition when `oldName` is a
non-empty all-word-character token, which lets the order-independence
argument for claim C7 work chunk by chunk. -/

/-- A chunk: a (maximal) run of word characters or one separator. -/
inductive Chunk where
  | run : List Char → Chunk
  | sep : Char → Chunk
deriving DecidableEq

/-- The text of a chunk list. -/
def renderC : List Chunk → List Char
  | [] => []
  | Chunk.run r :: cs => r ++ renderC cs
  | Chunk.sep c :: cs => c :: renderC cs

/-- Chunking of a text: maximal word runs, single separators. -/
def parseCF : Nat → List Char → List Chunk
  | 0, _ => []
  | _ + 1, [] => []
  | f + 1, c :: t =>
    if isWordChar c then
      Chunk.run ((c :: t).takeWhile isWordChar) ::
        parseCF f ((c :: t).dropWhile isWordChar)
    else
      Chunk.sep c :: parseCF f t

/-- Well-formedness of a chunk list: runs are non-empty all-word and
never adjacent (the flag records whether the previous chunk was a run),
separators are non-word. -/
def CWF : Bool → List Chunk → Bool
  | _, [] => true
  | _, Chunk.sep c :: cs => !isWordChar c && CWF false cs
  | false, Chunk.run r :: cs => !r.isEmpty && r.all isWordChar && CWF true cs
  | true, Chunk.run _ :: _ => false

/-- The run flag after traversing a chunk list. -/
def endFlag (b : Bool) : List Chunk → Bool
  | [] => b
  | Chunk.run _ :: cs => endFlag true cs
  | Chunk.sep _ :: cs => endFlag false cs

theorem renderC_append (xs ys : List Chunk) :
    renderC (xs ++ ys) = renderC xs ++ renderC ys := by
  induction xs with
  | nil => rfl
  | cons c cs ih =>
    cases c with
    | run r => simp [renderC, ih]
    | sep c => simp [renderC, ih]

theorem renderC_map_sep (l : List Char) :
    renderC (l.map Chunk.sep) = l := by
  induction l with
  | nil => rfl
  | cons c cs ih => simp [renderC, ih]

theorem CWF_append (xs ys : List Chunk) :
    ∀ b, CWF b (xs ++ ys) = (CWF b xs && CWF (endFlag b xs) ys) := by
  induction xs with
  | nil => intro b; simp [CWF, endFlag]
  | cons c cs ih =>
    intro b
    cases c with
    | run r =>
      cases b with
      | false => simp [CWF, endFlag, ih true, Bool.and_assoc]
      | true => simp [CWF, endFlag]
    | sep c => simp [CWF, endFlag, ih false, Bool.and_assoc]

theorem CWF_true_imp : ∀ cs, CWF true cs = true → CWF false cs = true := by
  intro cs h
  cases cs with
  | nil => rfl
  | cons c cs =>
    cases c with
    | run r => exact absurd h (by simp [CWF])
    | sep c => exact h

theorem length_dropWhile_le_aux (p : Char → Bool) (l : List Char) :
    (l.dropWhile p).length ≤ l.length := by
  induction l with
  | nil => simp
  | cons a t ih =>
    by_cases hp : p a = true
    · simp only [List.dropWhile_cons, hp, if_pos]
      simp
      omega
    · rw [List.dropWhile_cons, if_neg (by simp [hp])]

/-- Rendering undoes chunking. -/
theorem render_parse : ∀ f s, s.length ≤ f → renderC (parseCF f s) = s := by
  intro f
  induction f with
  | zero =>
    intro s hs
    have : s = [] := List.length_eq_zero.mp (by omega)
    subst this
    rfl
  | succ f ih =>
    intro s hs
    cases s with
    | nil => rfl
    | cons c t =>
      simp only [parseCF]
      by_cases hw : isWordChar c
      · rw [if_pos hw]
        have hlen : ((c :: t).dropWhile isWordChar).length ≤ f := by
          have h1 : (c :: t).dropWhile isWordChar = t.dropWhile isWordChar := by
            simp [List.dropWhile_cons, hw]
          rw [h1]
          have := length_dropWhile_le_aux isWordChar t
          simp at hs
          omega
        simp only [renderC]
        rw [ih _ hlen, List.takeWhile_append_dropWhile]
      · rw [if_neg hw]
        simp only [renderC]
        rw [ih t (by simp at hs; omega)]

/-- Chunking produces a well-formed chunk list; the flag may be `true`
when the text does not begin with a word character. -/
theorem parse_wf : ∀ f s b, s.length ≤ f →
    (b = true → isWordChar (s.headD ' ') = false) →
    CWF b (parseCF f s) = true := by
  intro f
  induction f with
  | zero =>
    intro s b hs _
    have : s = [] := List.length_eq_zero.mp (by omega)
    subst this
    cases b <;> rfl
  | succ f ih =>
    intro s b hs hb
    cases s with
    | nil => cases b <;> rfl
    | cons c t =>
      simp only [parseCF]
      by_cases hw : isWordChar c
      · rw [if_pos hw]
        have hbf : b = false := by
          cases b with
          | false => rfl
          | true => exact absurd (hb rfl) (by simp [List.headD, hw])
        subst hbf
        have hdw : (c :: t).dropWhile isWordChar = t.dropWhile isWordChar := by
          simp [List.dropWhile_cons, hw]
        have hlen : ((c :: t).dropWhile isWordChar).length ≤ f := by
          rw [hdw]
          have := length_dropWhile_le_aux isWordChar t
          simp at hs
          omega
        have hrec : CWF true (parseCF f ((c :: t).dropWhile isWordChar)) = true := by
          apply ih _ true hlen
          intro _
          have := dropWhile_headD_false isWordChar (c :: t) ' ' (by decide)
          simpa using this
        have htw : ((c :: t).takeWhile isWordChar).isEmpty = false := by
          simp [List.takeWhile_cons, hw]
        have hall : ((c :: t).takeWhile isWordChar).all isWordChar = true := by
          rw [List.all_eq_true]
          intro x hx
          exact List.mem_takeWhile_imp hx
        simp only [CWF, htw, hall, hrec]
        rfl
      · rw [if_neg hw]
        cases b with
        | false =>
          simp only [CWF]
          simp [hw]
          exact ih t false (by simp at hs; omega) (by intro h; cases h)
        | true =>
          simp only [CWF]
          simp [hw]
          exact ih t false (by simp at hs; omega) (by intro h; cases h)

/-! ## The three replacement passes on chunks -/

/-- Leading whitespace separator characters of a chunk list. -/
def wsTake : List Chunk → List Char
  | Chunk.sep c :: cs => if isGoSpace c then c :: wsTake cs else []
  | _ => []

/-- A chunk list with its leading whitespace separators removed. -/
def wsDrop : List Chunk → List Chunk
  | Chunk.sep c :: cs => if isGoSpace c then wsDrop cs else Chunk.sep c :: cs
  | cs => cs

theorem wsTake_wsDrop : ∀ cs : List Chunk,
    (wsTake cs).map Chunk.sep ++ wsDrop cs = cs := by
  intro cs
  induction cs with
  | nil => rfl
  | cons c rest ih =>
    cases c with
    | run r => rfl
    | sep c =>
      by_cases hws : isGoSpace c = true
      · simp only [wsTake, wsDrop, if_pos hws, List.map_cons, List.cons_append, ih]
      · simp only [wsTake, wsDrop, if_neg hws, List.map_nil, List.nil_append]

/-- The chunk form of the declaration-tail group `\s+\*?\w+`: the
separator characters consumed (whitespace, then possibly `*`), the word
run, and the remaining chunks. -/
def declTailC (cs : List Chunk) : Option (List Char × List Char × List Chunk) :=
  if (wsTake cs).isEmpty then none
  else
    match wsDrop cs with
    | Chunk.sep c :: r1 =>
      if c = '*' then
        match r1 with
        | Chunk.run w :: r2 => some (wsTake cs ++ ['*'], w, r2)
        | _ => none
      else none
    | Chunk.run w :: r2 => some (wsTake cs, w, r2)
    | [] => none

theorem declTailC_split {cs : List Chunk} {pre w r2}
    (h : declTailC cs = some (pre, w, r2)) :
    cs = pre.map Chunk.sep ++ Chunk.run w :: r2 ∧ pre ≠ [] := by
  unfold declTailC at h
  by_cases he : (wsTake cs).isEmpty
  · rw [if_pos he] at h
    cases h
  · rw [if_neg he] at h
    have hne : wsTake cs ≠ [] := by
      intro hx
      rw [hx] at he
      exact he rfl
    cases hd : wsDrop cs with
    | nil => rw [hd] at h; cases h
    | cons c0 r1 =>
      rw [hd] at h
      cases c0 with
      | run w0 =>
        simp only at h
        simp only [Option.some.injEq, Prod.mk.injEq] at h
        obtain ⟨h1, h2, h3⟩ := h
        subst h1 h2 h3
        refine ⟨?_, hne⟩
        conv_lhs => rw [← wsTake_wsDrop cs]
        rw [hd]
      | sep c0 =>
        simp only at h
        by_cases hc : c0 = '*'
        · rw [if_pos hc] at h
          cases r1 with
          | nil => cases h
          | cons c1 r1t =>
            cases c1 with
            | run w1 =>
              simp only [Option.some.injEq, Prod.mk.injEq] at h
              obtain ⟨h1, h2, h3⟩ := h
              subst h1 h2 h3
              constructor
              · conv_lhs => rw [← wsTake_wsDrop cs]
                rw [hd, hc]
                simp
              · simp
            | sep c1 => cases h
        · rw [if_neg hc] at h
          cases h

theorem declTailC_len {cs : List Chunk} {pre w r2}
    (h : declTailC cs = some (pre, w, r2)) :
    r2.length + 2 ≤ cs.length := by
  obtain ⟨h1, h2⟩ := declTailC_split h
  have hl := congrArg List.length h1
  simp only [List.length_append, List.length_map, List.length_cons] at hl
  have : 1 ≤ pre.length := by
    cases hp : pre with
    | nil => exact absurd hp h2
    | cons a b => simp
  omega

/-- The chunk-level declaration-site pass. -/
def declC (old : List Char) (nw : List Chunk) : Nat → List Chunk → List Chunk
  | 0, cs => cs
  | _ + 1, [] => []
  | f + 1, Chunk.sep c :: cs => Chunk.sep c :: declC old nw f cs
  | f + 1, Chunk.run r :: cs =>
    if r = old then
      match declTailC cs with
      | some (pre, w, r2) =>
        nw ++ pre.map Chunk.sep ++ Chunk.run w :: declC old nw f r2
      | none => Chunk.run r :: declC old nw f cs
    else Chunk.run r :: declC old nw f cs

/-- The member-access trigger after a dot: the next chunk is the run
`oldName` (then the trailing `\b` holds because runs are maximal). -/
def accPat (old : List Char) (cs : List Chunk) : Option (List Chunk) :=
  match cs with
  | Chunk.run r :: cs2 => if r = old then some cs2 else none
  | _ => none

theorem accPat_split {old : List Char} {cs cs2 : List Chunk}
    (h : accPat old cs = some cs2) : cs = Chunk.run old :: cs2 := by
  unfold accPat at h
  cases cs with
  | nil => cases h
  | cons c0 rest =>
    cases c0 with
    | run r =>
      simp only at h
      by_cases hr : r = old
      · rw [if_pos hr] at h
        simp only [Option.some.injEq] at h
        rw [hr, h]
      · rw [if_neg hr] at h
        cases h
    | sep c0 => cases h

/-- The chunk-level member-access pass. -/
def accC (old : List Char) (nw : List Chunk) : Nat → List Chunk → List Chunk
  | 0, cs => cs
  | _ + 1, [] => []
  | f + 1, Chunk.run r :: cs => Chunk.run r :: accC old nw f cs
  | f + 1, Chunk.sep c :: cs =>
    if c = '.' then
      match accPat old cs with
      | some cs2 => Chunk.sep c :: (nw ++ accC old nw f cs2)
      | none => Chunk.sep c :: accC old nw f cs
    else Chunk.sep c :: accC old nw f cs

/-- The characters `json`, the word part of the json-tag literal. -/
def jsonSfx : List Char := ['j', 's', 'o', 'n']

/-- The json-tag trigger after a run ending in `json`: a colon, a
quote, the run `oldName`, a quote. -/
def tagPat (old : List Char) (cs : List Chunk) : Option (List Chunk) :=
  match cs with
  | Chunk.sep c1 :: Chunk.sep c2 :: Chunk.run r2 :: Chunk.sep c3 :: cs2 =>
    if c1 = ':' ∧ c2 = '"' ∧ r2 = old ∧ c3 = '"' then some cs2 else none
  | _ => none

theorem tagPat_split {old : List Char} {cs cs2 : List Chunk}
    (h : tagPat old cs = some cs2) :
    cs = Chunk.sep ':' :: Chunk.sep '"' :: Chunk.run old :: Chunk.sep '"' :: cs2 := by
  unfold tagPat at h
  cases cs with
  | nil => cases h
  | cons c0 rest0 =>
    cases c0 with
    | run r => cases h
    | sep c1 =>
      cases rest0 with
      | nil => cases h
      | cons d0 rest1 =>
        cases d0 with
        | run r => cases h
        | sep c2 =>
          cases rest1 with
          | nil => cases h
          | cons e0 rest2 =>
            cases e0 with
            | sep c => cases h
            | run r2 =>
              cases rest2 with
              | nil => cases h
              | cons g0 rest3 =>
                cases g0 with
                | run r => cases h
                | sep c3 =>
                  simp only at h
                  by_cases hc : c1 = ':' ∧ c2 = '"' ∧ r2 = old ∧ c3 = '"'
                  · rw [if_pos hc] at h
                    simp only [Option.some.injEq] at h
                    rw [hc.1, hc.2.1, hc.2.2.1, hc.2.2.2, h]
                  · rw [if_neg hc] at h
                    cases h

/-- The chunk-level json-tag pass. -/
def tagC (old : List Char) (nw : List Chunk) : Nat → List Chunk → List Chunk
  | 0, cs => cs
  | _ + 1, [] => []
  | f + 1, Chunk.sep c :: cs => Chunk.sep c :: tagC old nw f cs
  | f + 1, Chunk.run r :: cs =>
    if jsonSfx.isSuffixOf r then
      match tagPat old cs with
      | some cs2 =>
        Chunk.run r :: Chunk.sep ':' :: Chunk.sep '"' ::
          (nw ++ Chunk.sep '"' :: tagC old nw f cs2)
      | none => Chunk.run r :: tagC old nw f cs
    else Chunk.run r :: tagC old nw f cs

/-- `declC` is independent of the fuel once it covers the chunk list. -/
theorem declC_fuel (old : List Char) (nw : List Chunk) :
    ∀ (f : Nat) (cs : List Chunk), cs.length ≤ f →
      declC old nw f cs = declC old nw cs.length cs := by
  intro f
  induction f using Nat.strong_induction_on with
  | _ f ih =>
    intro cs hf
    cases cs with
    | nil => cases f <;> rfl
    | cons c rest =>
      obtain ⟨f', rfl⟩ : ∃ f', f = f' + 1 := ⟨f - 1, by simp at hf; omega⟩
      have hrest : rest.length ≤ f' := by simp at hf; omega
      cases c with
      | sep c =>
        simp only [declC, List.length_cons]
        rw [ih f' (by omega) rest hrest]
      | run r =>
        simp only [declC, List.length_cons]
        by_cases hr : r = old
        · rw [if_pos hr, if_pos hr]
          cases hsp : declTailC rest with
          | none =>
            simp only
            rw [ih f' (by omega) rest hrest]
          | some pr =>
            obtain ⟨pre, w, r2⟩ := pr
            simp only
            have hlen2 : r2.length + 2 ≤ rest.length := declTailC_len hsp
            rw [ih f' (by omega) r2 (by omega),
              ih rest.length (by omega) r2 (by omega)]
        · rw [if_neg hr, if_neg hr]
          rw [ih f' (by omega) rest hrest]

/-- `accC` is independent of the fuel once it covers the chunk list. -/
theorem accC_fuel (old : List Char) (nw : List Chunk) :
    ∀ (f : Nat) (cs : List Chunk), cs.length ≤ f →
      accC old nw f cs = accC old nw cs.length cs := by
  intro f
  induction f using Nat.strong_induction_on with
  | _ f ih =>
    intro cs hf
    cases cs with
    | nil => cases f <;> rfl
    | cons c rest =>
      obtain ⟨f', rfl⟩ : ∃ f', f = f' + 1 := ⟨f - 1, by simp at hf; omega⟩
      have hrest : rest.length ≤ f' := by simp at hf; omega
      cases c with
      | run r =>
        simp only [accC, List.length_cons]
        rw [ih f' (by omega) rest hrest]
      | sep c =>
        simp only [accC, List.length_cons]
        by_cases hc : c = '.'
        · rw [if_pos hc, if_pos hc]
          cases hsp : accPat old rest with
          | none =>
            simp only
            rw [ih f' (by omega) rest hrest]
          | some cs2 =>
            simp only
            have hlen2 : cs2.length + 1 = rest.length := by
              have := congrArg List.length (accPat_split hsp)
              simpa using this.symm
            rw [ih f' (by omega) cs2 (by omega),
              ih rest.length (by omega) cs2 (by omega)]
        · rw [if_neg hc, if_neg hc]
          rw [ih f' (by omega) rest hrest]

/-- `tagC` is independent of the fuel once it covers the chunk list. -/
theorem tagC_fuel (old : List Char) (nw : List Chunk) :
    ∀ (f : Nat) (cs : List Chunk), cs.length ≤ f →
      tagC old nw f cs = tagC old nw cs.length cs := by
  intro f
  induction f using Nat.strong_induction_on with
  | _ f ih =>
    intro cs hf
    cases cs with
    | nil => cases f <;> rfl
    | cons c rest =>
      obtain ⟨f', rfl⟩ : ∃ f', f = f' + 1 := ⟨f - 1, by simp at hf; omega⟩
      have hrest : rest.length ≤ f' := by simp at hf; omega
      cases c with
      | sep c =>
        simp only [tagC, List.length_cons]
        rw [ih f' (by omega) rest hrest]
      | run r =>
        simp only [tagC, List.length_cons]
        by_cases hj : jsonSfx.isSuffixOf r = true
        · rw [if_pos hj, if_pos hj]
          cases hsp : tagPat old rest with
          | none =>
            simp only
            rw [ih f' (by omega) rest hrest]
          | some cs2 =>
            simp only
            have hlen2 : cs2.length + 4 = rest.length := by
              have := congrArg List.length (tagPat_split hsp)
              simpa using this.symm
            rw [ih f' (by omega) cs2 (by omega),
              ih rest.length (by omega) cs2 (by omega)]
        · rw [if_neg hj, if_neg hj]
          rw [ih f' (by omega) rest hrest]

/-- The declaration-site chunk pass at its natural fuel. -/
def declCL (old : List Char) (nw : List Chunk) (cs : List Chunk) : List Chunk :=
  declC old nw cs.length cs

/-- The member-access chunk pass at its natural fuel. -/
def accCL (old : List Char) (nw : List Chunk) (cs : List Chunk) : List Chunk :=
  accC old nw cs.length cs

/-- The json-tag chunk pass at its natural fuel. -/
def tagCL (old : List Char) (nw : List Chunk) (cs : List Chunk) : List Chunk :=
  tagC old nw cs.length cs

theorem declCL_nil (old : List Char) (nw : List Chunk) : declCL old nw [] = [] := rfl

theorem declCL_sep (old : List Char) (nw : List Chunk) (c : Char) (cs : List Chunk) :
    declCL old nw (Chunk.sep c :: cs) = Chunk.sep c :: declCL old nw cs := by
  simp only [declCL, List.length_cons, declC]

theorem declCL_run_no {old r : List Char} (nw : List Chunk) (h : r ≠ old)
    (cs : List Chunk) :
    declCL old nw (Chunk.run r :: cs) = Chunk.run r :: declCL old nw cs := by
  simp only [declCL, List.length_cons, declC]
  rw [if_neg h]

theorem declCL_run_none {old : List Char} (nw : List Chunk) {cs : List Chunk}
    (h : declTailC cs = none) :
    declCL old nw (Chunk.run old :: cs) = Chunk.run old :: declCL old nw cs := by
  simp only [declCL, List.length_cons, declC, if_pos rfl, h]
  rw [if_pos trivial]

theorem declCL_fire {old : List Char} (nw : List Chunk) {cs : List Chunk}
    {pre w r2} (h : declTailC cs = some (pre, w, r2)) :
    declCL old nw (Chunk.run old :: cs) =
      nw ++ pre.map Chunk.sep ++ Chunk.run w :: declCL old nw r2 := by
  simp only [declCL, List.length_cons, declC, if_pos rfl, h]
  rw [if_pos trivial]
  rw [declC_fuel old nw cs.length r2 (by have := declTailC_len h; omega)]

theorem accCL_nil (old : List Char) (nw : List Chunk) : accCL old nw [] = [] := rfl

theorem accCL_run (old : List Char) (nw : List Chunk) (r : List Char)
    (cs : List Chunk) :
    accCL old nw (Chunk.run r :: cs) = Chunk.run r :: accCL old nw cs := by
  simp only [accCL, List.length_cons, accC]

theorem accCL_sep_no {old : List Char} (nw : List Chunk) {c : Char}
    {cs : List Chunk} (h : c = '.' → accPat old cs = none) :
    accCL old nw (Chunk.sep c :: cs) = Chunk.sep c :: accCL old nw cs := by
  simp only [accCL, List.length_cons, accC]
  by_cases hc : c = '.'
  · rw [if_pos hc, h hc]
  · rw [if_neg hc]

theorem accCL_fire {old : List Char} (nw : List Chunk) {cs cs2 : List Chunk}
    (h : accPat old cs = some cs2) :
    accCL old nw (Chunk.sep '.' :: cs) =
      Chunk.sep '.' :: (nw ++ accCL old nw cs2) := by
  simp only [accCL, List.length_cons, accC, if_pos rfl, h]
  rw [if_pos trivial]
  rw [accC_fuel old nw cs.length cs2
    (by have := congrArg List.length (accPat_split h); simp at this; omega)]

theorem tagCL_nil (old : List Char) (nw : List Chunk) : tagCL old nw [] = [] := rfl

theorem tagCL_sep (old : List Char) (nw : List Chunk) (c : Char) (cs : List Chunk) :
    tagCL old nw (Chunk.sep c :: cs) = Chunk.sep c :: tagCL old nw cs := by
  simp only [tagCL, List.length_cons, tagC]

theorem tagCL_run_no {old r : List Char} (nw : List Chunk) {cs : List Chunk}
    (h : jsonSfx.isSuffixOf r = true → tagPat old cs = none) :
    tagCL old nw (Chunk.run r :: cs) = Chunk.run r :: tagCL old nw cs := by
  simp only [tagCL, List.length_cons, tagC]
  by_cases hj : jsonSfx.isSuffixOf r = true
  · rw [if_pos hj, h hj]
  · rw [if_neg hj]

theorem tagCL_fire {old r : List Char} (nw : List Chunk) {cs cs2 : List Chunk}
    (hj : jsonSfx.isSuffixOf r = true) (h : tagPat old cs = some cs2) :
    tagCL old nw (Chunk.run r :: cs) =
      Chunk.run r :: Chunk.sep ':' :: Chunk.sep '"' ::
        (nw ++ Chunk.sep '"' :: tagCL old nw cs2) := by
  simp only [tagCL, List.length_cons, tagC, if_pos hj, h]
  rw [tagC_fuel old nw cs.length cs2
    (by have := congrArg List.length (tagPat_split h); simp at this; omega)]

theorem declCL_walk {old : List Char} (nw : List Chunk) :
    ∀ (xs : List Chunk), (∀ r, Chunk.run r ∈ xs → r ≠ old) → ∀ ys,
      declCL old nw (xs ++ ys) = xs ++ declCL old nw ys := by
  intro xs
  induction xs with
  | nil => intro _ ys; rfl
  | cons c rest ih =>
    intro h ys
    cases c with
    | sep c =>
      rw [List.cons_append, declCL_sep, ih (fun r hr => h r (by simp [hr])) ys,
        List.cons_append]
    | run r =>
      rw [List.cons_append, declCL_run_no nw (h r (by simp)) _,
        ih (fun r hr => h r (by simp [hr])) ys, List.cons_append]

theorem accCL_walk {old : List Char} (nw : List Chunk) :
    ∀ (xs : List Chunk), (∀ c, Chunk.sep c ∈ xs → c ≠ '.') → ∀ ys,
      accCL old nw (xs ++ ys) = xs ++ accCL old nw ys := by
  intro xs
  induction xs with
  | nil => intro _ ys; rfl
  | cons c rest ih =>
    intro h ys
    cases c with
    | sep c =>
      rw [List.cons_append,
        accCL_sep_no nw (fun hc => absurd hc (h c (by simp))),
        ih (fun c hc => h c (by simp [hc])) ys, List.cons_append]
    | run r =>
      rw [List.cons_append, accCL_run, ih (fun c hc => h c (by simp [hc])) ys,
        List.cons_append]

theorem tagCL_walk {old : List Char} (nw : List Chunk) :
    ∀ (xs : List Chunk), (∀ r, Chunk.run r ∈ xs → jsonSfx.isSuffixOf r = false) →
      ∀ ys, tagCL old nw (xs ++ ys) = xs ++ tagCL old nw ys := by
  intro xs
  induction xs with
  | nil => intro _ ys; rfl
  | cons c rest ih =>
    intro h ys
    cases c with
    | sep c =>
      rw [List.cons_append, tagCL_sep, ih (fun r hr => h r (by simp [hr])) ys,
        List.cons_append]
    | run r =>
      rw [List.cons_append,
        tagCL_run_no nw (fun hj => absurd hj (by simp [h r (by simp)])),
        ih (fun r hr => h r (by simp [hr])) ys, List.cons_append]

/-! ## Well-formedness facts -/

theorem CWF_sep (b : Bool) (c : Char) (cs : List Chunk) :
    CWF b (Chunk.sep c :: cs) = (!isWordChar c && CWF false cs) := by
  cases b <;> rfl

theorem CWF_run_false (r : List Char) (cs : List Chunk) :
    CWF false (Chunk.run r :: cs) =
      (!r.isEmpty && r.all isWordChar && CWF true cs) := rfl

theorem CWF_run_true (r : List Char) (cs : List Chunk) :
    CWF true (Chunk.run r :: cs) = false := rfl

theorem CWF_seps : ∀ (l : List Char), (∀ c ∈ l, isWordChar c = false) →
    ∀ b, CWF b (l.map Chunk.sep) = true := by
  intro l
  induction l with
  | nil => intro _ b; cases b <;> rfl
  | cons c rest ih =>
    intro h b
    rw [List.map_cons, CWF_sep, ih (fun c hc => h c (by simp [hc])) false,
      h c (by simp)]
    rfl

theorem endFlag_seps_false : ∀ l : List Char,
    endFlag false (l.map Chunk.sep) = false := by
  intro l
  induction l with
  | nil => rfl
  | cons c rest ih => exact ih

theorem endFlag_seps (l : List Char) (hne : l ≠ []) (b : Bool) :
    endFlag b (l.map Chunk.sep) = false := by
  cases l with
  | nil => exact absurd rfl hne
  | cons c rest =>
    rw [List.map_cons]
    show endFlag false (rest.map Chunk.sep) = false
    exact endFlag_seps_false rest

theorem CWF_seps_nonword : ∀ (l : List Char) (b : Bool),
    CWF b (l.map Chunk.sep) = true → ∀ c ∈ l, isWordChar c = false := by
  intro l
  induction l with
  | nil => intro b _ c hc; simp at hc
  | cons a rest ih =>
    intro b h c hc
    rw [List.map_cons, CWF_sep] at h
    simp only [Bool.and_eq_true] at h
    rcases List.mem_cons.mp hc with hca | hcr
    · subst hca
      simpa using h.1
    · exact ih false h.2 c hcr

/-- Structure delivered by a successful declaration tail in a
well-formed context. -/
theorem declTailC_wf {cs : List Chunk} {pre w r2}
    (h : declTailC cs = some (pre, w, r2)) (hwf : CWF true cs = true) :
    (∀ c ∈ pre, isWordChar c = false) ∧ w ≠ [] ∧ w.all isWordChar = true ∧
      CWF true r2 = true := by
  obtain ⟨hsplit, hne⟩ := declTailC_split h
  rw [hsplit, CWF_append] at hwf
  simp only [Bool.and_eq_true] at hwf
  obtain ⟨h1, h2⟩ := hwf
  rw [endFlag_seps pre hne] at h2
  rw [CWF_run_false] at h2
  simp only [Bool.and_eq_true] at h2
  refine ⟨CWF_seps_nonword pre true h1, ?_, h2.1.2, h2.2⟩
  simpa using h2.1.1

theorem endFlag_append (xs ys : List Chunk) :
    ∀ b, endFlag b (xs ++ ys) = endFlag (endFlag b xs) ys := by
  induction xs with
  | nil => intro b; rfl
  | cons c rest ih =>
    intro b
    cases c with
    | run r => exact ih true
    | sep c => exact ih false

/-- The declaration-site pass preserves well-formedness when the
replacement chunk list is well formed. -/
theorem declCL_wf {old : List Char} {nw : List Chunk} (hnw : CWF false nw = true) :
    ∀ (n : Nat) (cs : List Chunk), cs.length ≤ n → ∀ b, CWF b cs = true →
      CWF b (declCL old nw cs) = true := by
  intro n
  induction n using Nat.strong_induction_on with
  | _ n ih =>
    intro cs hn b hb
    cases cs with
    | nil => exact hb
    | cons c rest =>
      have hrest : rest.length ≤ n - 1 := by simp at hn; omega
      cases c with
      | sep c =>
        rw [declCL_sep, CWF_sep]
        rw [CWF_sep] at hb
        simp only [Bool.and_eq_true] at hb ⊢
        exact ⟨hb.1, ih (n - 1) (by simp at hn; omega) rest hrest false hb.2⟩
      | run r =>
        cases b with
        | true => exact absurd hb (by rw [CWF_run_true]; simp)
        | false =>
          rw [CWF_run_false] at hb
          simp only [Bool.and_eq_true] at hb
          obtain ⟨⟨hr1, hr2⟩, hr3⟩ := hb
          by_cases hro : r = old
          · subst hro
            cases hsp : declTailC rest with
            | none =>
              rw [declCL_run_none nw hsp, CWF_run_false]
              simp only [Bool.and_eq_true]
              exact ⟨⟨hr1, hr2⟩,
                ih (n - 1) (by simp at hn; omega) rest hrest true hr3⟩
            | some pr =>
              obtain ⟨pre, w, r2⟩ := pr
              rw [declCL_fire nw hsp]
              obtain ⟨hpre, hw1, hw2, hwf2⟩ := declTailC_wf hsp hr3
              have hprene : pre ≠ [] := (declTailC_split hsp).2
              have hlen2 : r2.length + 2 ≤ rest.length := declTailC_len hsp
              rw [CWF_append, CWF_append]
              simp only [Bool.and_eq_true]
              refine ⟨⟨hnw, ?_⟩, ?_⟩
              · exact CWF_seps pre (fun c hc => hpre c hc) _
              · rw [endFlag_append, endFlag_seps pre hprene, CWF_run_false]
                simp only [Bool.and_eq_true]
                refine ⟨⟨by simpa using hw1, hw2⟩, ?_⟩
                exact ih (n - 1) (by simp at hn; omega) r2 (by omega) true hwf2
          · rw [declCL_run_no nw hro, CWF_run_false]
            simp only [Bool.and_eq_true]
            exact ⟨⟨hr1, hr2⟩,
              ih (n - 1) (by simp at hn; omega) rest hrest true hr3⟩

/-- The member-access pass preserves well-formedness when the
replacement chunk list is well formed. -/
theorem accCL_wf {old : List Char} {nw : List Chunk} (hnw : CWF false nw = true) :
    ∀ (n : Nat) (cs : List Chunk), cs.length ≤ n → ∀ b, CWF b cs = true →
      CWF b (accCL old nw cs) = true := by
  intro n
  induction n using Nat.strong_induction_on with
  | _ n ih =>
    intro cs hn b hb
    cases cs with
    | nil => exact hb
    | cons c rest =>
      have hrest : rest.length ≤ n - 1 := by simp at hn; omega
      cases c with
      | run r =>
        cases b with
        | true => exact absurd hb (by rw [CWF_run_true]; simp)
        | false =>
          rw [CWF_run_false] at hb
          simp only [Bool.and_eq_true] at hb
          rw [accCL_run, CWF_run_false]
          simp only [Bool.and_eq_true]
          exact ⟨hb.1, ih (n - 1) (by simp at hn; omega) rest hrest true hb.2⟩
      | sep c =>
        rw [CWF_sep] at hb
        simp only [Bool.and_eq_true] at hb
        by_cases hc : c = '.'
        · subst hc
          cases hsp : accPat old rest with
          | none =>
            rw [accCL_sep_no nw (fun _ => hsp), CWF_sep]
            simp only [Bool.and_eq_true]
            exact ⟨hb.1, ih (n - 1) (by simp at hn; omega) rest hrest false hb.2⟩
          | some cs2 =>
            rw [accCL_fire nw hsp, CWF_sep]
            simp only [Bool.and_eq_true]
            refine ⟨hb.1, ?_⟩
            rw [CWF_append]
            simp only [Bool.and_eq_true]
            have hsplit := accPat_split hsp
            have hcs2 : CWF true cs2 = true := by
              have := hb.2
              rw [hsplit, CWF_run_false] at this
              simp only [Bool.and_eq_true] at this
              exact this.2
            have hlen2 : cs2.length + 1 ≤ rest.length := by
              have := congrArg List.length hsplit
              simp at this
              omega
            refine ⟨hnw, ?_⟩
            cases hef : endFlag false nw with
            | true => exact ih (n - 1) (by simp at hn; omega) cs2 (by omega) true hcs2
            | false =>
              exact ih (n - 1) (by simp at hn; omega) cs2 (by omega) false
                (CWF_true_imp cs2 hcs2)
        · rw [accCL_sep_no nw (fun hx => absurd hx hc), CWF_sep]
          simp only [Bool.and_eq_true]
          exact ⟨hb.1, ih (n - 1) (by simp at hn; omega) rest hrest false hb.2⟩

/-- The json-tag pass preserves well-formedness when the replacement
chunk list is well formed. -/
theorem tagCL_wf {old : List Char} {nw : List Chunk} (hnw : CWF false nw = true) :
    ∀ (n : Nat) (cs : List Chunk), cs.length ≤ n → ∀ b, CWF b cs = true →
      CWF b (tagCL old nw cs) = true := by
  intro n
  induction n using Nat.strong_induction_on with
  | _ n ih =>
    intro cs hn b hb
    cases cs with
    | nil => exact hb
    | cons c rest =>
      have hrest : rest.length ≤ n - 1 := by simp at hn; omega
      cases c with
      | sep c =>
        rw [CWF_sep] at hb
        simp only [Bool.and_eq_true] at hb
        rw [tagCL_sep, CWF_sep]
        simp only [Bool.and_eq_true]
        exact ⟨hb.1, ih (n - 1) (by simp at hn; omega) rest hrest false hb.2⟩
      | run r =>
        cases b with
        | true => exact absurd hb (by rw [CWF_run_true]; simp)
        | false =>
          rw [CWF_run_false] at hb
          simp only [Bool.and_eq_true] at hb
          by_cases hj : jsonSfx.isSuffixOf r = true
          · cases hsp : tagPat old rest with
            | none =>
              rw [tagCL_run_no nw (fun _ => hsp), CWF_run_false]
              simp only [Bool.and_eq_true]
              exact ⟨hb.1, ih (n - 1) (by simp at hn; omega) rest hrest true hb.2⟩
            | some cs2 =>
              rw [tagCL_fire nw hj hsp, CWF_run_false]
              simp only [Bool.and_eq_true]
              refine ⟨hb.1, ?_⟩
              rw [CWF_sep, CWF_sep]
              simp only [Bool.and_eq_true]
              refine ⟨by decide, by decide, ?_⟩
              rw [CWF_append]
              simp only [Bool.and_eq_true]
              refine ⟨hnw, ?_⟩
              rw [CWF_sep]
              simp only [Bool.and_eq_true]
              refine ⟨by decide, ?_⟩
              have hsplit := tagPat_split hsp
              have hcs2 : CWF false cs2 = true := by
                have := hb.2
                rw [hsplit, CWF_sep] at this
                simp only [Bool.and_eq_true] at this
                have := this.2
                rw [CWF_sep] at this
                simp only [Bool.and_eq_true] at this
                have := this.2
                rw [CWF_run_false] at this
                simp only [Bool.and_eq_true] at this
                have := this.2
                rw [CWF_sep] at this
                simp only [Bool.and_eq_true] at this
                exact this.2
              have hlen2 : cs2.length + 4 ≤ rest.length := by
                have := congrArg List.length hsplit
                simp at this
                omega
              exact ih (n - 1) (by simp at hn; omega) cs2 (by omega) false hcs2
          · rw [tagCL_run_no nw (fun hx => absurd hx hj), CWF_run_false]
            simp only [Bool.and_eq_true]
            exact ⟨hb.1, ih (n - 1) (by simp at hn; omega) rest hrest true hb.2⟩

/-! ## Simulation: the character scanners against the chunk passes -/

theorem word_not_star {c : Char} (h : isWordChar c = true) : c ≠ '*' := by
  intro hx
  subst hx
  simp [isWordChar, Char.isAlphanum, Char.isAlpha, Char.isUpper, Char.isLower,
    Char.isDigit] at h

theorem word_not_dot {c : Char} (h : isWordChar c = true) : c ≠ '.' := by
  intro hx
  subst hx
  simp [isWordChar, Char.isAlphanum, Char.isAlpha, Char.isUpper, Char.isLower,
    Char.isDigit] at h

theorem declRepF_word_walk (old nw : List Char) :
    ∀ (r X : List Char), r.all isWordChar = true →
      declRepF old nw (r ++ X).length true (r ++ X) =
        r ++ declRepF old nw X.length true X := by
  intro r
  induction r with
  | nil => intro X _; rfl
  | cons c r2 ih =>
    intro X h
    simp only [List.all_cons, Bool.and_eq_true] at h
    simp only [List.cons_append, List.length_cons, declRepF]
    rw [if_neg (by
      intro hx
      exact hx.1 (by simp [wordAt, h.1]))]
    simp only [List.append_eq]
    rw [h.1, ih X h.2]

theorem accRepF_word_walk (old nw : List Char) :
    ∀ (r X : List Char), r.all isWordChar = true →
      accRepF old nw (r ++ X).length (r ++ X) =
        r ++ accRepF old nw X.length X := by
  intro r
  induction r with
  | nil => intro X _; rfl
  | cons c r2 ih =>
    intro X h
    simp only [List.all_cons, Bool.and_eq_true] at h
    simp only [List.cons_append, List.length_cons, accRepF]
    rw [if_neg (by
      intro hx
      exact word_not_dot h.1 hx.1)]
    simp only [List.append_eq]
    rw [ih X h.2]

theorem tagRepF_walk (old nw : List Char) :
    ∀ (r X : List Char),
      (∀ r2, r2 <:+ r → r2 ≠ [] → (jsonTagLit old).isPrefixOf (r2 ++ X) = false) →
      tagRepF old nw (r ++ X).length (r ++ X) = r ++ tagRepF old nw X.length X := by
  intro r
  induction r with
  | nil => intro X _; rfl
  | cons c r2 ih =>
    intro X h
    simp only [List.cons_append, List.length_cons, tagRepF]
    rw [if_neg (by
      have := h (c :: r2) (List.suffix_refl _) (by simp)
      simp only [List.cons_append] at this
      simp [this])]
    simp only [List.append_eq]
    rw [ih X (fun r3 hs hne => h r3 (hs.trans (List.suffix_cons c r2)) hne)]

theorem CWF_wsDrop : ∀ (cs : List Chunk) (b : Bool), CWF b cs = true →
    CWF false (wsDrop cs) = true := by
  intro cs
  induction cs with
  | nil => intro b _; rfl
  | cons c rest ih =>
    intro b hb
    cases c with
    | run r =>
      cases b with
      | true => exact absurd hb (by rw [CWF_run_true]; simp)
      | false => exact hb
    | sep c =>
      rw [CWF_sep] at hb
      simp only [Bool.and_eq_true] at hb
      by_cases hws : isGoSpace c = true
      · show CWF false (wsDrop (Chunk.sep c :: rest)) = true
        simp only [wsDrop, if_pos hws]
        exact ih false hb.2
      · show CWF false (wsDrop (Chunk.sep c :: rest)) = true
        simp only [wsDrop, hws]
        rw [if_neg (by simp [hws]), CWF_sep]
        simp only [Bool.and_eq_true]
        exact hb

theorem ws_render : ∀ (cs : List Chunk) (b : Bool), CWF b cs = true →
    (renderC cs).takeWhile isGoSpace = wsTake cs ∧
    (renderC cs).dropWhile isGoSpace = renderC (wsDrop cs) := by
  intro cs
  induction cs with
  | nil => intro b _; exact ⟨rfl, rfl⟩
  | cons c rest ih =>
    intro b hb
    cases c with
    | run r =>
      cases b with
      | true => exact absurd hb (by rw [CWF_run_true]; simp)
      | false =>
        rw [CWF_run_false] at hb
        simp only [Bool.and_eq_true] at hb
        cases hr : r with
        | nil =>
          rw [hr] at hb
          simp at hb
        | cons c0 r0 =>
          subst hr
          have hw : isWordChar c0 = true := by
            simp only [List.all_cons, Bool.and_eq_true] at hb
            exact hb.1.2.1
          have hns : isGoSpace c0 = false := word_not_space hw
          constructor
          · show (((c0 :: r0) ++ renderC rest).takeWhile isGoSpace) =
              wsTake (Chunk.run (c0 :: r0) :: rest)
            simp only [List.cons_append, List.takeWhile_cons, hns]
            rfl
          · show (((c0 :: r0) ++ renderC rest).dropWhile isGoSpace) =
              renderC (wsDrop (Chunk.run (c0 :: r0) :: rest))
            simp only [List.cons_append, List.dropWhile_cons, hns]
            rfl
    | sep c =>
      rw [CWF_sep] at hb
      simp only [Bool.and_eq_true] at hb
      by_cases hws : isGoSpace c = true
      · have := ih false hb.2
        constructor
        · show ((c :: renderC rest).takeWhile isGoSpace) = wsTake (Chunk.sep c :: rest)
          simp only [List.takeWhile_cons, hws, if_pos]
          simp only [wsTake, if_pos hws]
          rw [this.1]
        · show ((c :: renderC rest).dropWhile isGoSpace) = renderC (wsDrop (Chunk.sep c :: rest))
          simp only [List.dropWhile_cons, hws, if_pos]
          simp only [wsDrop, if_pos hws]
          rw [this.2]
      · constructor
        · show ((c :: renderC rest).takeWhile isGoSpace) = wsTake (Chunk.sep c :: rest)
          simp only [List.takeWhile_cons, hws]
          simp only [wsTake]
          rw [if_neg (by simp [hws]), if_neg hws]
        · show ((c :: renderC rest).dropWhile isGoSpace) = renderC (wsDrop (Chunk.sep c :: rest))
          simp only [List.dropWhile_cons, hws]
          simp only [wsDrop]
          rw [if_neg (by simp [hws]), if_neg hws]
          rfl

theorem render_head_nonword {cs : List Chunk} (hwf : CWF true cs = true) :
    ∀ c, (renderC cs).head? = some c → isWordChar c = false := by
  intro c hc
  cases cs with
  | nil => cases hc
  | cons k rest =>
    cases k with
    | run r => exact absurd hwf (by rw [CWF_run_true]; simp)
    | sep s =>
      rw [CWF_sep] at hwf
      simp only [Bool.and_eq_true] at hwf
      have : c = s := by
        simp only [renderC, List.head?_cons, Option.some.injEq] at hc
        exact hc.symm
      subst this
      simpa using hwf.1

theorem run_takeWhile {w : List Char} {cs : List Chunk} (hw : w.all isWordChar = true)
    (hwf : CWF true cs = true) :
    (w ++ renderC cs).takeWhile isWordChar = w := by
  apply takeWhile_eq_of_max_prefix (List.prefix_append w _)
  · intro c hc
    exact List.all_eq_true.mp hw c hc
  · intro c hc
    rw [List.drop_left] at hc
    exact render_head_nonword hwf c hc

/-- The chunk tail match agrees with the character tail match on
rendered well-formed chunk lists. -/
theorem declTail_sim {cs : List Chunk} (hwf : CWF true cs = true) :
    (declTailC cs = none → declTailSplit (renderC cs) = none) ∧
    (∀ pre w r2, declTailC cs = some (pre, w, r2) →
      declTailSplit (renderC cs) = some (pre ++ w, renderC r2)) := by
  have hws := ws_render cs true hwf
  have h2 : (renderC cs).drop ((renderC cs).takeWhile isGoSpace).length =
      renderC (wsDrop cs) := by
    rw [drop_length_takeWhile]
    exact hws.2
  have hdwf : CWF false (wsDrop cs) = true := CWF_wsDrop cs true hwf
  unfold declTailSplit declTailC
  rw [hws.1, ← hws.1, h2, hws.1]
  by_cases he : (wsTake cs).isEmpty
  · rw [if_pos he, if_pos he]
    exact ⟨fun _ => rfl, fun pre w r2 h => by cases h⟩
  · rw [if_neg he, if_neg he]
    cases hd : wsDrop cs with
    | nil =>
      exact ⟨fun _ => rfl, fun pre w r2 h => by simp only at h; cases h⟩
    | cons k r1 =>
      rw [hd] at hdwf
      cases k with
      | run w0 =>
        rw [CWF_run_false] at hdwf
        simp only [Bool.and_eq_true] at hdwf
        obtain ⟨⟨hw0ne, hw0w⟩, hr1wf⟩ := hdwf
        cases hw0 : w0 with
        | nil =>
          rw [hw0] at hw0ne
          simp at hw0ne
        | cons a wt =>
          subst hw0
          have ha : isWordChar a = true := by
            simp only [List.all_cons, Bool.and_eq_true] at hw0w
            exact hw0w.1
          constructor
          · intro h
            simp only at h
            cases h
          · intro pre w r2 h
            simp only at h
            simp only [Option.some.injEq, Prod.mk.injEq] at h
            obtain ⟨hp, hw, hr⟩ := h
            subst hp
            subst hw
            subst hr
            simp only [renderC, List.cons_append]
            rw [if_neg (word_not_star ha)]
            have htk : (a :: (wt ++ renderC r1)).takeWhile isWordChar = a :: wt := by
              have := @run_takeWhile (a :: wt) _ hw0w hr1wf
              simpa using this
            rw [htk]
            rw [if_neg (by simp)]
            have hdrop : (a :: (wt ++ renderC r1)).drop (a :: wt).length =
                renderC r1 := by
              have := List.drop_left (a :: wt) (renderC r1)
              simpa using this
            rw [hdrop]
      | sep c =>
        rw [CWF_sep] at hdwf
        simp only [Bool.and_eq_true] at hdwf
        by_cases hc : c = '*'
        · subst hc
          cases r1 with
          | nil =>
            constructor
            · intro _
              simp [renderC]
            · intro pre w r2 h
              simp at h
          | cons k1 r1t =>
            cases k1 with
            | run w1 =>
              have hr1 := hdwf.2
              rw [CWF_run_false] at hr1
              simp only [Bool.and_eq_true] at hr1
              obtain ⟨⟨hw1ne, hw1w⟩, hr2wf⟩ := hr1
              have hw1ne2 : w1 ≠ [] := by simpa using hw1ne
              constructor
              · intro h
                simp at h
              · intro pre w r2 h
                simp only at h
                rw [if_pos trivial] at h
                simp only [Option.some.injEq, Prod.mk.injEq] at h
                obtain ⟨hp, hw, hr⟩ := h
                subst hp
                subst hw
                subst hr
                simp only [renderC]
                rw [if_pos trivial]
                have htk : (renderC (Chunk.run w1 :: r1t)).takeWhile isWordChar = w1 := by
                  show ((w1 ++ renderC r1t).takeWhile isWordChar) = w1
                  exact run_takeWhile hw1w hr2wf
                simp only [renderC] at htk
                rw [htk]
                rw [if_neg (by
                  intro hx
                  rw [List.isEmpty_iff] at hx
                  exact hw1ne2 hx)]
                have hdrop : (w1 ++ renderC r1t).drop w1.length = renderC r1t :=
                  List.drop_left w1 (renderC r1t)
                rw [hdrop, List.append_assoc]
                rfl
            | sep c1 =>
              have hc1 : isWordChar c1 = false := by
                have := hdwf.2
                rw [CWF_sep] at this
                simp only [Bool.and_eq_true] at this
                simpa using this.1
              constructor
              · intro _
                simp [renderC, List.takeWhile_cons, hc1]
              · intro pre w r2 h
                simp at h
        · have hcw : isWordChar c = false := by simpa using hdwf.1
          constructor
          · intro _
            simp [renderC, List.takeWhile_cons, hcw, hc]
          · intro pre w r2 h
            simp [hc] at h

theorem prefix_head_mismatch {o c : Char} {ot X : List Char}
    (ho : isWordChar o = true) (hc : isWordChar c = false) :
    (o :: ot).isPrefixOf (c :: X) = false := by
  cases hx : (o :: ot).isPrefixOf (c :: X) with
  | false => rfl
  | true =>
    rw [List.isPrefixOf_iff_prefix] at hx
    rw [List.cons_prefix_cons] at hx
    rw [hx.1, hc] at ho
    cases ho

theorem declTailSplit_word_head {t : List Char} {c : Char}
    (hc : isWordChar c = true) (h : t.head? = some c) :
    declTailSplit t = none := by
  cases t with
  | nil => cases h
  | cons c0 t0 =>
    have hc0 : c0 = c := by simpa using h
    subst hc0
    unfold declTailSplit
    rw [if_pos (by simp [List.takeWhile_cons, word_not_space hc])]

theorem prefix_run_none {old r X : List Char} (hne : old ≠ [])
    (holdw : old.all isWordChar = true) (hrw : r.all isWordChar = true)
    (hro : r ≠ old) (hX : ∀ c, X.head? = some c → isWordChar c = false)
    (hpre : old.isPrefixOf (r ++ X) = true) :
    declTailSplit ((r ++ X).drop old.length) = none := by
  rw [List.isPrefixOf_iff_prefix] at hpre
  have hcases := List.prefix_or_prefix_of_prefix hpre (List.prefix_append r X)
  have hlt : old.length < r.length ∧ old <+: r := by
    rcases hcases with hor | hro2
    · refine ⟨?_, hor⟩
      rcases Nat.lt_or_ge old.length r.length with h | h
      · exact h
      · exfalso
        have hle := hor.length_le
        have hlen : old.length = r.length := by omega
        exact hro (hor.eq_of_length hlen).symm
    · exfalso
      obtain ⟨e, he⟩ := hro2
      subst he
      cases he2 : e with
      | nil =>
        rw [he2] at hro
        simp at hro
      | cons e0 et =>
        have hesub : e <+: X := by
          exact (List.prefix_append_right_inj r).mp (by simpa using hpre)
        obtain ⟨u, hu⟩ := hesub
        have hx0 : X.head? = some e0 := by
          rw [← hu, he2]
          rfl
        have he0w : isWordChar e0 = true := by
          have : e0 ∈ r ++ e := by
            rw [he2]
            simp
          exact List.all_eq_true.mp holdw e0 this
        rw [hX e0 hx0] at he0w
        cases he0w
  obtain ⟨hlen, hor⟩ := hlt
  rw [List.drop_append_of_le_length (by omega)]
  have hdne : r.drop old.length ≠ [] := by
    intro hx
    have := congrArg List.length hx
    simp at this
    omega
  cases hdd : r.drop old.length with
  | nil => exact absurd hdd hdne
  | cons d0 dt =>
    have hd0 : isWordChar d0 = true := by
      have hmem : d0 ∈ r := by
        have : d0 ∈ r.drop old.length := by
          rw [hdd]
          simp
        exact List.mem_of_mem_drop this
      exact List.all_eq_true.mp hrw d0 hmem
    apply declTailSplit_word_head hd0
    rfl

/-- Simulation of the declaration-site scanner by the chunk pass. -/
theorem declRep_sim (old nw : List Char) (nwCs : List Chunk) (hne : old ≠ [])
    (hold : old.all isWordChar = true) (hnwr : renderC nwCs = nw) :
    ∀ (n : Nat) (cs : List Chunk), cs.length ≤ n → CWF false cs = true →
    ∀ pw : Bool, (pw = true → CWF true cs = true) →
      declRepF old nw (renderC cs).length pw (renderC cs) =
        renderC (declCL old nwCs cs) := by
  intro n
  induction n using Nat.strong_induction_on with
  | _ n ih =>
    intro cs hn hwf pw hpw
    cases cs with
    | nil => rfl
    | cons k rest =>
      have hrest : rest.length ≤ n - 1 := by simp at hn; omega
      have hnpos : 1 ≤ n := by simp at hn; omega
      cases k with
      | sep c =>
        rw [CWF_sep] at hwf
        simp only [Bool.and_eq_true] at hwf
        have hcw : isWordChar c = false := by simpa using hwf.1
        show declRepF old nw (c :: renderC rest).length pw (c :: renderC rest) =
          renderC (declCL old nwCs (Chunk.sep c :: rest))
        rw [declCL_sep]
        simp only [List.length_cons, declRepF]
        rw [if_neg (by
          intro hx
          cases ho : old with
          | nil => exact hne ho
          | cons o ot =>
            have how : isWordChar o = true := by
              rw [ho] at hold
              simp only [List.all_cons, Bool.and_eq_true] at hold
              exact hold.1
            have := hx.2
            rw [ho, prefix_head_mismatch how hcw] at this
            cases this)]
        rw [hcw]
        show c :: declRepF old nw (renderC rest).length false (renderC rest) =
          renderC (Chunk.sep c :: declCL old nwCs rest)
        rw [ih (n - 1) (by omega) rest hrest hwf.2 false (by intro hx; cases hx)]
        rfl
      | run r =>
        rw [CWF_run_false] at hwf
        simp only [Bool.and_eq_true] at hwf
        obtain ⟨⟨hr1, hr2⟩, hr3⟩ := hwf
        have hr1ne : r ≠ [] := by simpa using hr1
        cases pw with
        | true =>
          have := hpw rfl
          rw [CWF_run_true] at this
          cases this
        | false =>
          by_cases hro : r = old
          · subst hro
            cases hoc : r with
            | nil => exact absurd hoc hr1ne
            | cons o ot =>
              subst hoc
              have how : isWordChar o = true := by
                simp only [List.all_cons, Bool.and_eq_true] at hr2
                exact hr2.1
              show declRepF (o :: ot) nw (o :: (ot ++ renderC rest)).length false
                  (o :: (ot ++ renderC rest)) =
                renderC (declCL (o :: ot) nwCs (Chunk.run (o :: ot) :: rest))
              simp only [List.length_cons, declRepF]
              rw [if_pos (by
                constructor
                · simp [wordAt, how]
                · rw [List.isPrefixOf_iff_prefix]
                  exact List.prefix_append (o :: ot) (renderC rest))]
              have hdropX : List.drop (ot.length + 1) (o :: (ot ++ renderC rest)) =
                  renderC rest := by
                have := List.drop_left (o :: ot) (renderC rest)
                simpa using this
              rw [hdropX]
              cases hsp : declTailC rest with
              | none =>
                rw [(declTail_sim hr3).1 hsp]
                simp only
                rw [declCL_run_none nwCs hsp]
                have hotw : ot.all isWordChar = true := by
                  simp only [List.all_cons, Bool.and_eq_true] at hr2
                  exact hr2.2
                rw [how]
                rw [declRepF_word_walk (o :: ot) nw ot (renderC rest) hotw]
                rw [ih (n - 1) (by omega) rest hrest (CWF_true_imp rest hr3) true
                  (fun _ => hr3)]
                rfl
              | some pr =>
                obtain ⟨pre, w, r2⟩ := pr
                rw [(declTail_sim hr3).2 pre w r2 hsp]
                simp only
                rw [declCL_fire nwCs hsp]
                obtain ⟨hprew, hwne, hww, hr2wf⟩ := declTailC_wf hsp hr3
                have hrsplit : renderC rest = pre ++ (w ++ renderC r2) := by
                  have h1 := congrArg renderC (declTailC_split hsp).1
                  rw [renderC_append, renderC_map_sep] at h1
                  exact h1
                have hr2len : (renderC r2).length + 2 ≤ (renderC rest).length := by
                  have := congrArg List.length hrsplit
                  simp only [List.length_append] at this
                  have hpne : 1 ≤ pre.length := by
                    cases hp : pre with
                    | nil => exact absurd hp (declTailC_split hsp).2
                    | cons a b => simp
                  have hwne2 : 1 ≤ w.length := by
                    cases hw : w with
                    | nil => exact absurd hw hwne
                    | cons a b => simp
                  omega
                rw [declRepF_fuel (o :: ot) nw (ot ++ renderC rest).length (renderC r2) true
                  (by simp [List.length_append]; omega)]
                have hr2lenn : r2.length ≤ n - 1 := by
                  have := declTailC_len hsp
                  omega
                rw [ih (n - 1) (by omega) r2 hr2lenn (CWF_true_imp r2 hr2wf) true
                  (fun _ => hr2wf)]
                rw [renderC_append, renderC_append, renderC_map_sep, hnwr]
                show nw ++ (pre ++ w) ++ renderC (declCL (o :: ot) nwCs r2) =
                  nw ++ pre ++ (w ++ renderC (declCL (o :: ot) nwCs r2))
                simp [List.append_assoc]
          · cases hrc : r with
            | nil => exact absurd hrc hr1ne
            | cons a rt =>
              subst hrc
              have haw : isWordChar a = true := by
                simp only [List.all_cons, Bool.and_eq_true] at hr2
                exact hr2.1
              have hrtw : rt.all isWordChar = true := by
                simp only [List.all_cons, Bool.and_eq_true] at hr2
                exact hr2.2
              show declRepF old nw (a :: (rt ++ renderC rest)).length false
                  (a :: (rt ++ renderC rest)) =
                renderC (declCL old nwCs (Chunk.run (a :: rt) :: rest))
              rw [declCL_run_no nwCs hro]
              have hstep : declRepF old nw (a :: (rt ++ renderC rest)).length false
                  (a :: (rt ++ renderC rest)) =
                  a :: declRepF old nw (rt ++ renderC rest).length (isWordChar a)
                    (rt ++ renderC rest) := by
                simp only [List.length_cons, declRepF]
                by_cases htr : (false ≠ wordAt (a :: (rt ++ renderC rest)) ∧
                    old.isPrefixOf (a :: (rt ++ renderC rest)) = true)
                · rw [if_pos htr]
                  have hnone : declTailSplit
                      ((a :: (rt ++ renderC rest)).drop old.length) = none := by
                    have := @prefix_run_none old (a :: rt)
                      (renderC rest) hne hold hr2 hro
                      (fun c hc => render_head_nonword hr3 c hc)
                      (by simpa using htr.2)
                    simpa using this
                  rw [hnone]
                · rw [if_neg htr]
              rw [hstep, haw]
              rw [declRepF_word_walk old nw rt (renderC rest) hrtw]
              rw [ih (n - 1) (by omega) rest hrest (CWF_true_imp rest hr3) true
                (fun _ => hr3)]
              rfl

theorem wordAt_render_false {cs : List Chunk} (hwf : CWF true cs = true) :
    wordAt (renderC cs) = false := by
  cases hr : renderC cs with
  | nil => rfl
  | cons c X =>
    show isWordChar c = false
    apply render_head_nonword hwf
    rw [hr]
    rfl

/-- A word token constrained by a trailing word boundary inside a
rendered well-formed chunk list must be an entire run chunk. -/
theorem prefix_render_run {old : List Char} {cs : List Chunk} (hne : old ≠ [])
    (hold : old.all isWordChar = true) (hwf : CWF false cs = true)
    (hpre : old.isPrefixOf (renderC cs) = true)
    (hafter : wordAt ((renderC cs).drop old.length) = false) :
    ∃ cs2, cs = Chunk.run old :: cs2 := by
  cases cs with
  | nil =>
    rw [List.isPrefixOf_iff_prefix] at hpre
    have := List.prefix_nil.mp hpre
    exact absurd this hne
  | cons k rest =>
    cases k with
    | sep c =>
      rw [CWF_sep] at hwf
      simp only [Bool.and_eq_true] at hwf
      cases ho : old with
      | nil => exact absurd ho hne
      | cons o ot =>
        have how : isWordChar o = true := by
          rw [ho] at hold
          simp only [List.all_cons, Bool.and_eq_true] at hold
          exact hold.1
        rw [ho] at hpre
        have hpre2 : (o :: ot).isPrefixOf (c :: renderC rest) = true := hpre
        have : (o :: ot).isPrefixOf (c :: renderC rest) = false :=
          prefix_head_mismatch how (by simpa using hwf.1)
        rw [this] at hpre2
        cases hpre2
    | run r =>
      rw [CWF_run_false] at hwf
      simp only [Bool.and_eq_true] at hwf
      obtain ⟨⟨hr1, hr2⟩, hr3⟩ := hwf
      rw [List.isPrefixOf_iff_prefix] at hpre
      have hXw : ∀ c, (renderC rest).head? = some c → isWordChar c = false :=
        fun c hc => render_head_nonword hr3 c hc
      have hreq : r = old := by
        rcases List.prefix_or_prefix_of_prefix hpre
          (List.prefix_append r (renderC rest)) with hor | hro2
        · rcases Nat.lt_or_ge old.length r.length with hlt | hge
          · exfalso
            have hdrop : ((r ++ renderC rest).drop old.length) =
                r.drop old.length ++ renderC rest :=
              List.drop_append_of_le_length (by omega)
            have hdne : r.drop old.length ≠ [] := by
              intro hx
              have := congrArg List.length hx
              simp at this
              omega
            cases hdd : r.drop old.length with
            | nil => exact absurd hdd hdne
            | cons d0 dt =>
              have hd0 : isWordChar d0 = true := by
                have hmem : d0 ∈ r := by
                  have : d0 ∈ r.drop old.length := by
                    rw [hdd]
                    simp
                  exact List.mem_of_mem_drop this
                exact List.all_eq_true.mp hr2 d0 hmem
              show False
              have : wordAt ((r ++ renderC rest).drop old.length) = true := by
                rw [hdrop, hdd]
                show isWordChar d0 = true
                exact hd0
              rw [show renderC (Chunk.run r :: rest) = r ++ renderC rest from rfl]
                at hafter
              rw [this] at hafter
              cases hafter
          · exact (hor.eq_of_length (by
              have := hor.length_le
              omega)).symm
        · obtain ⟨e, he⟩ := hro2
          cases he2 : e with
          | nil =>
            rw [he2] at he
            simpa using he
          | cons e0 et =>
            exfalso
            subst he
            have hpre2 : r ++ e <+: r ++ renderC rest := hpre
            have hesub : e <+: renderC rest :=
              (List.prefix_append_right_inj r).mp hpre2
            obtain ⟨u, hu⟩ := hesub
            have hx0 : (renderC rest).head? = some e0 := by
              rw [← hu, he2]
              rfl
            have he0w : isWordChar e0 = true := by
              have : e0 ∈ r ++ e := by
                rw [he2]
                simp
              exact List.all_eq_true.mp hold e0 this
            rw [hXw e0 hx0] at he0w
            cases he0w
      subst hreq
      exact ⟨rest, rfl⟩

/-- Simulation of the member-access scanner by the chunk pass. -/
theorem accRep_sim (old nw : List Char) (nwCs : List Chunk) (hne : old ≠ [])
    (hold : old.all isWordChar = true) (hnwr : renderC nwCs = nw) :
    ∀ (n : Nat) (cs : List Chunk), cs.length ≤ n → CWF false cs = true →
      accRepF old nw (renderC cs).length (renderC cs) =
        renderC (accCL old nwCs cs) := by
  intro n
  induction n using Nat.strong_induction_on with
  | _ n ih =>
    intro cs hn hwf
    cases cs with
    | nil => rfl
    | cons k rest =>
      have hrest : rest.length ≤ n - 1 := by simp at hn; omega
      cases k with
      | run r =>
        rw [CWF_run_false] at hwf
        simp only [Bool.and_eq_true] at hwf
        obtain ⟨⟨hr1, hr2⟩, hr3⟩ := hwf
        show accRepF old nw (r ++ renderC rest).length (r ++ renderC rest) =
          renderC (accCL old nwCs (Chunk.run r :: rest))
        rw [accCL_run, accRepF_word_walk old nw r (renderC rest) hr2]
        rw [ih (n - 1) (by simp at hn; omega) rest hrest (CWF_true_imp rest hr3)]
        rfl
      | sep c =>
        rw [CWF_sep] at hwf
        simp only [Bool.and_eq_true] at hwf
        show accRepF old nw (c :: renderC rest).length (c :: renderC rest) =
          renderC (accCL old nwCs (Chunk.sep c :: rest))
        simp only [List.length_cons, accRepF]
        by_cases hc : c = '.'
        · subst hc
          cases hap : accPat old rest with
          | some cs2 =>
            have hsplit := accPat_split hap
            have hcs2wf : CWF true cs2 = true := by
              have := hwf.2
              rw [hsplit, CWF_run_false] at this
              simp only [Bool.and_eq_true] at this
              exact this.2
            have hrender : renderC rest = old ++ renderC cs2 := by
              rw [hsplit]
              rfl
            rw [if_pos (by
              refine ⟨rfl, ?_, ?_⟩
              · rw [List.isPrefixOf_iff_prefix, hrender]
                exact List.prefix_append old (renderC cs2)
              · rw [hrender, List.drop_left]
                rw [lastWord_word hne (List.all_eq_true.mp hold),
                  wordAt_render_false hcs2wf]
                simp)]
            rw [accCL_fire nwCs hap]
            rw [hrender, List.drop_left]
            rw [accRepF_fuel old nw (old ++ renderC cs2).length (renderC cs2)
              (by simp)]
            have hcs2len : cs2.length ≤ n - 1 := by
              have := congrArg List.length hsplit
              simp at this
              omega
            rw [ih (n - 1) (by simp at hn; omega) cs2 hcs2len
              (CWF_true_imp cs2 hcs2wf)]
            show ('.' :: (nw ++ renderC (accCL old nwCs cs2))) =
              renderC (Chunk.sep '.' :: (nwCs ++ accCL old nwCs cs2))
            rw [show renderC (Chunk.sep '.' :: (nwCs ++ accCL old nwCs cs2)) =
              '.' :: renderC (nwCs ++ accCL old nwCs cs2) from rfl]
            rw [renderC_append, hnwr]
          | none =>
            rw [if_neg (by
              intro hx
              obtain ⟨cs2, hcs2⟩ := prefix_render_run hne hold hwf.2 hx.2.1 (by
                have := hx.2.2
                rw [lastWord_word hne (List.all_eq_true.mp hold)] at this
                cases hwa : wordAt ((renderC rest).drop old.length) with
                | false => rfl
                | true => rw [hwa] at this; simp at this)
              rw [hcs2] at hap
              unfold accPat at hap
              simp at hap)]
            rw [accCL_sep_no nwCs (fun _ => hap)]
            rw [ih (n - 1) (by simp at hn; omega) rest hrest hwf.2]
            rfl
        · rw [if_neg (by intro hx; exact hc hx.1)]
          rw [accCL_sep_no nwCs (fun hx => absurd hx hc)]
          rw [ih (n - 1) (by simp at hn; omega) rest hrest hwf.2]
          rfl

/-- The json-tag literal pattern matches at a position inside a word
run followed by rendered chunks exactly when the remaining run part is
the word `json` and the following chunks are the tag pattern. -/
theorem tagLit_prefix_iff {old r2 : List Char} {cs : List Chunk}
    (hne : old ≠ []) (hold : old.all isWordChar = true)
    (hr2w : r2.all isWordChar = true) (hwf : CWF true cs = true) :
    (jsonTagLit old).isPrefixOf (r2 ++ renderC cs) = true ↔
      (r2 = jsonSfx ∧ ∃ cs2, tagPat old cs = some cs2) := by
  have hlit : jsonTagLit old = jsonSfx ++ (':' :: '"' :: (old ++ ['"'])) := rfl
  constructor
  · intro h
    rw [List.isPrefixOf_iff_prefix] at h
    have hr2 : r2 = jsonSfx := by
      have hj : jsonSfx <+: jsonTagLit old := by
        rw [hlit]
        exact List.prefix_append _ _
      rcases List.prefix_or_prefix_of_prefix (hj.trans h)
        (List.prefix_append r2 (renderC cs)) with hjr | hrj
      · obtain ⟨r2t, hr2t⟩ := hjr
        cases hr2t2 : r2t with
        | nil =>
          rw [hr2t2] at hr2t
          simpa using hr2t.symm
        | cons e0 et =>
          exfalso
          subst hr2t
          rw [hlit] at h
          have h2 : ':' :: '"' :: (old ++ ['"']) <+: r2t ++ renderC cs := by
            apply (List.prefix_append_right_inj jsonSfx).mp
            rw [← List.append_assoc]
            exact h
          rw [hr2t2] at h2
          rw [List.cons_append] at h2
          rw [List.cons_prefix_cons] at h2
          have he0 : isWordChar e0 = true := by
            apply List.all_eq_true.mp hr2w
            rw [hr2t2]
            simp
          rw [← h2.1] at he0
          cases he0
      · obtain ⟨d, hd⟩ := hrj
        cases hd2 : d with
        | nil =>
          rw [hd2] at hd
          simpa using hd
        | cons d0 dt =>
          exfalso
          have hd0j : d0 ∈ jsonSfx := by
            rw [← hd, hd2]
            simp
          have hd0w : isWordChar d0 = true := by
            have : jsonSfx.all isWordChar = true := by decide
            exact List.all_eq_true.mp this d0 hd0j
          rw [hlit] at h
          rw [← hd] at h
          have h2 : d ++ (':' :: '"' :: (old ++ ['"'])) <+: renderC cs := by
            apply (List.prefix_append_right_inj r2).mp
            rw [← List.append_assoc]
            exact h
          rw [hd2] at h2
          obtain ⟨u, hu⟩ := h2
          have : (renderC cs).head? = some d0 := by
            rw [← hu]
            rfl
          rw [render_head_nonword hwf d0 this] at hd0w
          cases hd0w
    subst hr2
    refine ⟨rfl, ?_⟩
    rw [hlit] at h
    have hT : ':' :: '"' :: (old ++ ['"']) <+: renderC cs :=
      (List.prefix_append_right_inj jsonSfx).mp h
    cases cs with
    | nil =>
      obtain ⟨u, hu⟩ := hT
      cases hu
    | cons k1 cs1 =>
      cases k1 with
      | run u => exact absurd hwf (by rw [CWF_run_true]; simp)
      | sep c1 =>
        rw [CWF_sep] at hwf
        simp only [Bool.and_eq_true] at hwf
        have hT1 : ':' :: '"' :: (old ++ ['"']) <+: c1 :: renderC cs1 := hT
        rw [List.cons_prefix_cons] at hT1
        obtain ⟨hc1, hT2⟩ := hT1
        cases cs1 with
        | nil =>
          obtain ⟨u, hu⟩ := hT2
          cases hu
        | cons k2 cs2 =>
          cases k2 with
          | run u =>
            exfalso
            have hwf2 := hwf.2
            rw [CWF_run_false] at hwf2
            simp only [Bool.and_eq_true] at hwf2
            obtain ⟨⟨hu1, hu2⟩, _⟩ := hwf2
            cases huc : u with
            | nil =>
              rw [huc] at hu1
              simp at hu1
            | cons u0 ut =>
              have hT3 : '"' :: (old ++ ['"']) <+: u0 :: (ut ++ renderC cs2) := by
                have : renderC (Chunk.run u :: cs2) = u ++ renderC cs2 := rfl
                rw [this, huc] at hT2
                simpa using hT2
              rw [List.cons_prefix_cons] at hT3
              have : isWordChar u0 = true := by
                rw [huc] at hu2
                simp only [List.all_cons, Bool.and_eq_true] at hu2
                exact hu2.1
              rw [← hT3.1] at this
              cases this
          | sep c2 =>
            have hwf2 := hwf.2
            rw [CWF_sep] at hwf2
            simp only [Bool.and_eq_true] at hwf2
            have hT3 : '"' :: (old ++ ['"']) <+: c2 :: renderC cs2 := hT2
            rw [List.cons_prefix_cons] at hT3
            obtain ⟨hc2, hT4⟩ := hT3
            cases cs2 with
            | nil =>
              exfalso
              obtain ⟨u, hu⟩ := hT4
              cases ho : old with
              | nil => exact hne ho
              | cons o ot =>
                rw [ho] at hu
                cases hu
            | cons k3 cs3 =>
              cases k3 with
              | sep c3 =>
                exfalso
                cases ho : old with
                | nil => exact hne ho
                | cons o ot =>
                  have how : isWordChar o = true := by
                    rw [ho] at hold
                    simp only [List.all_cons, Bool.and_eq_true] at hold
                    exact hold.1
                  have hc3w : isWordChar c3 = false := by
                    have := hwf2.2
                    rw [CWF_sep] at this
                    simp only [Bool.and_eq_true] at this
                    simpa using this.1
                  have : (o :: (ot ++ ['"'])) <+: c3 :: renderC cs3 := by
                    rw [ho] at hT4
                    exact hT4
                  rw [List.cons_prefix_cons] at this
                  rw [this.1, hc3w] at how
                  cases how
              | run u =>
                have hwf3 := hwf2.2
                rw [CWF_run_false] at hwf3
                simp only [Bool.and_eq_true] at hwf3
                obtain ⟨⟨hu1, hu2⟩, hwf4⟩ := hwf3
                have hT5 : old ++ ['"'] <+: u ++ renderC cs3 := hT4
                have hueq : u = old := by
                  rcases List.prefix_or_prefix_of_prefix
                    ((List.prefix_append old ['"']).trans hT5)
                    (List.prefix_append u (renderC cs3)) with hou | huo
                  · obtain ⟨e, he⟩ := hou
                    cases he2 : e with
                    | nil =>
                      rw [he2] at he
                      simpa using he.symm
                    | cons e0 et =>
                      exfalso
                      subst he
                      have h6 : ['"'] <+: e ++ renderC cs3 := by
                        apply (List.prefix_append_right_inj old).mp
                        rw [← List.append_assoc]
                        exact hT5
                      rw [he2, List.cons_append] at h6
                      rw [List.cons_prefix_cons] at h6
                      have : isWordChar e0 = true := by
                        apply List.all_eq_true.mp hu2
                        rw [he2]
                        simp
                      rw [← h6.1] at this
                      cases this
                  · obtain ⟨e, he⟩ := huo
                    cases he2 : e with
                    | nil =>
                      rw [he2] at he
                      simpa using he
                    | cons e0 et =>
                      exfalso
                      rw [← he] at hT5
                      have h6 : e ++ ['"'] <+: renderC cs3 := by
                        apply (List.prefix_append_right_inj u).mp
                        rw [← List.append_assoc]
                        exact hT5
                      obtain ⟨v, hv⟩ := h6
                      have hrh : (renderC cs3).head? = some e0 := by
                        rw [← hv, he2]
                        rfl
                      have : isWordChar e0 = true := by
                        apply List.all_eq_true.mp hold
                        rw [← he, he2]
                        simp
                      rw [render_head_nonword hwf4 e0 hrh] at this
                      cases this
                subst hueq
                have hT6 : ['"'] <+: renderC cs3 :=
                  (List.prefix_append_right_inj u).mp hT5
                cases cs3 with
                | nil =>
                  exfalso
                  obtain ⟨v, hv⟩ := hT6
                  cases hv
                | cons k4 cs4 =>
                  cases k4 with
                  | run v =>
                    exact absurd hwf4 (by rw [CWF_run_true]; simp)
                  | sep c4 =>
                    have hc4 : c4 = '"' := by
                      have : '"' :: ([] : List Char) <+: c4 :: renderC cs4 := hT6
                      rw [List.cons_prefix_cons] at this
                      exact this.1.symm
                    refine ⟨cs4, ?_⟩
                    simp [tagPat, ← hc1, ← hc2, hc4]
  · intro ⟨hr2, cs2, hpat⟩
    subst hr2
    rw [tagPat_split hpat]
    rw [List.isPrefixOf_iff_prefix, hlit]
    show jsonSfx ++ (':' :: '"' :: (old ++ ['"'])) <+:
      jsonSfx ++ (':' :: '"' :: (old ++ ('"' :: renderC cs2)))
    rw [List.prefix_append_right_inj]
    rw [List.cons_prefix_cons]
    refine ⟨rfl, ?_⟩
    rw [List.cons_prefix_cons]
    refine ⟨rfl, ?_⟩
    rw [show old ++ ('"' :: renderC cs2) = (old ++ ['"']) ++ renderC cs2 by simp]
    exact List.prefix_append _ _

theorem tagPat_wf {old : List Char} {cs cs2 : List Chunk}
    (h : tagPat old cs = some cs2) (hwf : CWF true cs = true) :
    CWF false cs2 = true := by
  rw [tagPat_split h] at hwf
  rw [CWF_sep] at hwf
  simp only [Bool.and_eq_true] at hwf
  have h1 := hwf.2
  rw [CWF_sep] at h1
  simp only [Bool.and_eq_true] at h1
  have h2 := h1.2
  rw [CWF_run_false] at h2
  simp only [Bool.and_eq_true] at h2
  have h3 := h2.2
  rw [CWF_sep] at h3
  simp only [Bool.and_eq_true] at h3
  exact h3.2

/-- Simulation of the json-tag scanner by the chunk pass. -/
theorem tagRep_sim (old nw : List Char) (nwCs : List Chunk) (hne : old ≠ [])
    (hold : old.all isWordChar = true) (hnwr : renderC nwCs = nw) :
    ∀ (n : Nat) (cs : List Chunk), cs.length ≤ n → CWF false cs = true →
      tagRepF old nw (renderC cs).length (renderC cs) =
        renderC (tagCL old nwCs cs) := by
  have hl : jsonTagLit old = 'j' :: (['s', 'o', 'n', ':', '"'] ++ old ++ ['"']) := rfl
  intro n
  induction n using Nat.strong_induction_on with
  | _ n ih =>
    intro cs hn hwf
    cases cs with
    | nil => rfl
    | cons k rest =>
      have hrest : rest.length ≤ n - 1 := by simp at hn; omega
      cases k with
      | sep c =>
        rw [CWF_sep] at hwf
        simp only [Bool.and_eq_true] at hwf
        show tagRepF old nw (c :: renderC rest).length (c :: renderC rest) =
          renderC (tagCL old nwCs (Chunk.sep c :: rest))
        rw [tagCL_sep]
        simp only [List.length_cons, tagRepF]
        rw [if_neg (by
          rw [hl]
          rw [prefix_head_mismatch (by decide) (by simpa using hwf.1)]
          simp)]
        rw [ih (n - 1) (by simp at hn; omega) rest hrest hwf.2]
        rfl
      | run r =>
        rw [CWF_run_false] at hwf
        simp only [Bool.and_eq_true] at hwf
        obtain ⟨⟨hr1, hr2⟩, hr3⟩ := hwf
        show tagRepF old nw (r ++ renderC rest).length (r ++ renderC rest) =
          renderC (tagCL old nwCs (Chunk.run r :: rest))
        by_cases hfire : jsonSfx.isSuffixOf r = true ∧
            ∃ cs2, tagPat old rest = some cs2
        · obtain ⟨hsuf, cs2, hpat⟩ := hfire
          obtain ⟨rPre, hrpre⟩ := List.isSuffixOf_iff_suffix.mp hsuf
          have hrprew : rPre.all isWordChar = true := by
            rw [List.all_eq_true]
            intro c hc
            apply List.all_eq_true.mp hr2
            rw [← hrpre]
            simp [hc]
          have hX : renderC rest = ':' :: '"' :: (old ++ ('"' :: renderC cs2)) := by
            rw [tagPat_split hpat]
            rfl
          have hE : jsonSfx ++ renderC rest = jsonTagLit old ++ renderC cs2 := by
            rw [hX]
            simp [jsonTagLit, jsonSfx,
              show "json:\"".data = ['j', 's', 'o', 'n', ':', '"'] from rfl,
              List.append_assoc]
          have hsplit2 : r ++ renderC rest = rPre ++ (jsonSfx ++ renderC rest) := by
            rw [← hrpre, List.append_assoc]
          rw [hsplit2]
          rw [tagRepF_walk old nw rPre (jsonSfx ++ renderC rest) (by
            intro r2 hs hne2
            cases hx : (jsonTagLit old).isPrefixOf (r2 ++ (jsonSfx ++ renderC rest))
              with
            | false => rfl
            | true =>
              exfalso
              rw [← List.append_assoc] at hx
              have hr2w : (r2 ++ jsonSfx).all isWordChar = true := by
                rw [List.all_eq_true]
                intro c hc
                rw [List.mem_append] at hc
                rcases hc with hc | hc
                · apply List.all_eq_true.mp hrprew
                  exact hs.subset hc
                · have : jsonSfx.all isWordChar = true := by decide
                  exact List.all_eq_true.mp this c hc
              have := (tagLit_prefix_iff hne hold hr2w hr3).mp hx
              have hlen := congrArg List.length this.1
              simp [jsonSfx] at hlen
              exact hne2 hlen)]
          have hcs2wf : CWF false cs2 = true := tagPat_wf hpat hr3
          have hstep : tagRepF old nw (jsonSfx ++ renderC rest).length
              (jsonSfx ++ renderC rest) =
              jsonTagLit nw ++ tagRepF old nw (renderC cs2).length (renderC cs2) := by
            show tagRepF old nw ('j' :: ('s' :: 'o' :: 'n' :: renderC rest)).length
              ('j' :: ('s' :: 'o' :: 'n' :: renderC rest)) = _
            simp only [List.length_cons, tagRepF]
            rw [if_pos (by
              show (jsonTagLit old).isPrefixOf (jsonSfx ++ renderC rest) = true
              exact (tagLit_prefix_iff hne hold (by decide) hr3).mpr
                ⟨rfl, cs2, hpat⟩)]
            have hdrop : ('j' :: ('s' :: 'o' :: 'n' :: renderC rest)).drop
                (jsonTagLit old).length = renderC cs2 := by
              show ((jsonSfx ++ renderC rest).drop (jsonTagLit old).length) =
                renderC cs2
              rw [hE]
              exact List.drop_left _ _
            rw [hdrop]
            rw [tagRepF_fuel old nw _ (renderC cs2) (by
              have := congrArg List.length hE
              simp only [List.length_append] at this
              have hll : 1 ≤ (jsonTagLit old).length := by
                rw [hl]
                simp
              have hgoal : ('s' :: 'o' :: 'n' :: renderC rest).length =
                  (renderC rest).length + 3 := by
                simp
              have hjs : jsonSfx.length = 4 := rfl
              omega)]
          rw [hstep]
          rw [ih (n - 1) (by simp at hn; omega) cs2 (by
            have := congrArg List.length (tagPat_split hpat)
            simp at this
            omega) hcs2wf]
          rw [tagCL_fire nwCs hsuf hpat]
          show rPre ++ (jsonTagLit nw ++ renderC (tagCL old nwCs cs2)) =
            renderC (Chunk.run r :: Chunk.sep ':' :: Chunk.sep '"' ::
              (nwCs ++ Chunk.sep '"' :: tagCL old nwCs cs2))
          have hrhs : renderC (Chunk.run r :: Chunk.sep ':' :: Chunk.sep '"' ::
              (nwCs ++ Chunk.sep '"' :: tagCL old nwCs cs2)) =
              r ++ ':' :: '"' :: (nw ++ '"' :: renderC (tagCL old nwCs cs2)) := by
            show r ++ ':' :: '"' :: renderC (nwCs ++ Chunk.sep '"' ::
              tagCL old nwCs cs2) = _
            rw [renderC_append, hnwr]
            rfl
          rw [hrhs, ← hrpre]
          simp [jsonTagLit,
            show "json:\"".data = ['j', 's', 'o', 'n', ':', '"'] from rfl,
            jsonSfx, List.append_assoc]
        · have hnone : jsonSfx.isSuffixOf r = true → tagPat old rest = none := by
            intro hsuf
            cases hpat : tagPat old rest with
            | none => rfl
            | some cs2 => exact absurd ⟨hsuf, cs2, hpat⟩ hfire
          rw [tagRepF_walk old nw r (renderC rest) (by
            intro r2 hs hne2
            cases hx : (jsonTagLit old).isPrefixOf (r2 ++ renderC rest) with
            | false => rfl
            | true =>
              exfalso
              have hr2w : r2.all isWordChar = true := by
                rw [List.all_eq_true]
                intro c hc
                exact List.all_eq_true.mp hr2 c (hs.subset hc)
              have := (tagLit_prefix_iff hne hold hr2w hr3).mp hx
              apply hfire
              refine ⟨?_, this.2⟩
              rw [List.isSuffixOf_iff_suffix, ← this.1]
              exact hs)]
          rw [ih (n - 1) (by simp at hn; omega) rest hrest (CWF_true_imp rest hr3)]
          rw [tagCL_run_no nwCs hnone]
          rfl

/-- The chunk form of `replaceFieldName`: the three chunk passes in
source order. -/
def fieldPassC (old : List Char) (nw : List Chunk) (cs : List Chunk) : List Chunk :=
  tagCL old nw (accCL old nw (declCL old nw cs))

theorem fieldPassC_wf {old : List Char} {nw : List Chunk}
    (hnw : CWF false nw = true) {cs : List Chunk} (b : Bool)
    (hwf : CWF b cs = true) : CWF b (fieldPassC old nw cs) = true := by
  unfold fieldPassC
  apply tagCL_wf hnw _ _ (le_refl _)
  apply accCL_wf hnw _ _ (le_refl _)
  apply declCL_wf hnw _ _ (le_refl _)
  exact hwf

/-- Simulation of `replaceFieldName` by the chunk passes. -/
theorem replaceFieldName_sim (old nw : List Char) (nwCs : List Chunk)
    (hne : old ≠ []) (hold : old.all isWordChar = true)
    (hnwr : renderC nwCs = nw) (hnwwf : CWF false nwCs = true) :
    ∀ cs : List Chunk, CWF false cs = true →
      replaceFieldNameL (renderC cs) old nw = renderC (fieldPassC old nwCs cs) := by
  intro cs hwf
  show tagRepF old nw (accRepF old nw (declRepF old nw (renderC cs).length false
      (renderC cs)).length (declRepF old nw (renderC cs).length false
      (renderC cs))).length (accRepF old nw (declRepF old nw (renderC cs).length
      false (renderC cs)).length (declRepF old nw (renderC cs).length false
      (renderC cs))) = renderC (fieldPassC old nwCs cs)
  rw [declRep_sim old nw nwCs hne hold hnwr cs.length cs (le_refl _) hwf false
    (by intro hx; cases hx)]
  rw [accRep_sim old nw nwCs hne hold hnwr (declCL old nwCs cs).length _
    (le_refl _) (declCL_wf hnwwf cs.length cs (le_refl _) false hwf)]
  rw [tagRep_sim old nw nwCs hne hold hnwr (accCL old nwCs (declCL old nwCs cs)).length
    _ (le_refl _) (accCL_wf hnwwf _ _ (le_refl _) false
      (declCL_wf hnwwf cs.length cs (le_refl _) false hwf))]
  rfl

/-! ## Commutation of passes for distinct extracted rules -/

theorem wsTake_all : ∀ cs : List Chunk, (wsTake cs).all isGoSpace = true := by
  intro cs
  induction cs with
  | nil => rfl
  | cons k rest ih =>
    cases k with
    | run r => rfl
    | sep c =>
      by_cases hws : isGoSpace c = true
      · simp only [wsTake, if_pos hws, List.all_cons, Bool.and_eq_true]
        exact ⟨hws, ih⟩
      · simp only [wsTake, if_neg hws]
        rfl

theorem wsTake_map_sep_append {ws' : List Char} (h : ws'.all isGoSpace = true)
    (rest : List Chunk) :
    wsTake (ws'.map Chunk.sep ++ rest) = ws' ++ wsTake rest := by
  induction ws' with
  | nil => rfl
  | cons c ct ih =>
    simp only [List.all_cons, Bool.and_eq_true] at h
    simp only [List.map_cons, List.cons_append, wsTake, if_pos h.1,
      List.append_eq]
    rw [ih h.2]

theorem wsDrop_map_sep_append {ws' : List Char} (h : ws'.all isGoSpace = true)
    (rest : List Chunk) :
    wsDrop (ws'.map Chunk.sep ++ rest) = wsDrop rest := by
  induction ws' with
  | nil => rfl
  | cons c ct ih =>
    simp only [List.all_cons, Bool.and_eq_true] at h
    simp only [List.map_cons, List.cons_append, wsDrop, if_pos h.1]
    exact ih h.2

/-- The shape of the separator characters of a declaration tail. -/
theorem declTailC_shape {cs : List Chunk} {pre w : List Char} {r2 : List Chunk}
    (h : declTailC cs = some (pre, w, r2)) :
    (pre.all isGoSpace = true ∧ pre ≠ []) ∨
    (∃ ws', pre = ws' ++ ['*'] ∧ ws'.all isGoSpace = true ∧ ws' ≠ []) := by
  unfold declTailC at h
  by_cases he : (wsTake cs).isEmpty
  · rw [if_pos he] at h
    cases h
  · rw [if_neg he] at h
    have hne : wsTake cs ≠ [] := by
      intro hx
      rw [hx] at he
      exact he rfl
    cases hd : wsDrop cs with
    | nil => rw [hd] at h; cases h
    | cons c0 r1 =>
      rw [hd] at h
      cases c0 with
      | run w0 =>
        simp only at h
        simp only [Option.some.injEq, Prod.mk.injEq] at h
        exact Or.inl ⟨h.1 ▸ wsTake_all cs, h.1 ▸ hne⟩
      | sep c0 =>
        simp only at h
        by_cases hc : c0 = '*'
        · rw [if_pos hc] at h
          cases r1 with
          | nil => cases h
          | cons c1 r1t =>
            cases c1 with
            | run w1 =>
              simp only [Option.some.injEq, Prod.mk.injEq] at h
              exact Or.inr ⟨wsTake cs, h.1.symm, wsTake_all cs, hne⟩
            | sep c1 => cases h
        · rw [if_neg hc] at h
          cases h

/-- Rebuilding a declaration tail from its separator characters. -/
theorem declTailC_build {pre : List Char}
    (hsh : (pre.all isGoSpace = true ∧ pre ≠ []) ∨
      (∃ ws', pre = ws' ++ ['*'] ∧ ws'.all isGoSpace = true ∧ ws' ≠ []))
    (u : List Char) (rest : List Chunk) :
    declTailC (pre.map Chunk.sep ++ Chunk.run u :: rest) = some (pre, u, rest) := by
  rcases hsh with ⟨hall, hne⟩ | ⟨ws', hpre, hall, hne⟩
  · unfold declTailC
    rw [wsTake_map_sep_append hall, wsDrop_map_sep_append hall]
    rw [show wsTake (Chunk.run u :: rest) = [] from rfl]
    rw [if_neg (by
      intro hx
      rw [List.isEmpty_iff] at hx
      simp at hx
      exact hne hx)]
    simp only [wsDrop, List.append_nil]
  · subst hpre
    unfold declTailC
    rw [List.map_append, List.append_assoc]
    rw [wsTake_map_sep_append hall, wsDrop_map_sep_append hall]
    rw [show ((['*'] : List Char).map Chunk.sep ++ Chunk.run u :: rest) =
      Chunk.sep '*' :: (Chunk.run u :: rest) from rfl]
    have hstar : isGoSpace '*' = false := by decide
    rw [show wsTake (Chunk.sep '*' :: (Chunk.run u :: rest)) = [] by
      simp [wsTake, hstar]]
    rw [show wsDrop (Chunk.sep '*' :: (Chunk.run u :: rest)) =
      Chunk.sep '*' :: (Chunk.run u :: rest) by
      simp [wsDrop, hstar]]
    rw [if_neg (by
      intro hx
      rw [List.isEmpty_iff] at hx
      simp at hx
      exact hne hx)]
    simp only [if_pos rfl]
    rw [if_pos trivial]
    simp

theorem declCL_map_sep (y : List Char) (ny : List Chunk) (l : List Char)
    (ys : List Chunk) :
    declCL y ny (l.map Chunk.sep ++ ys) = l.map Chunk.sep ++ declCL y ny ys := by
  apply declCL_walk
  intro r hr
  exfalso
  rcases List.mem_map.mp hr with ⟨c, _, hc⟩
  cases hc

theorem declCL_head_run {y : List Char} {ny : List Chunk}
    (hnyh : ∃ w wt, ny = Chunk.run w :: wt) (r : List Char) (cs : List Chunk) :
    ∃ u us, declCL y ny (Chunk.run r :: cs) = Chunk.run u :: us := by
  by_cases hr : r = y
  · rw [hr]
    cases hsp : declTailC cs with
    | none => exact ⟨y, declCL y ny cs, by rw [declCL_run_none ny hsp]⟩
    | some pr =>
      obtain ⟨pre, w, r2⟩ := pr
      obtain ⟨w0, wt, hw⟩ := hnyh
      refine ⟨w0, wt ++ (pre.map Chunk.sep ++ Chunk.run w :: declCL y ny r2), ?_⟩
      rw [declCL_fire ny hsp, hw]
      simp
  · exact ⟨r, declCL y ny cs, by rw [declCL_run_no ny hr]⟩

theorem ws_declCL (y : List Char) {ny : List Chunk}
    (hnyh : ∃ w wt, ny = Chunk.run w :: wt) :
    ∀ cs : List Chunk, wsTake (declCL y ny cs) = wsTake cs ∧
      wsDrop (declCL y ny cs) = declCL y ny (wsDrop cs) := by
  intro cs
  induction cs with
  | nil => exact ⟨rfl, rfl⟩
  | cons k rest ih =>
    cases k with
    | sep c =>
      rw [declCL_sep]
      by_cases hws : isGoSpace c = true
      · constructor
        · show wsTake (Chunk.sep c :: declCL y ny rest) =
            wsTake (Chunk.sep c :: rest)
          simp only [wsTake, if_pos hws]
          rw [ih.1]
        · show wsDrop (Chunk.sep c :: declCL y ny rest) =
            declCL y ny (wsDrop (Chunk.sep c :: rest))
          simp only [wsDrop, if_pos hws]
          exact ih.2
      · constructor
        · show wsTake (Chunk.sep c :: declCL y ny rest) =
            wsTake (Chunk.sep c :: rest)
          simp only [wsTake, if_neg hws]
        · show wsDrop (Chunk.sep c :: declCL y ny rest) =
            declCL y ny (wsDrop (Chunk.sep c :: rest))
          simp only [wsDrop, if_neg hws]
          rw [declCL_sep]
    | run r =>
      obtain ⟨u, us, hu⟩ := declCL_head_run hnyh r rest
      rw [hu]
      exact ⟨rfl, by
        show Chunk.run u :: us = declCL y ny (Chunk.run r :: rest)
        rw [hu]⟩

theorem declTailC_none_pass (y : List Char) {ny : List Chunk}
    (hnyh : ∃ w wt, ny = Chunk.run w :: wt) {cs : List Chunk}
    (h : declTailC cs = none) : declTailC (declCL y ny cs) = none := by
  have hws := ws_declCL y hnyh cs
  unfold declTailC at h ⊢
  rw [hws.1, hws.2]
  by_cases he : (wsTake cs).isEmpty
  · rw [if_pos he]
  · rw [if_neg he] at h ⊢
    cases hd : wsDrop cs with
    | nil => rfl
    | cons k r1 =>
      rw [hd] at h
      cases k with
      | run w0 => simp at h
      | sep c =>
        rw [declCL_sep]
        simp only at h ⊢
        by_cases hc : c = '*'
        · rw [if_pos hc] at h ⊢
          cases r1 with
          | nil => rfl
          | cons k1 r1t =>
            cases k1 with
            | run w1 => simp at h
            | sep c1 =>
              rw [declCL_sep]
        · rw [if_neg hc]

/-- The simultaneous two-rule declaration pass.  The mode records which
rule fired the previous link of a tail chain (`some true` for the first
rule, `some false` for the second): the scanner that fired skipped the
following run, so that rule is blocked on it. -/
def declC2 (a b : List Char) (na nb : List Chunk) :
    Nat → Option Bool → List Chunk → List Chunk
  | 0, _, cs => cs
  | _ + 1, _, [] => []
  | f + 1, _, Chunk.sep c :: cs => Chunk.sep c :: declC2 a b na nb f none cs
  | f + 1, m, Chunk.run r :: cs =>
    if (r = a ∧ m ≠ some true) ∨ (r = b ∧ m ≠ some false) then
      match declTailC cs with
      | some (pre, w, r2) =>
        (if r = a then na else nb) ++ pre.map Chunk.sep ++
          declC2 a b na nb f (some (decide (r = a))) (Chunk.run w :: r2)
      | none => Chunk.run r :: declC2 a b na nb f none cs
    else Chunk.run r :: declC2 a b na nb f none cs

theorem declC2_fuel (a b : List Char) (na nb : List Chunk) :
    ∀ (f : Nat) (m : Option Bool) (cs : List Chunk), cs.length ≤ f →
      declC2 a b na nb f m cs = declC2 a b na nb cs.length m cs := by
  intro f
  induction f using Nat.strong_induction_on with
  | _ f ih =>
    intro m cs hf
    cases cs with
    | nil => cases f <;> rfl
    | cons k rest =>
      obtain ⟨f', rfl⟩ : ∃ f', f = f' + 1 := ⟨f - 1, by simp at hf; omega⟩
      have hrest : rest.length ≤ f' := by simp at hf; omega
      cases k with
      | sep c =>
        simp only [declC2, List.length_cons]
        rw [ih f' (by omega) none rest hrest]
      | run r =>
        simp only [declC2, List.length_cons]
        by_cases hcond : ((r = a ∧ m ≠ some true) ∨ (r = b ∧ m ≠ some false))
        · rw [if_pos hcond, if_pos hcond]
          cases hsp : declTailC rest with
          | none =>
            simp only
            rw [ih f' (by omega) none rest hrest]
          | some pr =>
            obtain ⟨pre, w, r2⟩ := pr
            simp only
            have hlen2 : r2.length + 2 ≤ rest.length := declTailC_len hsp
            rw [ih f' (by omega) (some (decide (r = a))) (Chunk.run w :: r2)
                (by simp; omega),
              ih rest.length (by omega) (some (decide (r = a)))
                (Chunk.run w :: r2) (by simp; omega)]
        · rw [if_neg hcond, if_neg hcond]
          rw [ih f' (by omega) none rest hrest]

/-- The simultaneous pass at its natural fuel. -/
def declC2L (a b : List Char) (na nb : List Chunk) (m : Option Bool)
    (cs : List Chunk) : List Chunk :=
  declC2 a b na nb cs.length m cs

theorem declC2L_sep (a b : List Char) (na nb : List Chunk) (m : Option Bool)
    (c : Char) (cs : List Chunk) :
    declC2L a b na nb m (Chunk.sep c :: cs) =
      Chunk.sep c :: declC2L a b na nb none cs := by
  simp only [declC2L, List.length_cons, declC2]

theorem declC2L_run_no {a b : List Char} (na nb : List Chunk) {m : Option Bool}
    {r : List Char} (h : ¬((r = a ∧ m ≠ some true) ∨ (r = b ∧ m ≠ some false)))
    (cs : List Chunk) :
    declC2L a b na nb m (Chunk.run r :: cs) =
      Chunk.run r :: declC2L a b na nb none cs := by
  simp only [declC2L, List.length_cons, declC2]
  rw [if_neg h]

theorem declC2L_run_none {a b : List Char} (na nb : List Chunk) {m : Option Bool}
    {r : List Char} (h : (r = a ∧ m ≠ some true) ∨ (r = b ∧ m ≠ some false))
    {cs : List Chunk} (hsp : declTailC cs = none) :
    declC2L a b na nb m (Chunk.run r :: cs) =
      Chunk.run r :: declC2L a b na nb none cs := by
  simp only [declC2L, List.length_cons, declC2]
  rw [if_pos h, hsp]

theorem declC2L_fire {a b : List Char} (na nb : List Chunk) {m : Option Bool}
    {r : List Char} (h : (r = a ∧ m ≠ some true) ∨ (r = b ∧ m ≠ some false))
    {cs : List Chunk} {pre w r2} (hsp : declTailC cs = some (pre, w, r2)) :
    declC2L a b na nb m (Chunk.run r :: cs) =
      (if r = a then na else nb) ++ pre.map Chunk.sep ++
        declC2L a b na nb (some (decide (r = a))) (Chunk.run w :: r2) := by
  simp only [declC2L, List.length_cons, declC2]
  rw [if_pos h, hsp]
  simp only
  have hlen2 : r2.length + 2 ≤ cs.length := declTailC_len hsp
  rw [declC2_fuel a b na nb cs.length (some (decide (r = a)))
    (Chunk.run w :: r2) (by simp; omega)]
  simp only [List.length_cons, declC2]

/-- Swapping the two rules of the simultaneous pass. -/
theorem declC2_swap {a b : List Char} (na nb : List Chunk) (hab : a ≠ b) :
    ∀ (f : Nat) (m : Option Bool) (cs : List Chunk),
      declC2 a b na nb f m cs = declC2 b a nb na f (m.map (fun p => !p)) cs := by
  intro f
  induction f with
  | zero => intro m cs; rfl
  | succ f ih =>
    intro m cs
    cases cs with
    | nil => rfl
    | cons k rest =>
      cases k with
      | sep c =>
        simp only [declC2]
        rw [ih none rest]
        rfl
      | run r =>
        simp only [declC2]
        have hcond : ((r = a ∧ m ≠ some true) ∨ (r = b ∧ m ≠ some false)) ↔
            ((r = b ∧ (m.map (fun p => !p)) ≠ some true) ∨
              (r = a ∧ (m.map (fun p => !p)) ≠ some false)) := by
          cases m with
          | none => simp [Option.map]; tauto
          | some p =>
            cases p with
            | true => simp [Option.map]
            | false => simp [Option.map]
        by_cases hc : ((r = a ∧ m ≠ some true) ∨ (r = b ∧ m ≠ some false))
        · rw [if_pos hc, if_pos (hcond.mp hc)]
          cases hsp : declTailC rest with
          | none =>
            simp only
            rw [ih none rest]
            rfl
          | some pr =>
            obtain ⟨pre, w, r2⟩ := pr
            simp only
            rw [ih (some (decide (r = a))) (Chunk.run w :: r2)]
            have hnew : (if r = a then na else nb) = (if r = b then nb else na) := by
              by_cases hra : r = a
              · rw [if_pos hra, if_neg (by rw [hra]; exact hab)]
              · rw [if_neg hra]
                by_cases hrb : r = b
                · rw [if_pos hrb]
                · exfalso
                  rcases hc with ⟨h1, _⟩ | ⟨h1, _⟩
                  · exact hra h1
                  · exact hrb h1
            have hmode : (some (decide (r = a)) : Option Bool).map (fun p => !p) =
                some (decide (r = b)) := by
              rcases hc with ⟨hra, _⟩ | ⟨hrb, _⟩
              · have hrb : ¬ r = b := by rw [hra]; exact hab
                simp [Option.map, hra, hrb, hab]
              · have hba : ¬ b = a := fun hx => hab hx.symm
                have hra : ¬ r = a := by rw [hrb]; exact hba
                simp [Option.map, hra, hrb, hba]
            rw [hnew, hmode]
        · rw [if_neg hc, if_neg (by rw [← hcond]; exact hc)]
          rw [ih none rest]
          rfl

/-- The continuation of the outer pass after it consumed the head run
of a stream as its tail group. -/
def skipHead (x : List Char) (nx : List Chunk) : List Chunk → List Chunk
  | Chunk.run u :: s2 => Chunk.run u :: declCL x nx s2
  | s => s

/-- The composite of two declaration passes for distinct rules is the
simultaneous chained pass, together with the two chain-state forms
needed by the induction. -/
theorem declC2_spec (x y : List Char) (nx ny : List Chunk)
    (hxy : x ≠ y)
    (hnyh : ∃ w wt, ny = Chunk.run w :: wt)
    (hnyr : ∀ r, Chunk.run r ∈ ny → r ≠ x) :
    ∀ (n : Nat) (cs : List Chunk), cs.length ≤ n →
      (declCL x nx (declCL y ny cs) = declC2L x y nx ny none cs) ∧
      (∀ w r2, cs = Chunk.run w :: r2 →
        declCL x nx (Chunk.run w :: declCL y ny r2) =
          declC2L x y nx ny (some false) cs) ∧
      (∀ w r2, cs = Chunk.run w :: r2 →
        skipHead x nx (declCL y ny cs) = declC2L x y nx ny (some true) cs) := by
  have hyx : ¬ y = x := fun h => hxy h.symm
  have hdx : (some (decide (x = x)) : Option Bool) = some true := by simp
  have hdy : (some (decide (y = x)) : Option Bool) = some false := by simp [hyx]
  intro n
  induction n using Nat.strong_induction_on with
  | _ n ih =>
    intro cs hn
    cases cs with
    | nil =>
      refine ⟨rfl, ?_, ?_⟩ <;> (intro w r2 heq; cases heq)
    | cons k rest =>
      have hrn : rest.length ≤ n - 1 := by simp at hn; omega
      have hn1 : n - 1 < n := by simp at hn; omega
      cases k with
      | sep c =>
        refine ⟨?_, ?_, ?_⟩
        · rw [declCL_sep, declCL_sep, declC2L_sep,
            (ih (n - 1) hn1 rest hrn).1]
        · intro w r2 heq
          cases heq
        · intro w r2 heq
          cases heq
      | run r =>
        have hIH1 := (ih (n - 1) hn1 rest hrn).1
        -- the uniform treatment of an outer fire at a run equal to x
        have fireX : ∀ (hsp0 : Option (List Char × List Char × List Chunk))
            (pre2 : List Char) (w2 : List Char) (r3 : List Chunk),
            declTailC rest = some (pre2, w2, r3) →
            declCL x nx (Chunk.run x :: declCL y ny rest) =
              nx ++ pre2.map Chunk.sep ++
                declC2L x y nx ny (some true) (Chunk.run w2 :: r3) := by
          intro _ pre2 w2 r3 hsp
          have hsplit := (declTailC_split hsp).1
          obtain ⟨u, us, hu⟩ := declCL_head_run hnyh w2 r3
          have hrec : declCL y ny rest =
              pre2.map Chunk.sep ++ (Chunk.run u :: us) := by
            conv_lhs => rw [hsplit]
            rw [declCL_map_sep, hu]
          have hbuild : declTailC (declCL y ny rest) = some (pre2, u, us) := by
            rw [hrec]
            exact declTailC_build (declTailC_shape hsp) u us
          rw [declCL_fire nx hbuild]
          have hskip : Chunk.run u :: declCL x nx us =
              skipHead x nx (declCL y ny (Chunk.run w2 :: r3)) := by
            rw [hu]
            rfl
          have hlen3 : (Chunk.run w2 :: r3).length ≤ n - 1 := by
            have := declTailC_len hsp
            simp only [List.length_cons]
            omega
          have h3 := (ih (n - 1) hn1 (Chunk.run w2 :: r3) hlen3).2.2 w2 r3 rfl
          rw [hskip, h3]
        refine ⟨?_, ?_, ?_⟩
        · -- statement (1)
          by_cases hry : r = y
          · rw [hry]
            cases hsp : declTailC rest with
            | none =>
              rw [declCL_run_none ny hsp]
              rw [declCL_run_no nx hyx]
              rw [declC2L_run_none nx ny (Or.inr ⟨rfl, by simp⟩) hsp]
              rw [hIH1]
            | some pr =>
              obtain ⟨pre, w2, r2⟩ := pr
              rw [declCL_fire ny hsp]
              have hwalk : declCL x nx ((ny ++ pre.map Chunk.sep) ++
                  (Chunk.run w2 :: declCL y ny r2)) =
                  (ny ++ pre.map Chunk.sep) ++
                    declCL x nx (Chunk.run w2 :: declCL y ny r2) := by
                apply declCL_walk
                intro r0 hr0
                rcases List.mem_append.mp hr0 with h0 | h0
                · exact hnyr r0 h0
                · exfalso
                  rcases List.mem_map.mp h0 with ⟨c0, _, hc0⟩
                  cases hc0
              rw [hwalk]
              have hlen2 : (Chunk.run w2 :: r2).length ≤ n - 1 := by
                have := declTailC_len hsp
                simp only [List.length_cons]
                omega
              have h2 := (ih (n - 1) hn1 (Chunk.run w2 :: r2) hlen2).2.1 w2 r2 rfl
              rw [h2]
              rw [declC2L_fire nx ny (Or.inr ⟨rfl, by simp⟩) hsp]
              rw [hdy, if_neg hyx]
          · by_cases hrx : r = x
            · rw [hrx]
              rw [declCL_run_no ny (by rw [← hrx]; exact hry)]
              cases hsp : declTailC rest with
              | none =>
                have hnone2 := declTailC_none_pass y hnyh hsp
                rw [declCL_run_none nx hnone2]
                rw [declC2L_run_none nx ny (Or.inl ⟨rfl, by simp⟩) hsp]
                rw [hIH1]
              | some pr =>
                obtain ⟨pre2, w2, r3⟩ := pr
                rw [fireX (some (pre2, w2, r3)) pre2 w2 r3 hsp]
                rw [declC2L_fire nx ny (Or.inl ⟨rfl, by simp⟩) hsp]
                rw [hdx, if_pos rfl]
            · rw [declCL_run_no ny hry, declCL_run_no nx hrx]
              rw [declC2L_run_no nx ny (by
                rintro (⟨h1, _⟩ | ⟨h1, _⟩)
                · exact hrx h1
                · exact hry h1)]
              rw [hIH1]
        · -- statement (2)
          intro w r2 heq
          simp only [List.cons.injEq, Chunk.run.injEq] at heq
          obtain ⟨rfl, rfl⟩ := heq
          by_cases hrx : r = x
          · rw [hrx]
            cases hsp : declTailC rest with
            | none =>
              have hnone2 := declTailC_none_pass y hnyh hsp
              rw [declCL_run_none nx hnone2]
              rw [declC2L_run_none nx ny (Or.inl ⟨rfl, by simp⟩) hsp]
              rw [hIH1]
            | some pr =>
              obtain ⟨pre2, w2, r3⟩ := pr
              rw [fireX (some (pre2, w2, r3)) pre2 w2 r3 hsp]
              rw [declC2L_fire nx ny (Or.inl ⟨rfl, by simp⟩) hsp]
              rw [hdx, if_pos rfl]
          · rw [declCL_run_no nx hrx]
            rw [declC2L_run_no nx ny (by
              rintro (⟨h1, _⟩ | ⟨h1, h2⟩)
              · exact hrx h1
              · exact h2 rfl)]
            rw [hIH1]
        · -- statement (3)
          intro w r2 heq
          simp only [List.cons.injEq, Chunk.run.injEq] at heq
          obtain ⟨rfl, rfl⟩ := heq
          by_cases hry : r = y
          · rw [hry]
            cases hsp : declTailC rest with
            | none =>
              rw [declCL_run_none ny hsp]
              show Chunk.run y :: declCL x nx (declCL y ny rest) = _
              rw [declC2L_run_none nx ny (Or.inr ⟨rfl, by simp⟩) hsp]
              rw [hIH1]
            | some pr =>
              obtain ⟨pre3, w3, r4⟩ := pr
              rw [declCL_fire ny hsp]
              have hskipform : skipHead x nx (ny ++ List.map Chunk.sep pre3 ++
                  Chunk.run w3 :: declCL y ny r4) =
                  ny ++ List.map Chunk.sep pre3 ++
                    declCL x nx (Chunk.run w3 :: declCL y ny r4) := by
                obtain ⟨w1y, nyTail, hny⟩ := hnyh
                have hwalk : declCL x nx ((nyTail ++ pre3.map Chunk.sep) ++
                    (Chunk.run w3 :: declCL y ny r4)) =
                    (nyTail ++ pre3.map Chunk.sep) ++
                      declCL x nx (Chunk.run w3 :: declCL y ny r4) := by
                  apply declCL_walk
                  intro r0 hr0
                  rcases List.mem_append.mp hr0 with h0 | h0
                  · exact hnyr r0 (by rw [hny]; exact List.mem_cons_of_mem _ h0)
                  · exfalso
                    rcases List.mem_map.mp h0 with ⟨c0, _, hc0⟩
                    cases hc0
                have hform : ny ++ List.map Chunk.sep pre3 ++
                    (Chunk.run w3 :: declCL y ny r4) =
                    Chunk.run w1y :: ((nyTail ++ List.map Chunk.sep pre3) ++
                      (Chunk.run w3 :: declCL y ny r4)) := by
                  rw [hny]
                  simp [List.append_assoc]
                rw [hform]
                show Chunk.run w1y :: declCL x nx ((nyTail ++
                    List.map Chunk.sep pre3) ++
                    (Chunk.run w3 :: declCL y ny r4)) = _
                rw [hwalk]
                rw [hny]
                simp [List.append_assoc]
              rw [hskipform]
              have hlen3 : (Chunk.run w3 :: r4).length ≤ n - 1 := by
                have := declTailC_len hsp
                simp only [List.length_cons]
                omega
              have h2 := (ih (n - 1) hn1 (Chunk.run w3 :: r4) hlen3).2.1 w3 r4 rfl
              rw [h2]
              rw [declC2L_fire nx ny (Or.inr ⟨rfl, by simp⟩) hsp]
              rw [hdy, if_neg hyx]
          · rw [declCL_run_no ny hry]
            show Chunk.run r :: declCL x nx (declCL y ny rest) = _
            rw [declC2L_run_no nx ny (by
              rintro (⟨h1, h2⟩ | ⟨h1, _⟩)
              · exact h2 rfl
              · exact hry h1)]
            rw [hIH1]

/-- Two declaration passes for distinct rules commute. -/
theorem declCL_comm (x y : List Char) (nx ny : List Chunk) (hxy : x ≠ y)
    (hnxh : ∃ w wt, nx = Chunk.run w :: wt) (hnyh : ∃ w wt, ny = Chunk.run w :: wt)
    (hnxr : ∀ r, Chunk.run r ∈ nx → r ≠ y) (hnyr : ∀ r, Chunk.run r ∈ ny → r ≠ x)
    (cs : List Chunk) :
    declCL x nx (declCL y ny cs) = declCL y ny (declCL x nx cs) := by
  have h1 := (declC2_spec x y nx ny hxy hnyh hnyr cs.length cs (le_refl _)).1
  have h2 := (declC2_spec y x ny nx (fun h => hxy h.symm) hnxh hnxr cs.length cs
    (le_refl _)).1
  rw [h1, h2]
  show declC2 x y nx ny cs.length none cs = declC2 y x ny nx cs.length none cs
  rw [declC2_swap nx ny hxy cs.length none cs]
  rfl

theorem tagCL_run_shape (old : List Char) (nw : List Chunk) (r : List Char)
    (Z : List Chunk) :
    ∃ T, tagCL old nw (Chunk.run r :: Z) = Chunk.run r :: T := by
  by_cases hj : jsonSfx.isSuffixOf r = true
  · cases hp : tagPat old Z with
    | none => exact ⟨tagCL old nw Z, by rw [tagCL_run_no nw (fun _ => hp)]⟩
    | some cs2 =>
      exact ⟨Chunk.sep ':' :: Chunk.sep '"' :: (nw ++ Chunk.sep '"' ::
        tagCL old nw cs2), by rw [tagCL_fire nw hj hp]⟩
  · exact ⟨tagCL old nw Z, by rw [tagCL_run_no nw (fun hx => absurd hx hj)]⟩

theorem accCL_sep_shape (old : List Char) (nw : List Chunk) (c : Char)
    (Z : List Chunk) :
    ∃ T, accCL old nw (Chunk.sep c :: Z) = Chunk.sep c :: T := by
  by_cases hc : c = '.'
  · subst hc
    cases hp : accPat old Z with
    | none => exact ⟨accCL old nw Z, by rw [accCL_sep_no nw (fun _ => hp)]⟩
    | some cs2 =>
      exact ⟨nw ++ accCL old nw cs2, by rw [accCL_fire nw hp]⟩
  · exact ⟨accCL old nw Z, by rw [accCL_sep_no nw (fun hx => absurd hx hc)]⟩

theorem ws_accCL (y : List Char) (ny : List Chunk) :
    ∀ cs : List Chunk, wsTake (accCL y ny cs) = wsTake cs ∧
      wsDrop (accCL y ny cs) = accCL y ny (wsDrop cs) := by
  intro cs
  induction cs with
  | nil => exact ⟨rfl, rfl⟩
  | cons k rest ih =>
    cases k with
    | run r =>
      rw [accCL_run]
      exact ⟨rfl, by
        show Chunk.run r :: accCL y ny rest = accCL y ny (Chunk.run r :: rest)
        rw [accCL_run]⟩
    | sep c =>
      obtain ⟨T, hT⟩ := accCL_sep_shape y ny c rest
      rw [hT]
      by_cases hws : isGoSpace c = true
      · have hdot : ¬ c = '.' := by
          intro hx
          rw [hx] at hws
          simp [isGoSpace] at hws
        have hT2 : T = accCL y ny rest := by
          rw [accCL_sep_no ny (fun hx => absurd hx hdot)] at hT
          exact (by simpa using hT : accCL y ny rest = T).symm
        subst hT2
        constructor
        · show wsTake (Chunk.sep c :: accCL y ny rest) =
            wsTake (Chunk.sep c :: rest)
          simp only [wsTake, if_pos hws]
          rw [ih.1]
        · show wsDrop (Chunk.sep c :: accCL y ny rest) =
            accCL y ny (wsDrop (Chunk.sep c :: rest))
          simp only [wsDrop, if_pos hws]
          exact ih.2
      · constructor
        · show wsTake (Chunk.sep c :: T) = wsTake (Chunk.sep c :: rest)
          simp only [wsTake, if_neg hws]
        · show wsDrop (Chunk.sep c :: T) = accCL y ny (wsDrop (Chunk.sep c :: rest))
          simp only [wsDrop, if_neg hws]
          exact hT.symm

theorem ws_tagCL (y : List Char) (ny : List Chunk) :
    ∀ cs : List Chunk, wsTake (tagCL y ny cs) = wsTake cs ∧
      wsDrop (tagCL y ny cs) = tagCL y ny (wsDrop cs) := by
  intro cs
  induction cs with
  | nil => exact ⟨rfl, rfl⟩
  | cons k rest ih =>
    cases k with
    | run r =>
      obtain ⟨T, hT⟩ := tagCL_run_shape y ny r rest
      rw [hT]
      exact ⟨rfl, by
        show Chunk.run r :: T = tagCL y ny (Chunk.run r :: rest)
        rw [hT]⟩
    | sep c =>
      rw [tagCL_sep]
      by_cases hws : isGoSpace c = true
      · constructor
        · show wsTake (Chunk.sep c :: tagCL y ny rest) =
            wsTake (Chunk.sep c :: rest)
          simp only [wsTake, if_pos hws]
          rw [ih.1]
        · show wsDrop (Chunk.sep c :: tagCL y ny rest) =
            tagCL y ny (wsDrop (Chunk.sep c :: rest))
          simp only [wsDrop, if_pos hws]
          exact ih.2
      · constructor
        · show wsTake (Chunk.sep c :: tagCL y ny rest) =
            wsTake (Chunk.sep c :: rest)
          simp only [wsTake, if_neg hws]
        · show wsDrop (Chunk.sep c :: tagCL y ny rest) =
            tagCL y ny (wsDrop (Chunk.sep c :: rest))
          simp only [wsDrop, if_neg hws]
          rw [tagCL_sep]

theorem accPat_none_run {y r : List Char} (h : r ≠ y) (X : List Chunk) :
    accPat y (Chunk.run r :: X) = none := by
  simp only [accPat]
  rw [if_neg h]

theorem tagPat_none_c1 {y : List Char} {c1 : Char} (h : c1 ≠ ':') :
    ∀ X : List Chunk, tagPat y (Chunk.sep c1 :: X) = none := by
  intro X
  cases X with
  | nil => rfl
  | cons k2 X2 =>
    cases k2 with
    | run r => rfl
    | sep c2 =>
      cases X2 with
      | nil => rfl
      | cons k3 X3 =>
        cases k3 with
        | sep c => rfl
        | run r =>
          cases X3 with
          | nil => rfl
          | cons k4 X4 =>
            cases k4 with
            | run v => rfl
            | sep c3 =>
              simp only [tagPat]
              rw [if_neg (fun hc => h hc.1)]

theorem tagPat_none_c2 {y : List Char} {c2 : Char} (h : c2 ≠ '"') (c1 : Char) :
    ∀ X : List Chunk, tagPat y (Chunk.sep c1 :: Chunk.sep c2 :: X) = none := by
  intro X
  cases X with
  | nil => rfl
  | cons k3 X3 =>
    cases k3 with
    | sep c => rfl
    | run r =>
      cases X3 with
      | nil => rfl
      | cons k4 X4 =>
        cases k4 with
        | run v => rfl
        | sep c3 =>
          simp only [tagPat]
          rw [if_neg (fun hc => h hc.2.1)]

theorem tagPat_none_r {y u : List Char} (h : u ≠ y) (c1 c2 : Char) :
    ∀ X : List Chunk,
      tagPat y (Chunk.sep c1 :: Chunk.sep c2 :: Chunk.run u :: X) = none := by
  intro X
  cases X with
  | nil => rfl
  | cons k4 X4 =>
    cases k4 with
    | run v => rfl
    | sep c3 =>
      simp only [tagPat]
      rw [if_neg (fun hc => h hc.2.2.1)]

theorem tagPat_none_c3 {y : List Char} {c3 : Char} (h : c3 ≠ '"')
    (c1 c2 : Char) (u : List Char) (X : List Chunk) :
    tagPat y (Chunk.sep c1 :: Chunk.sep c2 :: Chunk.run u :: Chunk.sep c3 :: X) =
      none := by
  simp only [tagPat]
  rw [if_neg (fun hc => h hc.2.2.2)]

theorem pre_sep_ne_dot {pre : List Char}
    (hsh : (pre.all isGoSpace = true ∧ pre ≠ []) ∨
      (∃ ws', pre = ws' ++ ['*'] ∧ ws'.all isGoSpace = true ∧ ws' ≠ [])) :
    ∀ c ∈ pre, c ≠ '.' := by
  intro c hc
  rcases hsh with ⟨hall, _⟩ | ⟨ws', hpre, hall, _⟩
  · have := List.all_eq_true.mp hall c hc
    intro hx
    rw [hx] at this
    simp [isGoSpace] at this
  · subst hpre
    rw [List.mem_append, List.mem_singleton] at hc
    rcases hc with hc | rfl
    · have := List.all_eq_true.mp hall c hc
      intro hx
      rw [hx] at this
      simp [isGoSpace] at this
    · decide

theorem declTailC_some_acc (y : List Char) (ny : List Chunk) {cs : List Chunk}
    {pre w r2} (h : declTailC cs = some (pre, w, r2)) :
    declTailC (accCL y ny cs) = some (pre, w, accCL y ny r2) := by
  have hsh := declTailC_shape h
  obtain ⟨hcs, _⟩ := declTailC_split h
  rw [hcs]
  rw [accCL_walk ny (pre.map Chunk.sep) (by
    intro c hc
    rcases List.mem_map.mp hc with ⟨c0, hc0, he⟩
    cases he
    exact pre_sep_ne_dot hsh _ hc0)]
  rw [accCL_run]
  exact declTailC_build hsh w (accCL y ny r2)

theorem declTailC_some_tag (y : List Char) (ny : List Chunk) {cs : List Chunk}
    {pre w r2} (h : declTailC cs = some (pre, w, r2)) :
    ∃ T, declTailC (tagCL y ny cs) = some (pre, w, T) ∧
      tagCL y ny (Chunk.run w :: r2) = Chunk.run w :: T := by
  have hsh := declTailC_shape h
  obtain ⟨hcs, _⟩ := declTailC_split h
  obtain ⟨T, hT⟩ := tagCL_run_shape y ny w r2
  refine ⟨T, ?_, hT⟩
  rw [hcs]
  rw [tagCL_walk ny (pre.map Chunk.sep) (by
    intro r hr
    exfalso
    rcases List.mem_map.mp hr with ⟨c0, _, he⟩
    cases he)]
  rw [hT]
  exact declTailC_build hsh w T

theorem declTailC_none_acc (y : List Char) (ny : List Chunk) {cs : List Chunk}
    (h : declTailC cs = none) : declTailC (accCL y ny cs) = none := by
  have hws := ws_accCL y ny cs
  unfold declTailC at h ⊢
  rw [hws.1, hws.2]
  by_cases he : (wsTake cs).isEmpty
  · rw [if_pos he]
  · rw [if_neg he] at h ⊢
    cases hd : wsDrop cs with
    | nil => rfl
    | cons k r1 =>
      rw [hd] at h
      cases k with
      | run w0 => simp at h
      | sep c =>
        simp only at h
        by_cases hc : c = '*'
        · rw [if_pos hc] at h
          have hstar : ¬ c = '.' := by rw [hc]; decide
          rw [accCL_sep_no ny (fun hx => absurd hx hstar)]
          simp only
          rw [if_pos hc]
          cases r1 with
          | nil => rfl
          | cons k1 r1t =>
            cases k1 with
            | run w1 => simp at h
            | sep c1 =>
              obtain ⟨T, hT⟩ := accCL_sep_shape y ny c1 r1t
              rw [hT]
        · obtain ⟨T, hT⟩ := accCL_sep_shape y ny c r1
          rw [hT]
          simp only
          rw [if_neg hc]

theorem declTailC_none_tag (y : List Char) (ny : List Chunk) {cs : List Chunk}
    (h : declTailC cs = none) : declTailC (tagCL y ny cs) = none := by
  have hws := ws_tagCL y ny cs
  unfold declTailC at h ⊢
  rw [hws.1, hws.2]
  by_cases he : (wsTake cs).isEmpty
  · rw [if_pos he]
  · rw [if_neg he] at h ⊢
    cases hd : wsDrop cs with
    | nil => rfl
    | cons k r1 =>
      rw [hd] at h
      cases k with
      | run w0 => simp at h
      | sep c =>
        rw [tagCL_sep]
        simp only at h ⊢
        by_cases hc : c = '*'
        · rw [if_pos hc] at h ⊢
          cases r1 with
          | nil => rfl
          | cons k1 r1t =>
            cases k1 with
            | run w1 => simp at h
            | sep c1 => rw [tagCL_sep]
        · rw [if_neg hc]

theorem accPat_decl {x y : List Char} {nx : List Chunk}
    (hnxh : ∃ w wt, nx = Chunk.run w :: wt)
    (hnxr : ∀ r, Chunk.run r ∈ nx → r ≠ y) :
    ∀ cs : List Chunk,
      (accPat y cs = none → accPat y (declCL x nx cs) = none) ∧
      (∀ cs2, accPat y cs = some cs2 →
        y ≠ x → accPat y (declCL x nx cs) = some (declCL x nx cs2)) := by
  intro cs
  constructor
  · intro h
    cases cs with
    | nil => rfl
    | cons k rest =>
      cases k with
      | sep c => rw [declCL_sep]; rfl
      | run r =>
        have hry : r ≠ y := by
          intro hx
          rw [hx] at h
          simp [accPat] at h
        by_cases hrx : r = x
        · subst hrx
          cases hsp : declTailC rest with
          | none =>
            rw [declCL_run_none nx hsp]
            exact accPat_none_run hry _
          | some pr =>
            obtain ⟨pre, w, r2⟩ := pr
            rw [declCL_fire nx hsp]
            obtain ⟨w0, wt, hw⟩ := hnxh
            rw [hw]
            simp only [List.cons_append, List.append_assoc]
            exact accPat_none_run (hnxr w0 (by rw [hw]; simp)) _
        · rw [declCL_run_no nx hrx]
          exact accPat_none_run hry _
  · intro cs2 h hyx
    have hcs := accPat_split h
    rw [hcs, declCL_run_no nx hyx]
    simp only [accPat]
    rw [if_pos trivial]

theorem accPat_acc (z y : List Char) (nz : List Chunk) :
    ∀ cs : List Chunk,
      (accPat y cs = none → accPat y (accCL z nz cs) = none) ∧
      (∀ cs2, accPat y cs = some cs2 →
        accPat y (accCL z nz cs) = some (accCL z nz cs2)) := by
  intro cs
  constructor
  · intro h
    cases cs with
    | nil => rfl
    | cons k rest =>
      cases k with
      | sep c =>
        obtain ⟨T, hT⟩ := accCL_sep_shape z nz c rest
        rw [hT]
        rfl
      | run r =>
        have hry : r ≠ y := by
          intro hx
          rw [hx] at h
          simp [accPat] at h
        rw [accCL_run]
        exact accPat_none_run hry _
  · intro cs2 h
    have hcs := accPat_split h
    rw [hcs, accCL_run]
    simp only [accPat]
    rw [if_pos trivial]

theorem accPat_tag {z y : List Char} (nz : List Chunk)
    (hyjs : jsonSfx.isSuffixOf y = false) :
    ∀ cs : List Chunk,
      (accPat y cs = none → accPat y (tagCL z nz cs) = none) ∧
      (∀ cs2, accPat y cs = some cs2 →
        accPat y (tagCL z nz cs) = some (tagCL z nz cs2)) := by
  intro cs
  constructor
  · intro h
    cases cs with
    | nil => rfl
    | cons k rest =>
      cases k with
      | sep c => rw [tagCL_sep]; rfl
      | run r =>
        have hry : r ≠ y := by
          intro hx
          rw [hx] at h
          simp [accPat] at h
        obtain ⟨T, hT⟩ := tagCL_run_shape z nz r rest
        rw [hT]
        exact accPat_none_run hry _
  · intro cs2 h
    have hcs := accPat_split h
    rw [hcs, tagCL_run_no nz (fun hj => absurd hj (by simp [hyjs]))]
    simp only [accPat]
    rw [if_pos trivial]

theorem tagPat_decl {x y : List Char} {nx : List Chunk}
    (hnxh : ∃ w wt, nx = Chunk.run w :: wt)
    (hnxr : ∀ r, Chunk.run r ∈ nx → r ≠ y)
    (hyx : y ≠ x) :
    ∀ cs : List Chunk,
      (tagPat y cs = none → tagPat y (declCL x nx cs) = none) ∧
      (∀ cs2, tagPat y cs = some cs2 →
        tagPat y (declCL x nx cs) = some (declCL x nx cs2)) := by
  intro cs
  constructor
  · intro h
    cases cs with
    | nil => rfl
    | cons k1 rest1 =>
      cases k1 with
      | run r =>
        obtain ⟨u, us, hu⟩ := declCL_head_run hnxh r rest1
        rw [hu]
        rfl
      | sep c1 =>
        rw [declCL_sep]
        cases rest1 with
        | nil => rfl
        | cons k2 rest2 =>
          cases k2 with
          | run r =>
            obtain ⟨u, us, hu⟩ := declCL_head_run hnxh r rest2
            rw [hu]
            rfl
          | sep c2 =>
            rw [declCL_sep]
            cases rest2 with
            | nil => rfl
            | cons k3 rest3 =>
              cases k3 with
              | sep c => rw [declCL_sep]; rfl
              | run r =>
                by_cases hry : r = y
                · have hrx : r ≠ x := fun h2 => hyx (hry.symm.trans h2)
                  rw [declCL_run_no nx hrx]
                  cases rest3 with
                  | nil => rfl
                  | cons k4 rest4 =>
                    cases k4 with
                    | run v =>
                      obtain ⟨u, us, hu⟩ := declCL_head_run hnxh v rest4
                      rw [hu]
                      rfl
                    | sep c3 =>
                      rw [declCL_sep]
                      simp only [tagPat] at h ⊢
                      by_cases hcond : c1 = ':' ∧ c2 = '"' ∧ r = y ∧ c3 = '"'
                      · rw [if_pos hcond] at h
                        cases h
                      · rw [if_neg hcond]
                · by_cases hrx : r = x
                  · cases hsp : declTailC rest3 with
                    | none =>
                      rw [hrx, declCL_run_none nx hsp]
                      exact tagPat_none_r (fun h2 => hyx h2.symm) _ _ _
                    | some pr =>
                      obtain ⟨pre, w, r2⟩ := pr
                      rw [hrx, declCL_fire nx hsp]
                      obtain ⟨w0, wt, hw⟩ := hnxh
                      rw [hw]
                      simp only [List.cons_append, List.append_assoc]
                      exact tagPat_none_r (hnxr w0 (by rw [hw]; simp)) _ _ _
                  · rw [declCL_run_no nx hrx]
                    exact tagPat_none_r hry _ _ _
  · intro cs2 h
    have hcs := tagPat_split h
    rw [hcs, declCL_sep, declCL_sep, declCL_run_no nx hyx, declCL_sep]
    simp only [tagPat]
    rw [if_pos ⟨trivial, trivial, trivial, trivial⟩]

theorem tagPat_acc (z y : List Char) (nz : List Chunk) :
    ∀ cs : List Chunk,
      (tagPat y cs = none → tagPat y (accCL z nz cs) = none) ∧
      (∀ cs2, tagPat y cs = some cs2 →
        tagPat y (accCL z nz cs) = some (accCL z nz cs2)) := by
  intro cs
  constructor
  · intro h
    cases cs with
    | nil => rfl
    | cons k1 rest1 =>
      cases k1 with
      | run r => rw [accCL_run]; rfl
      | sep c1 =>
        by_cases hc1 : c1 = ':'
        · rw [accCL_sep_no nz (fun hx => absurd (hc1.symm.trans hx) (by decide))]
          cases rest1 with
          | nil => rfl
          | cons k2 rest2 =>
            cases k2 with
            | run r => rw [accCL_run]; rfl
            | sep c2 =>
              by_cases hc2 : c2 = '"'
              · rw [accCL_sep_no nz
                  (fun hx => absurd (hc2.symm.trans hx) (by decide))]
                cases rest2 with
                | nil => rfl
                | cons k3 rest3 =>
                  cases k3 with
                  | sep c =>
                    obtain ⟨T, hT⟩ := accCL_sep_shape z nz c rest3
                    rw [hT]
                    rfl
                  | run r =>
                    rw [accCL_run]
                    by_cases hry : r = y
                    · cases rest3 with
                      | nil => rfl
                      | cons k4 rest4 =>
                        cases k4 with
                        | run v => rw [accCL_run]; rfl
                        | sep c3 =>
                          by_cases hc3 : c3 = '"'
                          · exfalso
                            rw [hc1, hc2, hry, hc3] at h
                            simp [tagPat] at h
                          · obtain ⟨T, hT⟩ := accCL_sep_shape z nz c3 rest4
                            rw [hT]
                            exact tagPat_none_c3 hc3 _ _ _ _
                    · exact tagPat_none_r hry _ _ _
              · obtain ⟨T, hT⟩ := accCL_sep_shape z nz c2 rest2
                rw [hT]
                exact tagPat_none_c2 hc2 _ _
        · obtain ⟨T, hT⟩ := accCL_sep_shape z nz c1 rest1
          rw [hT]
          exact tagPat_none_c1 hc1 _
  · intro cs2 h
    have hcs := tagPat_split h
    rw [hcs]
    rw [accCL_sep_no nz (fun hx => absurd hx (by decide))]
    rw [accCL_sep_no nz (fun hx => absurd hx (by decide))]
    rw [accCL_run]
    rw [accCL_sep_no nz (fun hx => absurd hx (by decide))]
    simp only [tagPat]
    rw [if_pos ⟨trivial, trivial, trivial, trivial⟩]

theorem tagPat_tag {z y : List Char} (nz : List Chunk)
    (hyjs : jsonSfx.isSuffixOf y = false) :
    ∀ cs : List Chunk,
      (tagPat y cs = none → tagPat y (tagCL z nz cs) = none) ∧
      (∀ cs2, tagPat y cs = some cs2 →
        tagPat y (tagCL z nz cs) = some (tagCL z nz cs2)) := by
  intro cs
  constructor
  · intro h
    cases cs with
    | nil => rfl
    | cons k1 rest1 =>
      cases k1 with
      | run r =>
        obtain ⟨T, hT⟩ := tagCL_run_shape z nz r rest1
        rw [hT]
        rfl
      | sep c1 =>
        rw [tagCL_sep]
        cases rest1 with
        | nil => rfl
        | cons k2 rest2 =>
          cases k2 with
          | run r =>
            obtain ⟨T, hT⟩ := tagCL_run_shape z nz r rest2
            rw [hT]
            rfl
          | sep c2 =>
            rw [tagCL_sep]
            cases rest2 with
            | nil => rfl
            | cons k3 rest3 =>
              cases k3 with
              | sep c => rw [tagCL_sep]; rfl
              | run r =>
                by_cases hry : r = y
                · rw [tagCL_run_no nz
                    (fun hj => absurd hj (by rw [hry]; simp [hyjs]))]
                  cases rest3 with
                  | nil => rfl
                  | cons k4 rest4 =>
                    cases k4 with
                    | run v =>
                      obtain ⟨T, hT⟩ := tagCL_run_shape z nz v rest4
                      rw [hT]
                      rfl
                    | sep c3 =>
                      rw [tagCL_sep]
                      simp only [tagPat] at h ⊢
                      by_cases hcond : c1 = ':' ∧ c2 = '"' ∧ r = y ∧ c3 = '"'
                      · rw [if_pos hcond] at h
                        cases h
                      · rw [if_neg hcond]
                · obtain ⟨T, hT⟩ := tagCL_run_shape z nz r rest3
                  rw [hT]
                  exact tagPat_none_r hry _ _ _
  · intro cs2 h
    have hcs := tagPat_split h
    rw [hcs, tagCL_sep, tagCL_sep,
      tagCL_run_no nz (fun hj => absurd hj (by simp [hyjs])), tagCL_sep]
    simp only [tagPat]
    rw [if_pos ⟨trivial, trivial, trivial, trivial⟩]

theorem accPat_self (y : List Char) (X : List Chunk) :
    accPat y (Chunk.run y :: X) = some X := by
  simp only [accPat]
  rw [if_pos trivial]

theorem tagPat_self (y : List Char) (X : List Chunk) :
    tagPat y (Chunk.sep ':' :: Chunk.sep '"' :: Chunk.run y :: Chunk.sep '"' :: X) =
      some X := by
  simp only [tagPat]
  rw [if_pos ⟨trivial, trivial, trivial, trivial⟩]

/-- Two member-access passes for distinct rules commute. -/
theorem accCL_comm (x y : List Char) (nx ny : List Chunk) (hxy : x ≠ y)
    (hnxh : ∃ w wt, nx = Chunk.run w :: wt) (hnyh : ∃ w wt, ny = Chunk.run w :: wt)
    (hnxd : ∀ c, Chunk.sep c ∈ nx → c ≠ '.') (hnyd : ∀ c, Chunk.sep c ∈ ny → c ≠ '.')
    (hnxr : ∀ r, Chunk.run r ∈ nx → r ≠ y) (hnyr : ∀ r, Chunk.run r ∈ ny → r ≠ x) :
    ∀ (n : Nat) (cs : List Chunk), cs.length ≤ n →
      accCL x nx (accCL y ny cs) = accCL y ny (accCL x nx cs) := by
  intro n
  induction n using Nat.strong_induction_on with
  | _ n ih =>
    intro cs hf
    cases cs with
    | nil => rfl
    | cons k rest =>
      have hrl : rest.length + 1 ≤ n := by simpa using hf
      cases k with
      | run r =>
        rw [accCL_run, accCL_run, accCL_run, accCL_run,
          ih rest.length (by omega) rest (le_refl _)]
      | sep c =>
        by_cases hc : c = '.'
        · subst hc
          cases hpy : accPat y rest with
          | some cs2 =>
            have hsplit := accPat_split hpy
            have hyx : y ≠ x := fun h2 => hxy h2.symm
            have hpx : accPat x rest = none := by
              rw [hsplit]
              exact accPat_none_run hyx _
            obtain ⟨w0, wt, hw⟩ := hnyh
            have hlen : cs2.length + 2 ≤ n := by
              have := congrArg List.length hsplit
              simp at this
              omega
            have hnone : accPat x (ny ++ accCL y ny cs2) = none := by
              rw [hw, List.cons_append]
              exact accPat_none_run (hnyr w0 (by rw [hw]; simp)) _
            rw [accCL_fire ny hpy]
            rw [accCL_sep_no nx (fun _ => hnone)]
            rw [accCL_walk nx ny hnyd]
            rw [accCL_sep_no nx (fun _ => hpx), hsplit, accCL_run]
            rw [accCL_fire ny (accPat_self y _)]
            rw [ih cs2.length (by omega) cs2 (le_refl _)]
          | none =>
            cases hpx : accPat x rest with
            | some cs2 =>
              have hsplit := accPat_split hpx
              obtain ⟨w0, wt, hw⟩ := hnxh
              have hlen : cs2.length + 2 ≤ n := by
                have := congrArg List.length hsplit
                simp at this
                omega
              have hnone : accPat y (nx ++ accCL x nx cs2) = none := by
                rw [hw, List.cons_append]
                exact accPat_none_run (hnxr w0 (by rw [hw]; simp)) _
              rw [accCL_fire nx hpx]
              rw [accCL_sep_no ny (fun _ => hnone)]
              rw [accCL_walk ny nx hnxd]
              rw [accCL_sep_no ny (fun _ => hpy), hsplit, accCL_run]
              rw [accCL_fire nx (accPat_self x _)]
              rw [ih cs2.length (by omega) cs2 (le_refl _)]
            | none =>
              rw [accCL_sep_no ny (fun _ => hpy), accCL_sep_no nx (fun _ => hpx)]
              rw [accCL_sep_no nx (fun _ => (accPat_acc y x ny rest).1 hpx)]
              rw [accCL_sep_no ny (fun _ => (accPat_acc x y nx rest).1 hpy)]
              rw [ih rest.length (by omega) rest (le_refl _)]
        · have hno : ∀ (z : List Char) (nz : List Chunk) (Z : List Chunk),
              accCL z nz (Chunk.sep c :: Z) = Chunk.sep c :: accCL z nz Z :=
            fun z nz Z => accCL_sep_no nz (fun hx => absurd hx hc)
          rw [hno, hno, hno, hno, ih rest.length (by omega) rest (le_refl _)]

/-- A declaration pass and a member-access pass for distinct rules commute. -/
theorem decl_acc_comm (x y : List Char) (nx ny : List Chunk) (hxy : x ≠ y)
    (hnxh : ∃ w wt, nx = Chunk.run w :: wt)
    (hnxd : ∀ c, Chunk.sep c ∈ nx → c ≠ '.')
    (hnxr : ∀ r, Chunk.run r ∈ nx → r ≠ y)
    (hnyr : ∀ r, Chunk.run r ∈ ny → r ≠ x) :
    ∀ (n : Nat) (cs : List Chunk), cs.length ≤ n →
      declCL x nx (accCL y ny cs) = accCL y ny (declCL x nx cs) := by
  intro n
  induction n using Nat.strong_induction_on with
  | _ n ih =>
    intro cs hf
    cases cs with
    | nil => rfl
    | cons k rest =>
      have hrl : rest.length + 1 ≤ n := by simpa using hf
      cases k with
      | run r =>
        by_cases hrx : r = x
        · subst hrx
          cases hsp : declTailC rest with
          | some pr =>
            obtain ⟨pre, w, r2⟩ := pr
            have hsh := declTailC_shape hsp
            have hsome := declTailC_some_acc y ny hsp
            have hwalkc : ∀ c, Chunk.sep c ∈ nx ++ pre.map Chunk.sep → c ≠ '.' := by
              intro c hc
              rw [List.mem_append] at hc
              rcases hc with hc | hc
              · exact hnxd c hc
              · rcases List.mem_map.mp hc with ⟨c0, hc0, he⟩
                cases he
                exact pre_sep_ne_dot hsh _ hc0
            rw [accCL_run, declCL_fire nx hsome, declCL_fire nx hsp]
            rw [accCL_walk ny (nx ++ pre.map Chunk.sep) hwalkc]
            rw [accCL_run]
            rw [ih r2.length (by have := declTailC_len hsp; omega) r2 (le_refl _)]
          | none =>
            rw [accCL_run, declCL_run_none nx (declTailC_none_acc y ny hsp),
              declCL_run_none nx hsp, accCL_run,
              ih rest.length (by omega) rest (le_refl _)]
        · rw [accCL_run, declCL_run_no nx hrx, declCL_run_no nx hrx, accCL_run,
            ih rest.length (by omega) rest (le_refl _)]
      | sep c =>
        by_cases hc : c = '.'
        · subst hc
          cases hpy : accPat y rest with
          | some cs2 =>
            have hsplit := accPat_split hpy
            have hyx : y ≠ x := fun h2 => hxy h2.symm
            have hlen : cs2.length + 2 ≤ n := by
              have := congrArg List.length hsplit
              simp at this
              omega
            rw [accCL_fire ny hpy, declCL_sep]
            rw [declCL_walk nx ny hnyr]
            rw [declCL_sep, hsplit, declCL_run_no nx hyx]
            rw [accCL_fire ny (accPat_self y _)]
            rw [ih cs2.length (by omega) cs2 (le_refl _)]
          | none =>
            rw [accCL_sep_no ny (fun _ => hpy), declCL_sep, declCL_sep]
            rw [accCL_sep_no ny (fun _ => (accPat_decl hnxh hnxr rest).1 hpy)]
            rw [ih rest.length (by omega) rest (le_refl _)]
        · rw [accCL_sep_no ny (fun hx => absurd hx hc), declCL_sep, declCL_sep,
            accCL_sep_no ny (fun hx => absurd hx hc),
            ih rest.length (by omega) rest (le_refl _)]

/-- A member-access pass and a json-tag pass for distinct rules commute. -/
theorem acc_tag_comm (x y : List Char) (nx ny : List Chunk)
    (hnxj : ∀ r, Chunk.run r ∈ nx → jsonSfx.isSuffixOf r = false)
    (hnyd : ∀ c, Chunk.sep c ∈ ny → c ≠ '.')
    (hxjs : jsonSfx.isSuffixOf x = false) :
    ∀ (n : Nat) (cs : List Chunk), cs.length ≤ n →
      accCL x nx (tagCL y ny cs) = tagCL y ny (accCL x nx cs) := by
  intro n
  induction n using Nat.strong_induction_on with
  | _ n ih =>
    intro cs hf
    have hq1 : ∀ Z, accCL x nx (Chunk.sep ':' :: Z) = Chunk.sep ':' :: accCL x nx Z :=
      fun Z => accCL_sep_no nx (fun hx => absurd hx (by decide))
    have hq2 : ∀ Z, accCL x nx (Chunk.sep '"' :: Z) = Chunk.sep '"' :: accCL x nx Z :=
      fun Z => accCL_sep_no nx (fun hx => absurd hx (by decide))
    cases cs with
    | nil => rfl
    | cons k rest =>
      have hrl : rest.length + 1 ≤ n := by simpa using hf
      cases k with
      | sep c =>
        by_cases hc : c = '.'
        · subst hc
          cases hpx : accPat x rest with
          | some cs2 =>
            have hsplit := accPat_split hpx
            have hlen : cs2.length + 2 ≤ n := by
              have := congrArg List.length hsplit
              simp at this
              omega
            rw [hsplit]
            rw [tagCL_sep, tagCL_run_no ny (fun hjx => absurd hjx (by simp [hxjs]))]
            rw [accCL_fire nx (accPat_self x (tagCL y ny cs2))]
            rw [accCL_fire nx (accPat_self x cs2)]
            rw [tagCL_sep, tagCL_walk ny nx hnxj]
            rw [ih cs2.length (by omega) cs2 (le_refl _)]
          | none =>
            rw [tagCL_sep, accCL_sep_no nx (fun _ => (accPat_tag ny hxjs rest).1 hpx)]
            rw [accCL_sep_no nx (fun _ => hpx), tagCL_sep]
            rw [ih rest.length (by omega) rest (le_refl _)]
        · rw [tagCL_sep, accCL_sep_no nx (fun hx => absurd hx hc),
            accCL_sep_no nx (fun hx => absurd hx hc), tagCL_sep,
            ih rest.length (by omega) rest (le_refl _)]
      | run r =>
        by_cases hj : jsonSfx.isSuffixOf r = true
        · cases hpy : tagPat y rest with
          | some cs2 =>
            have hsplit := tagPat_split hpy
            have hlen : cs2.length + 5 ≤ n := by
              have := congrArg List.length hsplit
              simp at this
              omega
            have hL : accCL x nx (tagCL y ny (Chunk.run r :: rest)) =
                Chunk.run r :: Chunk.sep ':' :: Chunk.sep '"' ::
                  (ny ++ Chunk.sep '"' :: accCL x nx (tagCL y ny cs2)) := by
              rw [tagCL_fire ny hj hpy, accCL_run, hq1, hq2,
                accCL_walk nx ny hnyd, hq2]
            have hR : tagCL y ny (accCL x nx (Chunk.run r :: rest)) =
                Chunk.run r :: Chunk.sep ':' :: Chunk.sep '"' ::
                  (ny ++ Chunk.sep '"' :: tagCL y ny (accCL x nx cs2)) := by
              rw [hsplit, accCL_run, hq1, hq2, accCL_run, hq2]
              rw [tagCL_fire ny hj (tagPat_self y _)]
            rw [hL, hR, ih cs2.length (by omega) cs2 (le_refl _)]
          | none =>
            have hnr : tagCL y ny (Chunk.run r :: rest) =
                Chunk.run r :: tagCL y ny rest :=
              tagCL_run_no ny (fun _ => hpy)
            have hnr2 : tagCL y ny (Chunk.run r :: accCL x nx rest) =
                Chunk.run r :: tagCL y ny (accCL x nx rest) :=
              tagCL_run_no ny (fun _ => (tagPat_acc x y nx rest).1 hpy)
            rw [hnr, accCL_run, accCL_run, hnr2,
              ih rest.length (by omega) rest (le_refl _)]
        · have hno1 : tagCL y ny (Chunk.run r :: rest) =
              Chunk.run r :: tagCL y ny rest :=
            tagCL_run_no ny (fun hx => absurd hx hj)
          have hno2 : tagCL y ny (Chunk.run r :: accCL x nx rest) =
              Chunk.run r :: tagCL y ny (accCL x nx rest) :=
            tagCL_run_no ny (fun hx => absurd hx hj)
          rw [hno1, accCL_run, accCL_run, hno2,
            ih rest.length (by omega) rest (le_refl _)]

/-- Two json-tag passes for distinct rules commute. -/
theorem tagCL_comm (x y : List Char) (nx ny : List Chunk) (hxy : x ≠ y)
    (hnxh : ∃ w wt, nx = Chunk.run w :: wt) (hnyh : ∃ w wt, ny = Chunk.run w :: wt)
    (hnxj : ∀ r, Chunk.run r ∈ nx → jsonSfx.isSuffixOf r = false)
    (hnyj : ∀ r, Chunk.run r ∈ ny → jsonSfx.isSuffixOf r = false)
    (hnxr : ∀ r, Chunk.run r ∈ nx → r ≠ y)
    (hnyr : ∀ r, Chunk.run r ∈ ny → r ≠ x)
    (hxjs : jsonSfx.isSuffixOf x = false) (hyjs : jsonSfx.isSuffixOf y = false) :
    ∀ (n : Nat) (cs : List Chunk), cs.length ≤ n →
      tagCL x nx (tagCL y ny cs) = tagCL y ny (tagCL x nx cs) := by
  intro n
  induction n using Nat.strong_induction_on with
  | _ n ih =>
    intro cs hf
    cases cs with
    | nil => rfl
    | cons k rest =>
      have hrl : rest.length + 1 ≤ n := by simpa using hf
      cases k with
      | sep c =>
        rw [tagCL_sep, tagCL_sep, tagCL_sep, tagCL_sep,
          ih rest.length (by omega) rest (le_refl _)]
      | run r =>
        by_cases hj : jsonSfx.isSuffixOf r = true
        · cases hpy : tagPat y rest with
          | some cs2 =>
            have hsplit := tagPat_split hpy
            have hyx : y ≠ x := fun h2 => hxy h2.symm
            have hlen : cs2.length + 5 ≤ n := by
              have := congrArg List.length hsplit
              simp at this
              omega
            have hpimg : tagPat x (Chunk.sep ':' :: Chunk.sep '"' ::
                (ny ++ Chunk.sep '"' :: tagCL y ny cs2)) = none := by
              obtain ⟨w0, wt, hw⟩ := hnyh
              rw [hw, List.cons_append]
              exact tagPat_none_r (hnyr w0 (by rw [hw]; simp)) _ _ _
            have hL : tagCL x nx (tagCL y ny (Chunk.run r :: rest)) =
                Chunk.run r :: Chunk.sep ':' :: Chunk.sep '"' ::
                  (ny ++ Chunk.sep '"' :: tagCL x nx (tagCL y ny cs2)) := by
              rw [tagCL_fire ny hj hpy, tagCL_run_no nx (fun _ => hpimg),
                tagCL_sep, tagCL_sep, tagCL_walk nx ny hnyj, tagCL_sep]
            have hR : tagCL y ny (tagCL x nx (Chunk.run r :: rest)) =
                Chunk.run r :: Chunk.sep ':' :: Chunk.sep '"' ::
                  (ny ++ Chunk.sep '"' :: tagCL y ny (tagCL x nx cs2)) := by
              rw [hsplit, tagCL_run_no nx (fun _ => tagPat_none_r hyx _ _ _),
                tagCL_sep, tagCL_sep,
                tagCL_run_no nx (fun hjy => absurd hjy (by simp [hyjs])),
                tagCL_sep, tagCL_fire ny hj (tagPat_self y _)]
            rw [hL, hR, ih cs2.length (by omega) cs2 (le_refl _)]
          | none =>
            cases hpx : tagPat x rest with
            | some cs2 =>
              have hsplit := tagPat_split hpx
              have hlen : cs2.length + 5 ≤ n := by
                have := congrArg List.length hsplit
                simp at this
                omega
              have hpimg : tagPat y (Chunk.sep ':' :: Chunk.sep '"' ::
                  (nx ++ Chunk.sep '"' :: tagCL x nx cs2)) = none := by
                obtain ⟨w0, wt, hw⟩ := hnxh
                rw [hw, List.cons_append]
                exact tagPat_none_r (hnxr w0 (by rw [hw]; simp)) _ _ _
              have hL : tagCL x nx (tagCL y ny (Chunk.run r :: rest)) =
                  Chunk.run r :: Chunk.sep ':' :: Chunk.sep '"' ::
                    (nx ++ Chunk.sep '"' :: tagCL x nx (tagCL y ny cs2)) := by
                rw [hsplit, tagCL_run_no ny (fun _ => tagPat_none_r hxy _ _ _),
                  tagCL_sep, tagCL_sep,
                  tagCL_run_no ny (fun hjx => absurd hjx (by simp [hxjs])),
                  tagCL_sep, tagCL_fire nx hj (tagPat_self x _)]
              have hR : tagCL y ny (tagCL x nx (Chunk.run r :: rest)) =
                  Chunk.run r :: Chunk.sep ':' :: Chunk.sep '"' ::
                    (nx ++ Chunk.sep '"' :: tagCL y ny (tagCL x nx cs2)) := by
                rw [tagCL_fire nx hj hpx, tagCL_run_no ny (fun _ => hpimg),
                  tagCL_sep, tagCL_sep, tagCL_walk ny nx hnxj, tagCL_sep]
              rw [hL, hR, ih cs2.length (by omega) cs2 (le_refl _)]
            | none =>
              have hn1 : tagCL y ny (Chunk.run r :: rest) =
                  Chunk.run r :: tagCL y ny rest :=
                tagCL_run_no ny (fun _ => hpy)
              have hn2 : tagCL x nx (Chunk.run r :: tagCL y ny rest) =
                  Chunk.run r :: tagCL x nx (tagCL y ny rest) :=
                tagCL_run_no nx (fun _ => (tagPat_tag ny hxjs rest).1 hpx)
              have hn3 : tagCL x nx (Chunk.run r :: rest) =
                  Chunk.run r :: tagCL x nx rest :=
                tagCL_run_no nx (fun _ => hpx)
              have hn4 : tagCL y ny (Chunk.run r :: tagCL x nx rest) =
                  Chunk.run r :: tagCL y ny (tagCL x nx rest) :=
                tagCL_run_no ny (fun _ => (tagPat_tag nx hyjs rest).1 hpy)
              rw [hn1, hn2, hn3, hn4, ih rest.length (by omega) rest (le_refl _)]
        · have hno1 : tagCL y ny (Chunk.run r :: rest) =
              Chunk.run r :: tagCL y ny rest :=
            tagCL_run_no ny (fun hx => absurd hx hj)
          have hno2 : tagCL x nx (Chunk.run r :: tagCL y ny rest) =
              Chunk.run r :: tagCL x nx (tagCL y ny rest) :=
            tagCL_run_no nx (fun hx => absurd hx hj)
          have hno3 : tagCL x nx (Chunk.run r :: rest) =
              Chunk.run r :: tagCL x nx rest :=
            tagCL_run_no nx (fun hx => absurd hx hj)
          have hno4 : tagCL y ny (Chunk.run r :: tagCL x nx rest) =
              Chunk.run r :: tagCL y ny (tagCL x nx rest) :=
            tagCL_run_no ny (fun hx => absurd hx hj)
          rw [hno1, hno2, hno3, hno4, ih rest.length (by omega) rest (le_refl _)]

/-- A declaration pass and a json-tag pass for distinct rules commute. -/
theorem decl_tag_comm (x y : List Char) (nx ny : List Chunk) (hxy : x ≠ y)
    (hnxh : ∃ w wt, nx = Chunk.run w :: wt)
    (hnxj : ∀ r, Chunk.run r ∈ nx → jsonSfx.isSuffixOf r = false)
    (hnxr : ∀ r, Chunk.run r ∈ nx → r ≠ y)
    (hnyr : ∀ r, Chunk.run r ∈ ny → r ≠ x)
    (hxjs : jsonSfx.isSuffixOf x = false) :
    ∀ (n : Nat) (cs : List Chunk), cs.length ≤ n →
      declCL x nx (tagCL y ny cs) = tagCL y ny (declCL x nx cs) := by
  have hyx : y ≠ x := fun h2 => hxy h2.symm
  intro n
  induction n using Nat.strong_induction_on with
  | _ n ih =>
    intro cs hf
    cases cs with
    | nil => rfl
    | cons k rest =>
      have hrl : rest.length + 1 ≤ n := by simpa using hf
      cases k with
      | sep c =>
        rw [tagCL_sep, declCL_sep, declCL_sep, tagCL_sep,
          ih rest.length (by omega) rest (le_refl _)]
      | run r =>
        by_cases hrx : r = x
        · rw [hrx]
          have htx : ∀ Z, tagCL y ny (Chunk.run x :: Z) =
              Chunk.run x :: tagCL y ny Z :=
            fun Z => tagCL_run_no ny (fun hjx => absurd hjx (by simp [hxjs]))
          cases hsp : declTailC rest with
          | some pr =>
            obtain ⟨pre, w, r2⟩ := pr
            obtain ⟨T, hsomeT, hTdef⟩ := declTailC_some_tag y ny hsp
            have hlr2 := declTailC_len hsp
            have hwalkj : ∀ rr, Chunk.run rr ∈ nx ++ pre.map Chunk.sep →
                jsonSfx.isSuffixOf rr = false := by
              intro rr hrr
              rw [List.mem_append] at hrr
              rcases hrr with hrr | hrr
              · exact hnxj rr hrr
              · exfalso
                rcases List.mem_map.mp hrr with ⟨c0, _, he⟩
                cases he
            have key : tagCL y ny (Chunk.run w :: declCL x nx r2) =
                Chunk.run w :: declCL x nx T := by
              by_cases hjw : jsonSfx.isSuffixOf w = true
              · cases hp2 : tagPat y r2 with
                | some cs2 =>
                  have hT : T = Chunk.sep ':' :: Chunk.sep '"' ::
                      (ny ++ Chunk.sep '"' :: tagCL y ny cs2) := by
                    have hd := hTdef
                    rw [tagCL_fire ny hjw hp2] at hd
                    injection hd with h1 h2
                    exact h2.symm
                  have hlen : cs2.length + 4 ≤ r2.length := by
                    have := congrArg List.length (tagPat_split hp2)
                    simp at this
                    omega
                  rw [hT]
                  rw [tagCL_fire ny hjw ((tagPat_decl hnxh hnxr hyx r2).2 cs2 hp2)]
                  rw [declCL_sep, declCL_sep, declCL_walk nx ny hnyr, declCL_sep]
                  rw [ih cs2.length (by omega) cs2 (le_refl _)]
                | none =>
                  have hT : T = tagCL y ny r2 := by
                    have hd := hTdef
                    rw [tagCL_run_no ny (fun _ => hp2)] at hd
                    injection hd with h1 h2
                    exact h2.symm
                  rw [hT,
                    tagCL_run_no ny (fun _ => (tagPat_decl hnxh hnxr hyx r2).1 hp2)]
                  rw [ih r2.length (by omega) r2 (le_refl _)]
              · have hT : T = tagCL y ny r2 := by
                  have hd := hTdef
                  rw [tagCL_run_no ny (fun hxx => absurd hxx hjw)] at hd
                  injection hd with h1 h2
                  exact h2.symm
                rw [hT, tagCL_run_no ny (fun hxx => absurd hxx hjw)]
                rw [ih r2.length (by omega) r2 (le_refl _)]
            rw [htx rest, declCL_fire nx hsomeT, declCL_fire nx hsp]
            rw [tagCL_walk ny (nx ++ pre.map Chunk.sep) hwalkj]
            rw [key]
          | none =>
            rw [htx rest, declCL_run_none nx (declTailC_none_tag y ny hsp),
              declCL_run_none nx hsp, htx _,
              ih rest.length (by omega) rest (le_refl _)]
        · have hdx : ∀ Z, declCL x nx (Chunk.run r :: Z) =
              Chunk.run r :: declCL x nx Z :=
            fun Z => declCL_run_no nx hrx Z
          by_cases hj : jsonSfx.isSuffixOf r = true
          · cases hpy : tagPat y rest with
            | some cs2 =>
              have hsplit := tagPat_split hpy
              have hlen : cs2.length + 5 ≤ n := by
                have := congrArg List.length hsplit
                simp at this
                omega
              have hL : declCL x nx (tagCL y ny (Chunk.run r :: rest)) =
                  Chunk.run r :: Chunk.sep ':' :: Chunk.sep '"' ::
                    (ny ++ Chunk.sep '"' :: declCL x nx (tagCL y ny cs2)) := by
                rw [tagCL_fire ny hj hpy, hdx _, declCL_sep, declCL_sep,
                  declCL_walk nx ny hnyr, declCL_sep]
              have hR : tagCL y ny (declCL x nx (Chunk.run r :: rest)) =
                  Chunk.run r :: Chunk.sep ':' :: Chunk.sep '"' ::
                    (ny ++ Chunk.sep '"' :: tagCL y ny (declCL x nx cs2)) := by
                rw [hsplit, hdx _, declCL_sep, declCL_sep, declCL_run_no nx hyx,
                  declCL_sep, tagCL_fire ny hj (tagPat_self y _)]
              rw [hL, hR, ih cs2.length (by omega) cs2 (le_refl _)]
            | none =>
              have hn1 : tagCL y ny (Chunk.run r :: rest) =
                  Chunk.run r :: tagCL y ny rest :=
                tagCL_run_no ny (fun _ => hpy)
              have hn2 : tagCL y ny (Chunk.run r :: declCL x nx rest) =
                  Chunk.run r :: tagCL y ny (declCL x nx rest) :=
                tagCL_run_no ny (fun _ => (tagPat_decl hnxh hnxr hyx rest).1 hpy)
              rw [hn1, hdx _, hdx _, hn2, ih rest.length (by omega) rest (le_refl _)]
          · have hno1 : tagCL y ny (Chunk.run r :: rest) =
                Chunk.run r :: tagCL y ny rest :=
              tagCL_run_no ny (fun hxx => absurd hxx hj)
            have hno2 : tagCL y ny (Chunk.run r :: declCL x nx rest) =
                Chunk.run r :: tagCL y ny (declCL x nx rest) :=
              tagCL_run_no ny (fun hxx => absurd hxx hj)
            rw [hno1, hdx _, hdx _, hno2, ih rest.length (by omega) rest (le_refl _)]

/-- The three-pattern field pass for two distinct rules commutes at the
chunk level. -/
theorem fieldPassC_comm (x y : List Char) (nx ny : List Chunk) (hxy : x ≠ y)
    (hnxh : ∃ w wt, nx = Chunk.run w :: wt) (hnyh : ∃ w wt, ny = Chunk.run w :: wt)
    (hnxd : ∀ c, Chunk.sep c ∈ nx → c ≠ '.') (hnyd : ∀ c, Chunk.sep c ∈ ny → c ≠ '.')
    (hnxj : ∀ r, Chunk.run r ∈ nx → jsonSfx.isSuffixOf r = false)
    (hnyj : ∀ r, Chunk.run r ∈ ny → jsonSfx.isSuffixOf r = false)
    (hnxr : ∀ r, Chunk.run r ∈ nx → r ≠ y)
    (hnyr : ∀ r, Chunk.run r ∈ ny → r ≠ x)
    (hxjs : jsonSfx.isSuffixOf x = false) (hyjs : jsonSfx.isSuffixOf y = false)
    (cs : List Chunk) :
    fieldPassC x nx (fieldPassC y ny cs) = fieldPassC y ny (fieldPassC x nx cs) := by
  have hyx : y ≠ x := fun h2 => hxy h2.symm
  have swapDT : ∀ Z, declCL x nx (tagCL y ny Z) = tagCL y ny (declCL x nx Z) :=
    fun Z => decl_tag_comm x y nx ny hxy hnxh hnxj hnxr hnyr hxjs Z.length Z
      (le_refl _)
  have swapAT : ∀ Z, accCL x nx (tagCL y ny Z) = tagCL y ny (accCL x nx Z) :=
    fun Z => acc_tag_comm x y nx ny hnxj hnyd hxjs Z.length Z (le_refl _)
  have swapTT : ∀ Z, tagCL x nx (tagCL y ny Z) = tagCL y ny (tagCL x nx Z) :=
    fun Z => tagCL_comm x y nx ny hxy hnxh hnyh hnxj hnyj hnxr hnyr hxjs hyjs
      Z.length Z (le_refl _)
  have swapDA : ∀ Z, declCL x nx (accCL y ny Z) = accCL y ny (declCL x nx Z) :=
    fun Z => decl_acc_comm x y nx ny hxy hnxh hnxd hnxr hnyr Z.length Z (le_refl _)
  have swapAA : ∀ Z, accCL x nx (accCL y ny Z) = accCL y ny (accCL x nx Z) :=
    fun Z => accCL_comm x y nx ny hxy hnxh hnyh hnxd hnyd hnxr hnyr Z.length Z
      (le_refl _)
  have swapTA : ∀ Z, tagCL x nx (accCL y ny Z) = accCL y ny (tagCL x nx Z) :=
    fun Z => (acc_tag_comm y x ny nx hnyj hnxd hyjs Z.length Z (le_refl _)).symm
  have swapDD : ∀ Z, declCL x nx (declCL y ny Z) = declCL y ny (declCL x nx Z) :=
    fun Z => declCL_comm x y nx ny hxy hnxh hnyh hnxr hnyr Z
  have swapAD : ∀ Z, accCL x nx (declCL y ny Z) = declCL y ny (accCL x nx Z) :=
    fun Z => (decl_acc_comm y x ny nx hyx hnyh hnyd hnyr hnxr Z.length Z
      (le_refl _)).symm
  have swapTD : ∀ Z, tagCL x nx (declCL y ny Z) = declCL y ny (tagCL x nx Z) :=
    fun Z => (decl_tag_comm y x ny nx hyx hnyh hnyj hnyr hnxr hyjs Z.length Z
      (le_refl _)).symm
  show tagCL x nx (accCL x nx (declCL x nx
      (tagCL y ny (accCL y ny (declCL y ny cs))))) =
    tagCL y ny (accCL y ny (declCL y ny
      (tagCL x nx (accCL x nx (declCL x nx cs)))))
  rw [swapDT (accCL y ny (declCL y ny cs)),
    swapAT (declCL x nx (accCL y ny (declCL y ny cs))),
    swapTT (accCL x nx (declCL x nx (accCL y ny (declCL y ny cs)))),
    swapDA (declCL y ny cs),
    swapAA (declCL x nx (declCL y ny cs)),
    swapTA (accCL x nx (declCL x nx (declCL y ny cs))),
    swapDD cs,
    swapAD (declCL x nx cs),
    swapTD (accCL x nx (declCL x nx cs))]

/-- `replaceFieldName` applications for two rules with disjoint targets
commute, via the chunk-level simulation. -/
theorem replaceFieldNameL_comm (x nwx y nwy : List Char) (nxC nyC : List Chunk)
    (hxy : x ≠ y)
    (hxne : x ≠ []) (hxw : x.all isWordChar = true)
    (hyne : y ≠ []) (hyw : y.all isWordChar = true)
    (hnxre : renderC nxC = nwx) (hnxwf : CWF false nxC = true)
    (hnyre : renderC nyC = nwy) (hnywf : CWF false nyC = true)
    (hnxh : ∃ w wt, nxC = Chunk.run w :: wt) (hnyh : ∃ w wt, nyC = Chunk.run w :: wt)
    (hnxd : ∀ c, Chunk.sep c ∈ nxC → c ≠ '.')
    (hnyd : ∀ c, Chunk.sep c ∈ nyC → c ≠ '.')
    (hnxj : ∀ r, Chunk.run r ∈ nxC → jsonSfx.isSuffixOf r = false)
    (hnyj : ∀ r, Chunk.run r ∈ nyC → jsonSfx.isSuffixOf r = false)
    (hnxr : ∀ r, Chunk.run r ∈ nxC → r ≠ y)
    (hnyr : ∀ r, Chunk.run r ∈ nyC → r ≠ x)
    (hxjs : jsonSfx.isSuffixOf x = false) (hyjs : jsonSfx.isSuffixOf y = false)
    (s : List Char) :
    replaceFieldNameL (replaceFieldNameL s x nwx) y nwy =
      replaceFieldNameL (replaceFieldNameL s y nwy) x nwx := by
  have hr : renderC (parseCF s.length s) = s := render_parse s.length s (le_refl _)
  have hwf : CWF false (parseCF s.length s) = true :=
    parse_wf s.length s false (le_refl _) (fun hb => absurd hb (by decide))
  have simx := replaceFieldName_sim x nwx nxC hxne hxw hnxre hnxwf
  have simy := replaceFieldName_sim y nwy nyC hyne hyw hnyre hnywf
  have h1 : replaceFieldNameL s x nwx =
      renderC (fieldPassC x nxC (parseCF s.length s)) := by
    conv_lhs => rw [← hr]
    exact simx _ hwf
  have h2 : replaceFieldNameL s y nwy =
      renderC (fieldPassC y nyC (parseCF s.length s)) := by
    conv_lhs => rw [← hr]
    exact simy _ hwf
  rw [h1, h2]
  rw [simy _ (fieldPassC_wf hnxwf false hwf)]
  rw [simx _ (fieldPassC_wf hnywf false hwf)]
  rw [fieldPassC_comm y x nyC nxC (fun h => hxy h.symm) hnyh hnxh hnyd hnxd hnyj
    hnxj hnyr hnxr hyjs hxjs]

/-! ## Side conditions of the extracted rename rules -/

theorem isDigit_isWordChar (c : Char) (h : c.isDigit = true) :
    isWordChar c = true := by
  simp [isWordChar, Char.isAlphanum, h]

theorem takeWhile_all_eq (p : Char → Bool) : ∀ l : List Char,
    (l.takeWhile p).all p = true := by
  intro l
  induction l with
  | nil => rfl
  | cons c t ih =>
    by_cases hp : p c = true
    · rw [List.takeWhile_cons, if_pos hp]
      simpa [hp] using ih
    · rw [List.takeWhile_cons, if_neg (by simp [hp])]
      rfl

theorem findDigitRunsF_digits : ∀ (f : Nat) (s : List Char),
    ∀ d ∈ findDigitRunsF f s, d ≠ [] ∧ d.all Char.isDigit = true := by
  intro f
  induction f with
  | zero => intro s d hd; cases hd
  | succ f ih =>
    intro s d hd
    cases s with
    | nil => cases hd
    | cons c t =>
      rw [findDigitRunsF] at hd
      by_cases hc : markerPfx.isPrefixOf (c :: t) ∧
          (((c :: t).drop markerPfx.length).headD 'x').isDigit
      · rw [if_pos hc] at hd
        simp only [List.mem_cons] at hd
        rcases hd with rfl | hd
        · constructor
          · cases hdr : (c :: t).drop markerPfx.length with
            | nil =>
              exfalso
              have := hc.2
              rw [hdr] at this
              simp [List.headD] at this
            | cons c0 t0 =>
              have hc0 : c0.isDigit = true := by
                have := hc.2
                rw [hdr] at this
                simpa [List.headD] using this
              simp [List.takeWhile_cons, hc0]
          · exact takeWhile_all_eq _ _
        · exact ih _ d hd
      · rw [if_neg hc] at hd
        exact ih t d hd

theorem goAtoi_digits (d : List Char) (code : Int) (hne : d ≠ [])
    (hall : d.all Char.isDigit = true) (hA : goAtoi d = some code) :
    ∃ n : Nat, code = Int.ofNat n := by
  cases d with
  | nil => exact absurd rfl hne
  | cons c t =>
    unfold goAtoi at hA
    split at hA
    · cases hA
    · exfalso
      rename_i rest heq
      injection heq with h1 h2
      rw [h1] at hall
      simp only [List.all_cons, Bool.and_eq_true] at hall
      exact absurd hall.1 (by decide)
    · exfalso
      rename_i rest heq
      injection heq with h1 h2
      rw [h1] at hall
      simp only [List.all_cons, Bool.and_eq_true] at hall
      exact absurd hall.1 (by decide)
    · split at hA
      · injection hA with h1
        exact ⟨_, h1.symm⟩
      · cases hA

theorem markerPfx_old_ne_nil (d : List Char) : markerPfx ++ d ≠ [] := by
  intro h
  have := congrArg List.length h
  simp [markerPfx] at this

theorem markerPfx_old_word (d : List Char) (hall : d.all Char.isDigit = true) :
    (markerPfx ++ d).all isWordChar = true := by
  rw [List.all_append]
  refine Bool.and_eq_true_iff.mpr ⟨by decide, ?_⟩
  rw [List.all_eq_true] at hall ⊢
  exact fun c hc => isDigit_isWordChar c (hall c hc)

theorem last_digit_no_json {l : List Char} (hne : l ≠ [])
    (hlast : ∀ c, l.getLast? = some c → c.isDigit = true) :
    jsonSfx.isSuffixOf l = false := by
  by_contra h
  have hsuf : jsonSfx <:+ l :=
    List.isSuffixOf_iff_suffix.mp (by simpa using h)
  obtain ⟨p, hp⟩ := hsuf
  have hgl : l.getLast? = some 'n' := by
    rw [← hp, List.getLast?_append]
    rfl
  have := hlast 'n' hgl
  exact absurd this (by decide)

theorem all_digit_getLast {l : List Char} (hall : l.all Char.isDigit = true) :
    ∀ c, l.getLast? = some c → c.isDigit = true := by
  intro c hc
  exact List.all_eq_true.mp hall c (List.mem_of_mem_getLast? hc)

theorem markerPfx_old_no_json (d : List Char) (hne : d ≠ [])
    (hall : d.all Char.isDigit = true) :
    jsonSfx.isSuffixOf (markerPfx ++ d) = false := by
  apply last_digit_no_json (markerPfx_old_ne_nil d)
  intro c hc
  rw [List.getLast?_append] at hc
  obtain ⟨cd, hcd⟩ := Option.isSome_iff_exists.mp (List.getLast?_isSome.mpr hne)
  rw [hcd] at hc
  have hcc : cd = c := by
    have : (some cd).or markerPfx.getLast? = some cd := rfl
    rw [this] at hc
    injection hc
  exact hcc ▸ all_digit_getLast hall cd hcd

/-- The structural conditions on a replacement's chunk form that make a
rename rule non-interfering: the rendering starts with a word run, no
separator is a dot, and no run carries the marker prefix or the `json`
suffix. -/
def goodNewChunks (cs : List Chunk) : Bool :=
  (match cs with | Chunk.run _ :: _ => true | _ => false) &&
  cs.all fun k => match k with
    | Chunk.run r => !(markerPfx.isPrefixOf r) && !(jsonSfx.isSuffixOf r)
    | Chunk.sep c => !(c == '.')

/-- The conditions on a replacement text, via its canonical chunking. -/
def goodNewStr (v : List Char) : Bool := goodNewChunks (parseCF v.length v)

theorem goodNewStr_spec {v : List Char} (h : goodNewStr v = true) :
    (∃ w wt, parseCF v.length v = Chunk.run w :: wt) ∧
    (∀ c, Chunk.sep c ∈ parseCF v.length v → c ≠ '.') ∧
    (∀ r, Chunk.run r ∈ parseCF v.length v → markerPfx.isPrefixOf r = false) ∧
    (∀ r, Chunk.run r ∈ parseCF v.length v → jsonSfx.isSuffixOf r = false) := by
  unfold goodNewStr goodNewChunks at h
  rw [Bool.and_eq_true] at h
  obtain ⟨h1, h2⟩ := h
  rw [List.all_eq_true] at h2
  refine ⟨?_, ?_, ?_, ?_⟩
  · cases hP : parseCF v.length v with
    | nil => rw [hP] at h1; simp at h1
    | cons k rest =>
      cases k with
      | sep c => rw [hP] at h1; simp at h1
      | run w => exact ⟨w, rest, rfl⟩
  · intro c hc
    have := h2 _ hc
    simp only [Bool.not_eq_true'] at this
    simpa using this
  · intro r hr
    have := h2 _ hr
    simp only [Bool.and_eq_true, Bool.not_eq_true'] at this
    exact this.1
  · intro r hr
    have := h2 _ hr
    simp only [Bool.and_eq_true, Bool.not_eq_true'] at this
    exact this.2

theorem goodNew_runs_ne_old {v d : List Char} (h : goodNewStr v = true) :
    ∀ r, Chunk.run r ∈ parseCF v.length v → r ≠ markerPfx ++ d := by
  intro r hr he
  have hpfx := (goodNewStr_spec h).2.2.1 r hr
  rw [he] at hpfx
  have hpre : markerPfx.isPrefixOf (markerPfx ++ d) = true :=
    List.isPrefixOf_iff_prefix.mpr (List.prefix_append _ _)
  rw [hpre] at hpfx
  cases hpfx

theorem isDigit_isWordChar_all {v : List Char} (hall : v.all Char.isDigit = true) :
    v.all isWordChar = true := by
  rw [List.all_eq_true] at hall ⊢
  exact fun c hc => isDigit_isWordChar c (hall c hc)

theorem parse_all_word {v : List Char} (hne : v ≠ [])
    (hw : v.all isWordChar = true) : parseCF v.length v = [Chunk.run v] := by
  cases v with
  | nil => exact absurd rfl hne
  | cons c t =>
    have hc : isWordChar c = true := by
      rw [List.all_eq_true] at hw
      exact hw c (by simp)
    have htk : (c :: t).takeWhile isWordChar = c :: t := by
      rw [List.takeWhile_eq_self_iff]
      rw [List.all_eq_true] at hw
      exact hw
    have hdp : (c :: t).dropWhile isWordChar = [] := by
      rw [List.dropWhile_eq_nil_iff]
      rw [List.all_eq_true] at hw
      exact hw
    show parseCF (t.length + 1) (c :: t) = [Chunk.run (c :: t)]
    rw [parseCF, if_pos hc, htk, hdp]
    cases t with
    | nil => rfl
    | cons a b => rfl

theorem marker_not_prefix_digits {c : Char} (t : List Char) (hc : c.isDigit = true) :
    markerPfx.isPrefixOf (c :: t) = false := by
  cases hB : markerPfx.isPrefixOf (c :: t)
  · rfl
  · exfalso
    obtain ⟨q, hq⟩ := List.isPrefixOf_iff_prefix.mp hB
    rw [show markerPfx = 'A' :: "pplicationproblemJSON".data from by decide] at hq
    rw [List.cons_append] at hq
    injection hq with hq1 hq2
    rw [← hq1] at hc
    exact absurd hc (by decide)

theorem goodNewStr_digits {v : List Char} (hne : v ≠ [])
    (hall : v.all Char.isDigit = true) : goodNewStr v = true := by
  unfold goodNewStr
  rw [parse_all_word hne (isDigit_isWordChar_all hall)]
  unfold goodNewChunks
  simp only [List.all_cons, List.all_nil]
  cases v with
  | nil => exact absurd rfl hne
  | cons c t =>
    have hcd : c.isDigit = true := by
      rw [List.all_eq_true] at hall
      exact hall c (by simp)
    rw [marker_not_prefix_digits t hcd,
      last_digit_no_json hne (all_digit_getLast hall)]
    rfl

theorem digitChar_digit {m : Nat} (hm : m < 10) :
    (Nat.digitChar m).isDigit = true := by
  have h : ∀ n, n < 10 → (Nat.digitChar n).isDigit = true := by decide
  exact h m hm

theorem toDigitsCore_digits : ∀ (fuel n : Nat) (acc : List Char),
    (∀ c ∈ acc, c.isDigit = true) →
    ∀ c ∈ Nat.toDigitsCore 10 fuel n acc, c.isDigit = true := by
  intro fuel
  induction fuel with
  | zero =>
    intro n acc hacc c hc
    exact hacc c hc
  | succ fuel ih =>
    intro n acc hacc c hc
    have hstep : Nat.toDigitsCore 10 (fuel + 1) n acc =
        if n / 10 = 0 then Nat.digitChar (n % 10) :: acc
        else Nat.toDigitsCore 10 fuel (n / 10) (Nat.digitChar (n % 10) :: acc) :=
      rfl
    rw [hstep] at hc
    have hd : (Nat.digitChar (n % 10)).isDigit = true :=
      digitChar_digit (Nat.mod_lt _ (by omega))
    by_cases h10 : n / 10 = 0
    · rw [if_pos h10] at hc
      rcases List.mem_cons.mp hc with rfl | hc2
      · exact hd
      · exact hacc c hc2
    · rw [if_neg h10] at hc
      refine ih (n / 10) _ ?_ c hc
      intro c2 hc2
      rcases List.mem_cons.mp hc2 with rfl | h
      · exact hd
      · exact hacc c2 h

theorem toDigitsCore_ne_nil : ∀ (fuel n : Nat) (acc : List Char),
    acc ≠ [] → Nat.toDigitsCore 10 fuel n acc ≠ [] := by
  intro fuel
  induction fuel with
  | zero => intro n acc h; exact h
  | succ fuel ih =>
    intro n acc h
    have hstep : Nat.toDigitsCore 10 (fuel + 1) n acc =
        if n / 10 = 0 then Nat.digitChar (n % 10) :: acc
        else Nat.toDigitsCore 10 fuel (n / 10) (Nat.digitChar (n % 10) :: acc) :=
      rfl
    rw [hstep]
    by_cases h10 : n / 10 = 0
    · rw [if_pos h10]
      simp
    · rw [if_neg h10]
      exact ih (n / 10) _ (by simp)

theorem natRepr_data (n : Nat) :
    (Nat.repr n).data = Nat.toDigitsCore 10 (n + 1) n [] := rfl

theorem natRepr_ne_nil (n : Nat) : (Nat.repr n).data ≠ [] := by
  rw [natRepr_data]
  cases hs : Nat.toDigitsCore 10 (n + 1) n [] with
  | nil =>
    exfalso
    have hstep : Nat.toDigitsCore 10 (n + 1) n [] =
        if n / 10 = 0 then [Nat.digitChar (n % 10)]
        else Nat.toDigitsCore 10 n (n / 10) [Nat.digitChar (n % 10)] := rfl
    rw [hstep] at hs
    by_cases h10 : n / 10 = 0
    · rw [if_pos h10] at hs
      cases hs
    · rw [if_neg h10] at hs
      exact toDigitsCore_ne_nil n (n / 10) _ (by simp) hs
  | cons a b => simp

theorem natRepr_digits (n : Nat) : (Nat.repr n).data.all Char.isDigit = true := by
  rw [natRepr_data, List.all_eq_true]
  exact toDigitsCore_digits (n + 1) n [] (by intro c hc; cases hc)

set_option maxHeartbeats 2000000 in
/-- Every non-empty status phrase despaces to a structurally good
replacement text. -/
theorem statusText_good : ∀ code : Int, statusText code = "" ∨
    goodNewStr (removeSpaces (statusText code)).data = true := by
  intro code
  unfold statusText
  split
  all_goals first
  | (left; rfl)
  | (right; decide)

/-- The derived kind name of any non-negative status code is a
structurally good replacement text. -/
theorem goodNew_httpStatusName (n : Nat) :
    goodNewStr (httpStatusName (Int.ofNat n)).data = true := by
  have hunf : httpStatusName (Int.ofNat n) =
      if statusText (Int.ofNat n) = "" then intDecimal (Int.ofNat n)
      else removeSpaces (statusText (Int.ofNat n)) := rfl
  by_cases he : statusText (Int.ofNat n) = ""
  · have h1 : httpStatusName (Int.ofNat n) = intDecimal (Int.ofNat n) := by
      rw [hunf, if_pos he]
    rw [h1]
    rw [show intDecimal (Int.ofNat n) = Nat.repr n from rfl]
    exact goodNewStr_digits (natRepr_ne_nil n) (natRepr_digits n)
  · have h1 : httpStatusName (Int.ofNat n) =
        removeSpaces (statusText (Int.ofNat n)) := by
      rw [hunf, if_neg he]
    rw [h1]
    rcases statusText_good (Int.ofNat n) with h | h
    · exact absurd h he
    · exact h

/-- The extraction loop's entries, with the digit-run facts carried
from the scanner. -/
theorem extractLoop_entries2 :
    ∀ (ds : List (List Char)) (acc : List (List Char × String)),
      (∀ d ∈ ds, d ≠ [] ∧ d.all Char.isDigit = true) →
      (∀ p ∈ acc, ∃ d code, p.1 = markerPfx ++ d ∧ d ≠ [] ∧
        d.all Char.isDigit = true ∧ goAtoi d = some code ∧
        p.2 = httpStatusName code) →
      ∀ p ∈ extractLoop ds acc,
        ∃ d code, p.1 = markerPfx ++ d ∧ d ≠ [] ∧ d.all Char.isDigit = true ∧
          goAtoi d = some code ∧ p.2 = httpStatusName code := by
  intro ds
  induction ds with
  | nil => intro acc hds hacc; simpa [extractLoop] using hacc
  | cons d ds ih =>
    intro acc hds hacc
    simp only [extractLoop]
    by_cases hl : ((acc.lookup (markerPfx ++ d)).isSome = true)
    · rw [if_pos hl]
      exact ih acc (fun d' hd' => hds d' (List.mem_cons_of_mem _ hd')) hacc
    · rw [if_neg hl]
      cases hA : goAtoi d with
      | none =>
        exact ih acc (fun d' hd' => hds d' (List.mem_cons_of_mem _ hd')) hacc
      | some code =>
        apply ih _ (fun d' hd' => hds d' (List.mem_cons_of_mem _ hd'))
        intro p hp
        rcases List.mem_append.1 hp with hp' | hp'
        · exact hacc p hp'
        · simp only [List.mem_singleton] at hp'
          rw [hp']
          obtain ⟨hne, hdig⟩ := hds d (List.mem_cons_self ..)
          exact ⟨d, code, rfl, hne, hdig, hA, rfl⟩

/-- Every extracted error-field rule maps a marker token with a
parseable digit run to the derived kind name. -/
theorem extract_entries (s : List Char) :
    ∀ p ∈ extractErrorFieldMappingsL s,
      ∃ d code, p.1 = markerPfx ++ d ∧ d ≠ [] ∧ d.all Char.isDigit = true ∧
        goAtoi d = some code ∧ p.2 = httpStatusName code := by
  unfold extractErrorFieldMappingsL findDigitRuns
  exact extractLoop_entries2 _ [] (findDigitRunsF_digits s.length s)
    (by intro p hp; cases hp)

/-- A rename rule is well-shaped when its old name is a marker token
with a digit run and its replacement text is structurally good. -/
def ruleOK (p : List Char × String) : Prop :=
  (∃ d, p.1 = markerPfx ++ d ∧ d ≠ [] ∧ d.all Char.isDigit = true) ∧
  goodNewStr p.2.data = true

theorem ruleOK_of_entry {p : List Char × String}
    (h : ∃ d code, p.1 = markerPfx ++ d ∧ d ≠ [] ∧ d.all Char.isDigit = true ∧
      goAtoi d = some code ∧ p.2 = httpStatusName code) : ruleOK p := by
  obtain ⟨d, code, h1, h2, h3, h4, h5⟩ := h
  refine ⟨⟨d, h1, h2, h3⟩, ?_⟩
  obtain ⟨n, hn⟩ := goAtoi_digits d code h2 h3 h4
  rw [h5, hn]
  exact goodNew_httpStatusName n

/-- Two well-shaped rules with distinct old names commute under
`replaceFieldName`. -/
theorem ruleOK_comm {p q : List Char × String} (hp : ruleOK p) (hq : ruleOK q)
    (hne : p.1 ≠ q.1) (z : List Char) :
    replaceFieldNameL (replaceFieldNameL z p.1 p.2.data) q.1 q.2.data =
      replaceFieldNameL (replaceFieldNameL z q.1 q.2.data) p.1 p.2.data := by
  obtain ⟨⟨dp, hp1, hp2, hp3⟩, hpg⟩ := hp
  obtain ⟨⟨dq, hq1, hq2, hq3⟩, hqg⟩ := hq
  have hspecp := goodNewStr_spec hpg
  have hspecq := goodNewStr_spec hqg
  have hpne : p.1 ≠ [] := by rw [hp1]; exact markerPfx_old_ne_nil dp
  have hqne : q.1 ≠ [] := by rw [hq1]; exact markerPfx_old_ne_nil dq
  have hpw : p.1.all isWordChar = true := by
    rw [hp1]; exact markerPfx_old_word dp hp3
  have hqw : q.1.all isWordChar = true := by
    rw [hq1]; exact markerPfx_old_word dq hq3
  have hpj : jsonSfx.isSuffixOf p.1 = false := by
    rw [hp1]; exact markerPfx_old_no_json dp hp2 hp3
  have hqj : jsonSfx.isSuffixOf q.1 = false := by
    rw [hq1]; exact markerPfx_old_no_json dq hq2 hq3
  have hrp : ∀ r, Chunk.run r ∈ parseCF p.2.data.length p.2.data → r ≠ q.1 := by
    intro r hr
    rw [hq1]
    exact goodNew_runs_ne_old hpg r hr
  have hrq : ∀ r, Chunk.run r ∈ parseCF q.2.data.length q.2.data → r ≠ p.1 := by
    intro r hr
    rw [hp1]
    exact goodNew_runs_ne_old hqg r hr
  exact replaceFieldNameL_comm p.1 p.2.data q.1 q.2.data
    (parseCF p.2.data.length p.2.data) (parseCF q.2.data.length q.2.data)
    hne hpne hpw hqne hqw
    (render_parse _ _ (le_refl _))
    (parse_wf _ _ false (le_refl _) (fun hb => absurd hb (by decide)))
    (render_parse _ _ (le_refl _))
    (parse_wf _ _ false (le_refl _) (fun hb => absurd hb (by decide)))
    hspecp.1 hspecq.1
    hspecp.2.1 hspecq.2.1
    hspecp.2.2.2 hspecq.2.2.2
    hrp hrq hpj hqj z

/-- Claim C7: applying the extracted error-field rename rules via
`replaceFieldName` in any order yields the same final text — the
result of the error-rename pass is independent of the iteration order
over the extracted mapping, because the renames target disjoint
identifier sets (distinct marker tokens, and replacement names that
never contain a marker token, a dot separator, or a `json` run). -/
theorem claim_C7 (w t : List Char) (l : List (List Char × String))
    (hperm : l.Perm (extractErrorFieldMappingsL w)) :
    applyRenames t l = applyRenames t (extractErrorFieldMappingsL w) := by
  unfold applyRenames
  refine List.Perm.foldl_eq' hperm ?_ t
  intro x hx y hy z
  by_cases hxy : x = y
  · rw [hxy]
  · have hx2 : x ∈ extractErrorFieldMappingsL w := hperm.subset hx
    have hy2 : y ∈ extractErrorFieldMappingsL w := hperm.subset hy
    have hnd : ((extractErrorFieldMappingsL w).map Prod.fst).Nodup :=
      extractLoop_nodup _ [] (by simp)
    have hkey : x.1 ≠ y.1 := by
      intro hk
      exact hxy (List.inj_on_of_nodup_map hnd hx2 hy2 hk)
    exact ruleOK_comm (ruleOK_of_entry (extract_entries w x hx2))
      (ruleOK_of_entry (extract_entries w y hy2)) hkey z

/-- Witness for claim C7: a two-rule extraction applied in reversed
order gives the same result as the extraction order. -/
theorem claim_C7_witness :
    ([("ApplicationproblemJSON404".data, "NotFound"),
      ("ApplicationproblemJSON400".data, "BadRequest")] :
        List (List Char × String)).Perm
      (extractErrorFieldMappingsL
        "ApplicationproblemJSON400 ApplicationproblemJSON404".data) ∧
    applyRenames "x.ApplicationproblemJSON400 y".data
      [("ApplicationproblemJSON404".data, "NotFound"),
       ("ApplicationproblemJSON400".data, "BadRequest")] =
    applyRenames "x.ApplicationproblemJSON400 y".data
      (extractErrorFieldMappingsL
        "ApplicationproblemJSON400 ApplicationproblemJSON404".data) :=
  ⟨by decide, claim_C7 "ApplicationproblemJSON400 ApplicationproblemJSON404".data
    "x.ApplicationproblemJSON400 y".data
    [("ApplicationproblemJSON404".data, "NotFound"),
     ("ApplicationproblemJSON400".data, "BadRequest")] (by decide)⟩
